import Mathlib

/-!
# Property graph of the conflict explainer

Shallow embedding of `MPropertyGraph<T, U>` from
`libmamba/include/mamba/core/property_graph.hpp`.

* `std::vector` is a `List`, indexed from 0; `push_back` appends at the end.
* `node_id` (`size_t`) is a `Nat`.
* `std::set<node_id>` is a strictly ascending list of ids (`neighs_insert`).
* `std::unordered_map<node_id, edge_list>` is an association list with
  pairwise distinct keys; only lookups and the key set are meaningful, the
  position of a key in the list is not (iteration order is unspecified).
* An index outside a vector is undefined behaviour in the source; the
  embedding returns `none` there.
* `m_levels` holds C++ `int` counters.  Signed overflow is undefined in the
  source, so the counter is a mathematical integer here: the embedding
  agrees with every defined execution (fewer than `2^31 - 1` edges into one
  node).
* The recursion of `get_leaves` is not bounded in the source; the embedding
  takes a fuel argument and returns `none` when it is used up.
-/

namespace mamba

/-- Identifier of a node: `using node_id = size_t`. -/
abbrev node_id := Nat

/-- Outgoing edges of one node:
`using edge_list = std::vector<std::pair<node_id, edge_info>>`. -/
abbrev edge_list (U : Type) := List (node_id × U)

/-- Sources of the edges into one node: `using neighs = std::set<node_id>`. -/
abbrev neighs := List node_id

/-- Root-to-leaf record:
`using node_path = std::unordered_map<node_id, edge_list>`. -/
abbrev node_path (U : Type) := List (node_id × edge_list U)

/-- The four private members of `MPropertyGraph<T, U>`. -/
structure MPropertyGraph (T U : Type) where
  m_node_list : List T
  m_adjacency_list : List (edge_list U)
  m_rev_adjacency_list : List neighs
  m_levels : List Int
deriving DecidableEq, Repr

namespace MPropertyGraph

variable {T U : Type}

/-- A default-constructed graph: every member vector is empty. -/
def empty : MPropertyGraph T U :=
  { m_node_list := [], m_adjacency_list := [], m_rev_adjacency_list := [], m_levels := [] }

/-- Member `get_node(id)`: `m_node_list[id]`. -/
def get_node (g : MPropertyGraph T U) (id : node_id) : Option T :=
  g.m_node_list[id]?

/-- Member `get_edge_list(id)`: `m_adjacency_list[id]`. -/
def get_edge_list (g : MPropertyGraph T U) (id : node_id) : Option (edge_list U) :=
  g.m_adjacency_list[id]?

/-- Member `get_rev_edge_list(id)`: `m_rev_adjacency_list[id]`. -/
def get_rev_edge_list (g : MPropertyGraph T U) (id : node_id) : Option neighs :=
  g.m_rev_adjacency_list[id]?

/-- Member `add_node_impl(value)`: three `push_back`s, then
`m_node_list.size() - 1u`. -/
def add_node_impl (g : MPropertyGraph T U) (value : T) : node_id × MPropertyGraph T U :=
  let g1 : MPropertyGraph T U :=
    { g with
      m_node_list := g.m_node_list ++ [value]
      m_adjacency_list := g.m_adjacency_list ++ [[]]
      m_levels := g.m_levels ++ [0] }
  (g1.m_node_list.length - 1, g1)

/-- Member `add_node(value)`: both overloads forward to `add_node_impl`. -/
def add_node (g : MPropertyGraph T U) (value : T) : node_id × MPropertyGraph T U :=
  g.add_node_impl value

/-- The call `std::set<node_id>::insert`: ordered insertion, nothing happens
when the id is already there. -/
def neighs_insert (x : node_id) : neighs → neighs
  | [] => [x]
  | y :: ys =>
    if x < y then x :: y :: ys
    else if x = y then y :: ys
    else y :: neighs_insert x ys

/-- The call `m_rev_adjacency_list.resize(n)` made when the vector is not
longer than `n - 1`: new places hold the empty set. -/
def rev_resize (rev : List neighs) (n : Nat) : List neighs :=
  rev ++ List.replicate (n - rev.length) []

/-- Member `add_edge(from, to, info)`.  `none` when `m_adjacency_list[from]`
or `m_levels[to]` is outside its vector. -/
def add_edge (g : MPropertyGraph T U) (from_ to_ : node_id) (info : U) :
    Option (MPropertyGraph T U) :=
  if from_ < g.m_adjacency_list.length ∧ to_ < g.m_levels.length then
    let adj := g.m_adjacency_list.modify (fun es => es ++ [(to_, info)]) from_
    let rev :=
      if g.m_rev_adjacency_list.length ≤ to_ then rev_resize g.m_rev_adjacency_list (to_ + 1)
      else g.m_rev_adjacency_list
    let rev := rev.modify (neighs_insert from_) to_
    let lev := g.m_levels.modify (fun l => l + 1) to_
    some { g with m_adjacency_list := adj, m_rev_adjacency_list := rev, m_levels := lev }
  else none

/-- Member `update_node(id, value)`: `m_node_list[id].add(value)`.  The node
type is a template parameter, so its `add` is a parameter here. -/
def update_node {V : Type} (add : T → V → T) (g : MPropertyGraph T U) (id : node_id)
    (value : V) : Option (MPropertyGraph T U) :=
  if id < g.m_node_list.length then
    some { g with m_node_list := g.m_node_list.modify (fun n => add n value) id }
  else none

/-- The loop of `update_edge_if_present` over one outgoing list: the first
entry whose target is `to_` gets `value` merged into its info and the loop
returns `true`; `false` when the end of the list is reached. -/
def update_scan {Y : Type} (add : U → Y → U) (to_ : node_id) (value : Y) :
    edge_list U → Bool × edge_list U
  | [] => (false, [])
  | it :: rest =>
    if it.1 = to_ then (true, (it.1, add it.2 value) :: rest)
    else
      let r := update_scan add to_ value rest
      (r.1, it :: r.2)

/-- Member `update_edge_if_present(from, to, value)`.  The edge type is a
template parameter, so its `add` is a parameter here.  `none` when
`m_adjacency_list[from]` is outside the vector. -/
def update_edge_if_present {Y : Type} (add : U → Y → U) (g : MPropertyGraph T U)
    (from_ to_ : node_id) (value : Y) : Option (Bool × MPropertyGraph T U) :=
  match g.m_adjacency_list[from_]? with
  | none => none
  | some es =>
    let r := update_scan add to_ value es
    some (r.1, { g with m_adjacency_list := g.m_adjacency_list.set from_ r.2 })

/-- Member `get_roots()`: the ids `i < m_levels.size()` with
`m_levels[i] == 0`, pushed in the order of the loop. -/
def get_roots (g : MPropertyGraph T U) : List node_id :=
  (List.range g.m_levels.length).filter (fun i => g.m_levels[i]? == some 0)

/-- Successive `add_node` calls, one per value of the list; the ids are
collected in call order. -/
def add_nodes (g : MPropertyGraph T U) : List T → List node_id × MPropertyGraph T U
  | [] => ([], g)
  | v :: vs =>
    let r := g.add_node v
    let rs := add_nodes r.2 vs
    (r.1 :: rs.1, rs.2)

/-- Read access `paths[key]` on a `node_path`: the list stored under `key`,
the empty list when `key` is not a key. -/
def node_path_at : node_path U → node_id → edge_list U
  | [], _ => []
  | kv :: rest, key => if kv.1 = key then kv.2 else node_path_at rest key

/-- The keys of a `node_path`. -/
def node_path_keys (paths : node_path U) : List node_id :=
  paths.map Prod.fst

/-- The statement `paths[key].insert(paths[key].end(), es.begin(), es.end())`:
`operator[]` creates the key with an empty list when it is absent, then `es`
is appended to the list stored under `key`.  `paths[key].push_back(e)` is the
case `es = [e]`. -/
def node_path_push : node_path U → node_id → edge_list U → node_path U
  | [], key, es => [(key, es)]
  | kv :: rest, key, es =>
    if kv.1 = key then (kv.1, kv.2 ++ es) :: rest
    else kv :: node_path_push rest key es

/-- The loop of `get_leaves` over the outgoing edges:
`path.insert(path.end(), leaves.begin(), leaves.end())` for the leaves of each
edge in turn; `f` is the recursive call. -/
def leaves_loop (f : node_id × U → Option (edge_list U)) :
    edge_list U → edge_list U → Option (edge_list U)
  | path, [] => some path
  | path, edge :: rest =>
    match f edge with
    | none => none
    | some leaves => leaves_loop f (path ++ leaves) rest

/-- Member `get_leaves(node_edge)`.  The recursion is cut after `fuel` nested
calls: `none` when the fuel is used up or when `m_adjacency_list` is read
outside the vector. -/
def get_leaves (g : MPropertyGraph T U) : Nat → node_id × U → Option (edge_list U)
  | 0, _ => none
  | fuel + 1, node_edge =>
    match g.get_edge_list node_edge.1 with
    | none => none
    | some edges =>
      if edges.length = 0 then some [node_edge]
      else leaves_loop (get_leaves g fuel) [] edges

/-- The loop shared by `get_paths_from` and `get_parents_to_leaves`: for each
edge, `paths[edge.first].push_back(edge)` and then the leaves of the edge are
appended to `paths[edge.first]`; `f` is `get_leaves`.  (The line written to
`std::cout` by `get_paths_from` is not part of the returned value.) -/
def paths_loop (f : node_id × U → Option (edge_list U)) :
    node_path U → edge_list U → Option (node_path U)
  | paths, [] => some paths
  | paths, edge :: rest =>
    match f edge with
    | none => none
    | some leaves =>
      paths_loop f (node_path_push (node_path_push paths edge.1 [edge]) edge.1 leaves) rest

/-- Member `get_paths_from(id)`; `fuel` bounds the recursion of `get_leaves`. -/
def get_paths_from (g : MPropertyGraph T U) (fuel : Nat) (id : node_id) :
    Option (node_path U) :=
  match g.get_edge_list id with
  | none => none
  | some edges => paths_loop (g.get_leaves fuel) [] edges

/-- The first loop of `get_parents_to_leaves` over the ids `is`: when
`m_levels[i] == 0` every edge of `get_edge_list(i)` is pushed onto `roots`. -/
def roots_loop (g : MPropertyGraph T U) : edge_list U → List node_id → Option (edge_list U)
  | roots, [] => some roots
  | roots, i :: is =>
    if g.m_levels[i]? == some 0 then
      match g.get_edge_list i with
      | none => none
      | some es => roots_loop g (roots ++ es) is
    else roots_loop g roots is

/-- Member `get_parents_to_leaves()`; `fuel` bounds the recursion of
`get_leaves`. -/
def get_parents_to_leaves (g : MPropertyGraph T U) (fuel : Nat) : Option (node_path U) :=
  match roots_loop g [] (List.range g.m_levels.length) with
  | none => none
  | some roots => paths_loop (g.get_leaves fuel) [] roots

/-- One call of the mutating interface of the graph. -/
inductive Call (T U V Y : Type) where
  | add_node (value : T)
  | add_edge (from_ to_ : node_id) (info : U)
  | update_node (id : node_id) (value : V)
  | update_edge_if_present (from_ to_ : node_id) (value : Y)

/-- The graph after one call; `none` when the call reads outside a vector.
`addT` and `addU` are the `add` members of the node and edge types. -/
def apply_call {V Y : Type} (addT : T → V → T) (addU : U → Y → U) (g : MPropertyGraph T U) :
    Call T U V Y → Option (MPropertyGraph T U)
  | Call.add_node value => some (g.add_node value).2
  | Call.add_edge from_ to_ info => g.add_edge from_ to_ info
  | Call.update_node id value => g.update_node addT id value
  | Call.update_edge_if_present from_ to_ value =>
    (g.update_edge_if_present addU from_ to_ value).map Prod.snd

/-- The graph after a sequence of calls, made in list order. -/
def run_calls {V Y : Type} (addT : T → V → T) (addU : U → Y → U) :
    List (Call T U V Y) → MPropertyGraph T U → Option (MPropertyGraph T U)
  | [], g => some g
  | c :: cs, g =>
    match apply_call addT addU g c with
    | none => none
    | some g1 => run_calls addT addU cs g1

/-- Number of `add_edge` calls of the sequence whose target is `id`. -/
def edge_calls_to {V Y : Type} (cs : List (Call T U V Y)) (id : node_id) : Nat :=
  cs.countP (fun c =>
    match c with
    | Call.add_edge _ to_ _ => to_ == id
    | _ => false)

/-- Number of `add_node` calls of the sequence. -/
def node_calls {V Y : Type} (cs : List (Call T U V Y)) : Nat :=
  cs.countP (fun c =>
    match c with
    | Call.add_node _ => true
    | _ => false)

/-- Number of entries with target `id` over all outgoing-edge lists. -/
def entries_to (g : MPropertyGraph T U) (id : node_id) : Nat :=
  (g.m_adjacency_list.map (fun es => es.countP (fun p => p.1 == id))).sum

/-- The three per-node vectors have the same length. -/
def Sized (g : MPropertyGraph T U) : Prop :=
  g.m_adjacency_list.length = g.m_node_list.length ∧
  g.m_levels.length = g.m_node_list.length

/-- Every outgoing-edge entry targets an existing id. -/
def TargetsExist (g : MPropertyGraph T U) : Prop :=
  ∀ es ∈ g.m_adjacency_list, ∀ p ∈ es, p.1 < g.m_node_list.length

/-- Every level is the number of entries that target the id. -/
def Counted (g : MPropertyGraph T U) : Prop :=
  ∀ id, id < g.m_node_list.length → g.m_levels[id]? = some (entries_to g id : Int)

/-- Node `a` has an outgoing-edge entry with target `b`. -/
def Edge (g : MPropertyGraph T U) (a b : node_id) : Prop :=
  ∃ es, g.get_edge_list a = some es ∧ ∃ p ∈ es, p.1 = b

/-- The adjacency relation has no cycle: no node reaches itself along one or
more edges. -/
def Acyclic (g : MPropertyGraph T U) : Prop :=
  ∀ a, ¬ Relation.TransGen (Edge g) a a

/-- Every entry targets an id larger than its source (a sufficient, checkable
condition for `Acyclic`). -/
def Ascending (g : MPropertyGraph T U) : Prop :=
  ∀ a, a < g.m_adjacency_list.length → ∀ p ∈ g.m_adjacency_list.getD a [], a < p.1

/-- Node `a` exists and has no outgoing edge. -/
def Childless (g : MPropertyGraph T U) (a : node_id) : Prop :=
  g.get_edge_list a = some []

/-- There is a directed path of `k` edges that starts at `a`. -/
def HasWalk (g : MPropertyGraph T U) : Nat → node_id → Prop
  | 0, _ => True
  | k + 1, a => ∃ b, Edge g a b ∧ HasWalk g k b

/-- A directed path from `a` down to a childless node, written as the
positions of its edges in the successive outgoing lists (so parallel edges
give different paths); the empty path when `a` is childless. -/
def IsLeafWalk (g : MPropertyGraph T U) : node_id → List Nat → Prop
  | a, [] => g.get_edge_list a = some []
  | a, i :: w => ∃ es e, g.get_edge_list a = some es ∧ es[i]? = some e ∧ IsLeafWalk g e.1 w

/-- The edges along a path given by positions, starting at `a`. -/
def walk_edges (g : MPropertyGraph T U) : node_id → List Nat → List (node_id × U)
  | _, [] => []
  | a, i :: w =>
    match g.get_edge_list a with
    | none => []
    | some es =>
      match es[i]? with
      | none => []
      | some e => e :: walk_edges g e.1 w

/-- The list returned by `get_leaves`; the empty list stands in when the
call does not return. -/
def leaves_of (g : MPropertyGraph T U) (fuel : Nat) (e : node_id × U) : edge_list U :=
  (g.get_leaves fuel e).getD []

/-- The outgoing edges of the roots, the roots taken in the order of
`get_roots()`. -/
def root_edges (g : MPropertyGraph T U) : edge_list U :=
  (get_roots g).flatMap (fun i => (g.get_edge_list i).getD [])

/-- The last edge of the path that enters through `e` and continues along
`l`: `e` itself when `l` is empty. -/
def last_edge : node_id × U → edge_list U → node_id × U
  | e, [] => e
  | _, e1 :: l => last_edge e1 l

/-- The paths through the edges `es` of one node, the first edge having
position `i` in the outgoing list of that node; `f` lists the paths from a
target down to the childless nodes. -/
def walks_loop (f : node_id → List (List Nat)) : Nat → edge_list U → List (List Nat)
  | _, [] => []
  | i, e :: es => (f e.1).map (fun w => i :: w) ++ walks_loop f (i + 1) es

/-- All directed paths of fewer than `k` edges from `a` down to a childless
node, each written as the positions of its edges. -/
def leaf_walks (g : MPropertyGraph T U) : Nat → node_id → List (List Nat)
  | 0, _ => []
  | k + 1, a =>
    match g.get_edge_list a with
    | none => []
    | some es => if es.length = 0 then [[]] else walks_loop (leaf_walks g k) 0 es

/-- The order in which a depth-first traversal that follows every outgoing
list from front to back reaches the ends of the paths: the lexicographic order
of the position lists, a path coming before its extensions. -/
def walk_before : List Nat → List Nat → Prop
  | [], [] => False
  | [], _ :: _ => True
  | _ :: _, [] => False
  | i :: w1, j :: w2 => i < j ∨ (i = j ∧ walk_before w1 w2)

end MPropertyGraph

open MPropertyGraph

/-! ## Example graphs -/

/-- Two nodes and two parallel edges from node 0 to node 1. -/
def parallel2 : MPropertyGraph Nat Nat :=
  { m_node_list := [10, 11]
    m_adjacency_list := [[(1, 5), (1, 6)], []]
    m_rev_adjacency_list := [[], [0]]
    m_levels := [0, 2] }

/-- The calls that build `parallel2`. -/
def parallel2_calls : List (Call Nat Nat Nat Nat) :=
  [Call.add_node 10, Call.add_node 11, Call.add_edge 0 1 5, Call.add_edge 0 1 6]

/-- The chain `0 → 1 → 2 → 3`. -/
def chain4 : MPropertyGraph Nat Nat :=
  { m_node_list := [10, 11, 12, 13]
    m_adjacency_list := [[(1, 5)], [(2, 6)], [(3, 7)], []]
    m_rev_adjacency_list := [[], [0], [1], [2]]
    m_levels := [0, 1, 1, 1] }

/-- The calls that build `chain4`. -/
def chain4_calls : List (Call Nat Nat Nat Nat) :=
  [Call.add_node 10, Call.add_node 11, Call.add_node 12, Call.add_node 13,
   Call.add_edge 0 1 5, Call.add_edge 1 2 6, Call.add_edge 2 3 7]

/-- Two roots `0` and `1` that both point to node 2, which points to the
leaf 3. -/
def two_roots : MPropertyGraph Nat Nat :=
  { m_node_list := [10, 11, 12, 13]
    m_adjacency_list := [[(2, 5)], [(2, 6)], [(3, 7)], []]
    m_rev_adjacency_list := [[], [], [0, 1], [2]]
    m_levels := [0, 0, 2, 1] }

/-- The calls that build `two_roots`. -/
def two_roots_calls : List (Call Nat Nat Nat Nat) :=
  [Call.add_node 10, Call.add_node 11, Call.add_node 12, Call.add_node 13,
   Call.add_edge 0 2 5, Call.add_edge 1 2 6, Call.add_edge 2 3 7]

/-- The fork `0 → 1`, `1 → 2`, `1 → 3`. -/
def fork4 : MPropertyGraph Nat Nat :=
  { m_node_list := [10, 11, 12, 13]
    m_adjacency_list := [[(1, 5)], [(2, 6), (3, 7)], [], []]
    m_rev_adjacency_list := [[], [0], [1], [1]]
    m_levels := [0, 1, 1, 1] }

/-- The calls that build `fork4`. -/
def fork4_calls : List (Call Nat Nat Nat Nat) :=
  [Call.add_node 10, Call.add_node 11, Call.add_node 12, Call.add_node 13,
   Call.add_edge 0 1 5, Call.add_edge 1 2 6, Call.add_edge 1 3 7]

/-- The diamond `0 → 1`, `0 → 2`, `1 → 3`, `2 → 3`. -/
def diamond : MPropertyGraph Nat Nat :=
  { m_node_list := [10, 11, 12, 13]
    m_adjacency_list := [[(1, 5), (2, 6)], [(3, 7)], [(3, 8)], []]
    m_rev_adjacency_list := [[], [0], [0], [1, 2]]
    m_levels := [0, 1, 1, 2] }

/-- The calls that build `diamond`. -/
def diamond_calls : List (Call Nat Nat Nat Nat) :=
  [Call.add_node 10, Call.add_node 11, Call.add_node 12, Call.add_node 13,
   Call.add_edge 0 1 5, Call.add_edge 0 2 6, Call.add_edge 1 3 7, Call.add_edge 2 3 8]

/-! ## Problems explainer

Shallow embedding of `MProblemsExplainer` from
`libmamba/src/core/problems_explainer.cpp`.

* The node type `MGroupNode`, the edge type `MGroupEdgeInfo`, their stream
  operators and the helper `join` are declared outside the two source files;
  the explainer takes what it uses of them as the parameter `GroupOps`.
* `std::endl` writes the character `\n`; what is written to `std::cerr` and
  to the log is not part of the returned text.
* `std::unordered_map` and `std::unordered_set` are lists in order of first
  insertion; the source leaves their iteration order unspecified, so the order
  of paragraphs, of joined dependency strings and of detail lines is one of the
  admissible orders.
-/

/-- The kinds of libsolv's enumeration `SolverRuleinfo` that the `switch` of
`explain_problem` names; `OTHER` stands for every other enumerator, which
takes the `default` branch. -/
inductive SolverRuleinfo where
  | SOLVER_RULE_JOB_NOTHING_PROVIDES_DEP
  | SOLVER_RULE_PKG_NOTHING_PROVIDES_DEP
  | SOLVER_RULE_JOB_UNKNOWN_PACKAGE
  | SOLVER_RULE_BEST
  | SOLVER_RULE_BLACK
  | SOLVER_RULE_DISTUPGRADE
  | SOLVER_RULE_INFARCH
  | SOLVER_RULE_UPDATE
  | SOLVER_RULE_PKG_NOT_INSTALLABLE
  | SOLVER_RULE_STRICT_REPO_PRIORITY
  | OTHER
deriving DecidableEq, Repr

/-- What `problems_explainer.cpp` uses of a node `N` (`MGroupNode`), of an
edge info `E` (`MGroupEdgeInfo`) and of the helper `join`: the members
`get_name()`, `is_conflict()`, `m_problem_type`, `m_pkg_versions` and `m_deps`
(a container, listed in iteration order), the two `operator<<` and
`join(container, separator)`. -/
structure GroupOps (N E : Type) where
  get_name : N → String
  is_conflict : N → Bool
  m_problem_type : N → Option SolverRuleinfo
  m_pkg_versions : N → List String
  m_deps : E → List String
  show_node : N → String
  show_edge : E → String
  join : List String → String → String

namespace MProblemsExplainer

variable {N E : Type}

/-- Member `explain_problem(node)`. -/
def explain_problem (ops : GroupOps N E) (node : N) : String :=
  match ops.m_problem_type node with
  | none => ops.show_node node ++ " which is problematic"
  | some problem_type =>
    let package_name := ops.get_name node
    (match problem_type with
      | SolverRuleinfo.SOLVER_RULE_JOB_NOTHING_PROVIDES_DEP
      | SolverRuleinfo.SOLVER_RULE_PKG_NOTHING_PROVIDES_DEP
      | SolverRuleinfo.SOLVER_RULE_JOB_UNKNOWN_PACKAGE =>
        package_name ++ " which can\x27t be found in the configured channels"
      | SolverRuleinfo.SOLVER_RULE_BEST =>
        package_name ++ " that can not be installed"
      | SolverRuleinfo.SOLVER_RULE_BLACK =>
        package_name ++ " that can only be installed by a direct request"
      | SolverRuleinfo.SOLVER_RULE_DISTUPGRADE =>
        package_name ++ " that does not belong to a distupgrade repository"
      | SolverRuleinfo.SOLVER_RULE_INFARCH =>
        package_name ++ " that has an inferior architecture"
      | SolverRuleinfo.SOLVER_RULE_UPDATE
      | SolverRuleinfo.SOLVER_RULE_PKG_NOT_INSTALLABLE =>
        package_name ++ " that is disabled/has incompatible arch/is not installable"
      | SolverRuleinfo.SOLVER_RULE_STRICT_REPO_PRIORITY =>
        package_name ++ " that is excluded by strict repo priority"
      | SolverRuleinfo.OTHER =>
        package_name ++ " which is problematic") ++ "\n"

/-- Member `explain(requested_packages)`, the overload on a set of strings. -/
def explain_set (ops : GroupOps N E) (requested_packages : List String) : String :=
  ops.join requested_packages ","

/-- Member `explain(node_to_edge, conflict_dep)`, the overload on a pair of a
node and an edge info. -/
def explain_edge (ops : GroupOps N E) (node_to_edge : N × E) (conflict_dep : String) :
    String :=
  ops.show_edge node_to_edge.2 ++ " versions: [" ++
    ops.join (ops.m_pkg_versions node_to_edge.1) ", " ++ "] depend on " ++ conflict_dep

/-- The call `s.insert(x)` on an `unordered_set<std::string>`. -/
def set_insert (s : List String) (x : String) : List String :=
  if x ∈ s then s else s ++ [x]

/-- Read access `m[key]` on a map from strings: the value stored under `key`,
the empty container when `key` is absent. -/
def map_at {V : Type} : List (String × List V) → String → List V
  | [], _ => []
  | kv :: rest, key => if kv.1 = key then kv.2 else map_at rest key

/-- The statement `m[key].push_back(v)` on a map from strings to vectors. -/
def map_push {V : Type} : List (String × List V) → String → V → List (String × List V)
  | [], key, v => [(key, [v])]
  | kv :: rest, key, v =>
    if kv.1 = key then (kv.1, kv.2 ++ [v]) :: rest
    else kv :: map_push rest key v

/-- The statement `m[key1][key2].push_back(v)` on the nested map. -/
def map_push2 {V : Type} :
    List (String × List (String × List V)) → String → String → V →
      List (String × List (String × List V))
  | [], key1, key2, v => [(key1, [(key2, [v])])]
  | kv :: rest, key1, key2, v =>
    if kv.1 = key1 then (kv.1, map_push kv.2 key2 v) :: rest
    else kv :: map_push2 rest key1 key2 v

/-- The two aggregations of `explain()`: `bluf_problems_packages` and
`conflict_to_root_info`. -/
abbrev Aggregation (N E : Type) :=
  List (String × List (N × E)) × List (String × List (String × List (N × E)))

/-- The inner loop of the first part of `explain()`, over the elements of one
entry from `begin() + 1` on.  `none` when `get_node` reads outside the node
list. -/
def explain_leaves (ops : GroupOps N E) (g : MPropertyGraph N E) (root_node : N)
    (root_edge_info : E) : Aggregation N E → edge_list E → Option (Aggregation N E)
  | agg, [] => some agg
  | agg, it :: rest =>
    match g.get_node it.1 with
    | none => none
    | some conflict_node =>
      let conflict_name := ops.get_name conflict_node
      let conflict_to_root_info :=
        map_push2 agg.2 conflict_name (ops.join (ops.m_deps it.2) ", ")
          (root_node, root_edge_info)
      let bluf_problems_packages :=
        map_push agg.1 conflict_name (conflict_node, root_edge_info)
      explain_leaves ops g root_node root_edge_info
        (bluf_problems_packages, conflict_to_root_info) rest

/-- The outer loop of the first part of `explain()`, over the entries of the
record.  `none` when `get_node(entry.first)` reads outside the node list or
`entry.second[0]` reads outside the vector. -/
def explain_entries (ops : GroupOps N E) (g : MPropertyGraph N E) :
    Aggregation N E → node_path E → Option (Aggregation N E)
  | agg, [] => some agg
  | agg, entry :: rest =>
    match g.get_node entry.1 with
    | none => none
    | some root_node =>
      match entry.2 with
      | [] => none
      | root_info :: leaves =>
        match explain_leaves ops g root_node root_info.2 agg leaves with
        | none => none
        | some agg1 => explain_entries ops g agg1 rest

/-- The set `s` of one paragraph: the `m_deps` of every pair, inserted in
order. -/
def requested_set (ops : GroupOps N E) (conflict_to_root_deps : List (N × E)) : List String :=
  conflict_to_root_deps.foldl (fun s d => (ops.m_deps d.2).foldl set_insert s) []

/-- The set `conflicts` of one paragraph: one line per pair of every bucket
stored under the conflict name. -/
def conflict_lines (ops : GroupOps N E) (buckets : List (String × List (N × E))) :
    List String :=
  buckets.foldl
    (fun cs bucket =>
      bucket.2.foldl (fun cs1 ri => set_insert cs1 (explain_edge ops ri bucket.1)) cs)
    []

/-- The body of the second loop of `explain()`: the text written for one
entry of `bluf_problems_packages`.  `none` when `entry.second[0]` reads
outside the vector. -/
def explain_paragraph (ops : GroupOps N E)
    (conflict_to_root_info : List (String × List (String × List (N × E))))
    (entry : String × List (N × E)) : Option String :=
  match entry.2 with
  | [] => none
  | first :: _ =>
    let conflict_name := entry.1
    let conflict_node := first.1
    let s := requested_set ops entry.2
    let head := "Requested packages " ++ explain_set ops s ++ "\n" ++
      "\tcannot be installed because they depend on"
    if ops.is_conflict conflict_node then
      let conflicts := conflict_lines ops (map_at conflict_to_root_info conflict_name)
      some (head ++ " different versions of " ++ conflict_name ++ "\n" ++
        ops.join conflicts "\t\t\n" ++ "\n")
    else
      some (head ++ "\t " ++ explain_problem ops conflict_node ++ "\n")

/-- The second loop of `explain()`: the paragraphs are written one after the
other to `sstr`. -/
def explain_render (ops : GroupOps N E)
    (conflict_to_root_info : List (String × List (String × List (N × E)))) :
    String → List (String × List (N × E)) → Option String
  | sstr, [] => some sstr
  | sstr, entry :: rest =>
    match explain_paragraph ops conflict_to_root_info entry with
    | none => none
    | some text => explain_render ops conflict_to_root_info (sstr ++ text) rest

/-- Member `explain()`; `fuel` bounds the recursion of `get_leaves`. -/
def explain (ops : GroupOps N E) (g : MPropertyGraph N E) (fuel : Nat) : Option String :=
  match g.get_parents_to_leaves fuel with
  | none => none
  | some path =>
    match explain_entries ops g ([], []) path with
    | none => none
    | some agg => explain_render ops agg.2 "" agg.1

/-- One iteration order for each unordered container that `explain()` walks
through.  Each function takes the elements of the container, listed in order
of first insertion, and lists them in the order of the iteration: the record
`path`, the map `bluf_problems_packages`, the inner map
`conflict_to_root_info[conflict_name]`, the set `s` and the set `conflicts`. -/
structure IterOrder (N E : Type) where
  path : node_path E → node_path E
  bluf : List (String × List (N × E)) → List (String × List (N × E))
  buckets : List (String × List (N × E)) → List (String × List (N × E))
  requested : List String → List String
  conflicts : List String → List String

/-- Every iteration visits each element of its container exactly once. -/
def Admissible (ord : IterOrder N E) : Prop :=
  (∀ l, (ord.path l).Perm l) ∧ (∀ l, (ord.bluf l).Perm l) ∧
  (∀ l, (ord.buckets l).Perm l) ∧ (∀ l, (ord.requested l).Perm l) ∧
  (∀ l, (ord.conflicts l).Perm l)

/-- The iteration order that `explain` is written with: every container is
walked through in order of first insertion. -/
def insertion_order : IterOrder N E :=
  { path := fun l => l
    bluf := fun l => l
    buckets := fun l => l
    requested := fun l => l
    conflicts := fun l => l }

/-- The body of the second loop of `explain()` as in `explain_paragraph`, the
sets and the inner map walked through in the order `ord`. -/
def explain_paragraph_in (ops : GroupOps N E) (ord : IterOrder N E)
    (conflict_to_root_info : List (String × List (String × List (N × E))))
    (entry : String × List (N × E)) : Option String :=
  match entry.2 with
  | [] => none
  | first :: _ =>
    let conflict_name := entry.1
    let conflict_node := first.1
    let s := ord.requested (requested_set ops entry.2)
    let head := "Requested packages " ++ explain_set ops s ++ "\n" ++
      "\tcannot be installed because they depend on"
    if ops.is_conflict conflict_node then
      let conflicts := ord.conflicts
        (conflict_lines ops (ord.buckets (map_at conflict_to_root_info conflict_name)))
      some (head ++ " different versions of " ++ conflict_name ++ "\n" ++
        ops.join conflicts "\t\t\n" ++ "\n")
    else
      some (head ++ "\t " ++ explain_problem ops conflict_node ++ "\n")

/-- The second loop of `explain()` as in `explain_render`, with the paragraphs
of `explain_paragraph_in`. -/
def explain_render_in (ops : GroupOps N E) (ord : IterOrder N E)
    (conflict_to_root_info : List (String × List (String × List (N × E)))) :
    String → List (String × List (N × E)) → Option String
  | sstr, [] => some sstr
  | sstr, entry :: rest =>
    match explain_paragraph_in ops ord conflict_to_root_info entry with
    | none => none
    | some text => explain_render_in ops ord conflict_to_root_info (sstr ++ text) rest

/-- Member `explain()` with the unordered containers walked through in the
order `ord`; `explain` is the case `insertion_order`. -/
def explain_in (ops : GroupOps N E) (ord : IterOrder N E) (g : MPropertyGraph N E)
    (fuel : Nat) : Option String :=
  match g.get_parents_to_leaves fuel with
  | none => none
  | some path =>
    match explain_entries ops g ([], []) (ord.path path) with
    | none => none
    | some agg => explain_render_in ops ord agg.2 "" (ord.bluf agg.1)

end MProblemsExplainer

/-- The clause that the table of the specification gives for a rule kind (the
row "unset / unrecognized" for every kind the table does not name). -/
def spec_clause : SolverRuleinfo → String
  | SolverRuleinfo.SOLVER_RULE_JOB_NOTHING_PROVIDES_DEP =>
    " which can\x27t be found in the configured channels"
  | SolverRuleinfo.SOLVER_RULE_PKG_NOTHING_PROVIDES_DEP =>
    " which can\x27t be found in the configured channels"
  | SolverRuleinfo.SOLVER_RULE_JOB_UNKNOWN_PACKAGE =>
    " which can\x27t be found in the configured channels"
  | SolverRuleinfo.SOLVER_RULE_BEST => " that can not be installed"
  | SolverRuleinfo.SOLVER_RULE_BLACK => " that can only be installed by a direct request"
  | SolverRuleinfo.SOLVER_RULE_DISTUPGRADE =>
    " that does not belong to a distupgrade repository"
  | SolverRuleinfo.SOLVER_RULE_INFARCH => " that has an inferior architecture"
  | SolverRuleinfo.SOLVER_RULE_UPDATE =>
    " that is disabled/has incompatible arch/is not installable"
  | SolverRuleinfo.SOLVER_RULE_PKG_NOT_INSTALLABLE =>
    " that is disabled/has incompatible arch/is not installable"
  | SolverRuleinfo.SOLVER_RULE_STRICT_REPO_PRIORITY =>
    " that is excluded by strict repo priority"
  | SolverRuleinfo.OTHER => " which is problematic"

/-- An instance of `GroupOps` for the examples of `explain_problem` on a node
with a problem type: a node is a name with an optional problem type; the
members that this branch of `explain_problem` does not read are empty. -/
def plain_ops : GroupOps (String × Option SolverRuleinfo) Unit :=
  { get_name := fun n => n.1
    is_conflict := fun _ => false
    m_problem_type := fun n => n.2
    m_pkg_versions := fun _ => []
    m_deps := fun _ => []
    show_node := fun _ => ""
    show_edge := fun _ => ""
    join := fun _ _ => "" }

/-- Modelled from the spec: a conflict-group node with its `name`, its
`package_versions`, its flag `is_conflict` and its optional `problem_type`. -/
structure MGroupNode where
  m_name : String
  m_pkg_versions : List String
  m_is_conflict : Bool
  m_problem_type : Option SolverRuleinfo
deriving DecidableEq, Repr

/-- Modelled from the spec: an edge info with its `deps`, the
dependency-specification strings in iteration order. -/
structure MGroupEdgeInfo where
  m_deps : List String
deriving DecidableEq, Repr

/-- Modelled from the spec: `join(container, separator)` writes the elements
of the container with the separator between them. -/
def join_sep (container : List String) (separator : String) : String :=
  separator.intercalate container

/-- Modelled from the spec: the operations of the two group types; the two
stream operators stay parameters. -/
def group_ops (show_node : MGroupNode → String) (show_edge : MGroupEdgeInfo → String) :
    GroupOps MGroupNode MGroupEdgeInfo :=
  { get_name := fun n => n.m_name
    is_conflict := fun n => n.m_is_conflict
    m_problem_type := fun n => n.m_problem_type
    m_pkg_versions := fun n => n.m_pkg_versions
    m_deps := fun e => e.m_deps
    show_node := show_node
    show_edge := show_edge
    join := join_sep }

/-- A root `R`, its child `A` reached with the dependency `a`, and the leaf
`L` reached from `A` with the dependency `b`. -/
def dep_chain : MPropertyGraph MGroupNode MGroupEdgeInfo :=
  { m_node_list :=
      [{ m_name := "R", m_pkg_versions := [], m_is_conflict := false, m_problem_type := none },
       { m_name := "A", m_pkg_versions := ["1"], m_is_conflict := false,
         m_problem_type := none },
       { m_name := "L", m_pkg_versions := ["2"], m_is_conflict := false,
         m_problem_type := some SolverRuleinfo.SOLVER_RULE_JOB_UNKNOWN_PACKAGE }]
    m_adjacency_list := [[(1, { m_deps := ["a"] })], [(2, { m_deps := ["b"] })], []]
    m_rev_adjacency_list := [[], [0], [1]]
    m_levels := [0, 1, 1] }

/-- The scenario of the specification: root `P` (node 0) requires `A` (node 1)
with `X>=2` and `B` (node 2) with `X<2`; `A` leads to the group `X2` (node 3)
and `B` to the group `X1` (node 4), both childless, named `X` and marked as
conflicts.  `vA` and `vB` are the versions of `A` and `B`, `dA` and `dB` the
dependency strings of the edges into `X2` and into `X1`. -/
def scenario (vA vB dA dB : List String) : MPropertyGraph MGroupNode MGroupEdgeInfo :=
  { m_node_list :=
      [{ m_name := "P", m_pkg_versions := [], m_is_conflict := false, m_problem_type := none },
       { m_name := "A", m_pkg_versions := vA, m_is_conflict := false, m_problem_type := none },
       { m_name := "B", m_pkg_versions := vB, m_is_conflict := false, m_problem_type := none },
       { m_name := "X", m_pkg_versions := ["2"], m_is_conflict := true,
         m_problem_type := none },
       { m_name := "X", m_pkg_versions := ["1"], m_is_conflict := true,
         m_problem_type := none }]
    m_adjacency_list :=
      [[(1, { m_deps := ["X>=2"] }), (2, { m_deps := ["X<2"] })],
       [(3, { m_deps := dA })], [(4, { m_deps := dB })], [], []]
    m_rev_adjacency_list := [[], [0], [0], [1], [2]]
    m_levels := [0, 1, 1, 1, 1] }

/-- The record that `get_parents_to_leaves()` returns for `dep_chain`. -/
def dep_chain_record : node_path MGroupEdgeInfo :=
  [(1, [(1, ⟨["a"]⟩), (2, ⟨["b"]⟩)])]

/-- The group operations with stream operators that write nothing (the
aggregation does not call them). -/
def dep_chain_ops : GroupOps MGroupNode MGroupEdgeInfo :=
  group_ops (fun _ => "") (fun _ => "")

/-- Modelled from the spec: the group operations whose stream operators write
the name of a node and the dependency strings of an edge info joined by
`, `. -/
def scenario_ops : GroupOps MGroupNode MGroupEdgeInfo :=
  group_ops (fun n => n.m_name) (fun e => join_sep e.m_deps ", ")

/-- The sentence that the specification quotes for the scenario. -/
def scenario_sentence : String :=
  "Requested packages X>=2,X<2 cannot be installed because they depend on " ++
    "different versions of X"

/-- The text that `explain` returns for
`scenario ["1.0"] ["1.1"] ["X>=2"] ["X<2"]` with `scenario_ops`. -/
def scenario_text : String :=
  "Requested packages X>=2,X<2\n" ++
    "\tcannot be installed because they depend on different versions of X\n" ++
    "X>=2 versions: [1.0] depend on X>=2\t\t\n" ++
    "X<2 versions: [1.1] depend on X<2\n"

/-- The detail line of `explain(node_to_edge, conflict_dep)` for an edge info
printed as `label`, a node with the versions `versions` and the dependency
string `dep`. -/
def detail_line (label : String) (versions : List String) (dep : String) : String :=
  label ++ " versions: [" ++ join_sep versions ", " ++ "] depend on " ++ dep

/-! ## add_node -/

theorem add_nodes_fst {T U : Type} (vs : List T) (g : MPropertyGraph T U) :
    (g.add_nodes vs).1 = List.range' g.m_node_list.length vs.length := by
  induction vs generalizing g with
  | nil => rfl
  | cons v vs ih =>
    simp [add_nodes, ih, add_node, add_node_impl, List.range']

/-- C1: on a graph whose three per-node vectors hold `n` places, `add_node v`
returns `n`; afterwards there are `n + 1` nodes, node `n` holds `v`, has no
outgoing edge and level 0, every earlier node keeps its value, outgoing list
and level, and the ids returned by successive calls on the empty graph are
`0, 1, ..., k - 1` in call order. -/
theorem add_node_spec {T U : Type} (g : MPropertyGraph T U) (v : T)
    (hadj : g.m_adjacency_list.length = g.m_node_list.length)
    (hlev : g.m_levels.length = g.m_node_list.length) :
    (g.add_node v).1 = g.m_node_list.length ∧
    (g.add_node v).2.m_node_list.length = g.m_node_list.length + 1 ∧
    (g.add_node v).2.m_adjacency_list.length = g.m_node_list.length + 1 ∧
    (g.add_node v).2.m_levels.length = g.m_node_list.length + 1 ∧
    (g.add_node v).2.get_node g.m_node_list.length = some v ∧
    (g.add_node v).2.get_edge_list g.m_node_list.length = some [] ∧
    (g.add_node v).2.m_levels[g.m_node_list.length]? = some 0 ∧
    (∀ i, i < g.m_node_list.length →
      (g.add_node v).2.get_node i = g.get_node i ∧
      (g.add_node v).2.get_edge_list i = g.get_edge_list i ∧
      (g.add_node v).2.m_levels[i]? = g.m_levels[i]?) ∧
    (g.add_node v).2.m_rev_adjacency_list = g.m_rev_adjacency_list ∧
    (∀ vs : List T,
      ((empty : MPropertyGraph T U).add_nodes vs).1 = List.range vs.length) := by
  refine ⟨by simp [add_node, add_node_impl], by simp [add_node, add_node_impl],
    by simp [add_node, add_node_impl, hadj], by simp [add_node, add_node_impl, hlev],
    by simp [add_node, add_node_impl, get_node], ?_, ?_, ?_, rfl, ?_⟩
  · simp [add_node, add_node_impl, get_edge_list, ← hadj]
  · simp [add_node, add_node_impl, ← hlev]
  · intro i hi
    refine ⟨?_, ?_, ?_⟩
    · simp [add_node, add_node_impl, get_node, List.getElem?_append_left hi]
    · simp [add_node, add_node_impl, get_edge_list, List.getElem?_append_left (hadj ▸ hi)]
    · simp [add_node, add_node_impl, List.getElem?_append_left (hlev ▸ hi)]
  · intro vs
    rw [add_nodes_fst, List.range_eq_range']
    rfl

/-- Witness for C1 on the graph holding one node. -/
theorem add_node_spec_witness :
    (((empty : MPropertyGraph Nat Nat).add_node 7).2.m_adjacency_list.length
        = ((empty : MPropertyGraph Nat Nat).add_node 7).2.m_node_list.length) ∧
    (((empty : MPropertyGraph Nat Nat).add_node 7).2.m_levels.length
        = ((empty : MPropertyGraph Nat Nat).add_node 7).2.m_node_list.length) ∧
    ((((empty : MPropertyGraph Nat Nat).add_node 7).2.add_node 9).1 = 1) :=
  ⟨rfl, rfl, (add_node_spec ((empty : MPropertyGraph Nat Nat).add_node 7).2 9 rfl rfl).1⟩

/-! ## add_edge -/

theorem mem_neighs_insert_self (x : node_id) (s : neighs) : x ∈ neighs_insert x s := by
  induction s with
  | nil => simp [neighs_insert]
  | cons y ys ih =>
    unfold neighs_insert
    split_ifs with h1 h2
    · simp
    · simp [h2]
    · simp [ih]

theorem mem_neighs_insert_of_mem (x y : node_id) (s : neighs) (h : y ∈ s) :
    y ∈ neighs_insert x s := by
  induction s with
  | nil => simp at h
  | cons z zs ih =>
    unfold neighs_insert
    split_ifs with h1 h2
    · simp [List.mem_cons.mp h]
    · exact h
    · rcases List.mem_cons.mp h with h3 | h3
      · simp [h3]
      · simp [ih h3]

theorem add_edge_eq {T U : Type} (g : MPropertyGraph T U) (a b : node_id) (e : U)
    (ha : a < g.m_adjacency_list.length) (hb : b < g.m_levels.length) :
    ∃ g1, g.add_edge a b e = some g1 ∧
      g1.m_node_list = g.m_node_list ∧
      g1.m_adjacency_list = g.m_adjacency_list.modify (fun es => es ++ [(b, e)]) a ∧
      g1.m_levels = g.m_levels.modify (fun l => l + 1) b ∧
      (∃ s, g1.m_rev_adjacency_list[b]? = some s ∧ a ∈ s ∧
        ∀ s0, g.m_rev_adjacency_list[b]? = some s0 → ∀ y ∈ s0, y ∈ s) := by
  refine ⟨{ g with
      m_adjacency_list := g.m_adjacency_list.modify (fun es => es ++ [(b, e)]) a
      m_rev_adjacency_list :=
        (if g.m_rev_adjacency_list.length ≤ b then rev_resize g.m_rev_adjacency_list (b + 1)
          else g.m_rev_adjacency_list).modify (neighs_insert a) b
      m_levels := g.m_levels.modify (fun l => l + 1) b },
    by simp [add_edge, ha, hb], rfl, rfl, rfl, ?_⟩
  simp only [List.getElem?_modify]
  by_cases hlen : g.m_rev_adjacency_list.length ≤ b
  · simp only [hlen, if_true, rev_resize]
    have h1 : (g.m_rev_adjacency_list ++
        List.replicate (b + 1 - g.m_rev_adjacency_list.length) [])[b]? = some [] := by
      rw [List.getElem?_append_right hlen]
      simp [List.getElem?_replicate]
      omega
    refine ⟨neighs_insert a [], by simp [h1], mem_neighs_insert_self _ _, ?_⟩
    intro s0 hs0
    have := List.getElem?_eq_none hlen
    simp [this] at hs0
  · simp only [hlen, if_false]
    have hlt : b < g.m_rev_adjacency_list.length := Nat.lt_of_not_le hlen
    refine ⟨neighs_insert a g.m_rev_adjacency_list[b], by simp [List.getElem?_eq_getElem hlt],
      mem_neighs_insert_self _ _, ?_⟩
    intro s0 hs0 y hy
    rw [List.getElem?_eq_getElem hlt] at hs0
    cases hs0
    exact mem_neighs_insert_of_mem _ _ _ hy

/-- C3: for existing ids `a` and `b`, two calls `add_edge(a, b, e)` both
succeed; afterwards the outgoing list of `a` is the old list followed by two
separate entries `(b, e)`, `m_levels[b]` is the old counter plus 2, the reverse
set of `b` contains `a`, the outgoing list of every other node and the counter
of every other id are the old ones, and the node values are untouched.  (The
counter is a mathematical integer: the statement covers the executions in which
the C++ `int` does not overflow.) -/
theorem add_edge_twice_spec {T U : Type} (g : MPropertyGraph T U) (a b : node_id) (e : U)
    (ha : a < g.m_adjacency_list.length) (hb : b < g.m_levels.length) :
    ∃ g1 g2 es l, g.add_edge a b e = some g1 ∧ g1.add_edge a b e = some g2 ∧
      g.get_edge_list a = some es ∧ g.m_levels[b]? = some l ∧
      g2.get_edge_list a = some (es ++ [(b, e), (b, e)]) ∧
      g2.m_levels[b]? = some (l + 2) ∧
      (∃ s, g2.get_rev_edge_list b = some s ∧ a ∈ s) ∧
      (∀ i, i ≠ a → g2.get_edge_list i = g.get_edge_list i) ∧
      (∀ i, i ≠ b → g2.m_levels[i]? = g.m_levels[i]?) ∧
      g2.m_node_list = g.m_node_list := by
  obtain ⟨g1, h1, hn1, ha1, hl1, -⟩ := add_edge_eq g a b e ha hb
  have ha' : a < g1.m_adjacency_list.length := by rw [ha1]; simpa using ha
  have hb' : b < g1.m_levels.length := by rw [hl1]; simpa using hb
  obtain ⟨g2, h2, hn2, ha2, hl2, s, hs, has, -⟩ := add_edge_eq g1 a b e ha' hb'
  refine ⟨g1, g2, g.m_adjacency_list[a], g.m_levels[b], h1, h2, ?_, ?_, ?_, ?_,
    ⟨s, hs, has⟩, ?_, ?_, by rw [hn2, hn1]⟩
  · simp [get_edge_list, List.getElem?_eq_getElem ha]
  · simp [List.getElem?_eq_getElem hb]
  · simp [get_edge_list, ha2, ha1, List.getElem?_modify, List.getElem?_eq_getElem ha]
  · simp [hl2, hl1, List.getElem?_modify, List.getElem?_eq_getElem hb]
    ring
  · intro i hi
    simp [get_edge_list, ha2, ha1, List.getElem?_modify, Ne.symm hi]
  · intro i hi
    simp [hl2, hl1, List.getElem?_modify, Ne.symm hi]

/-- Witness for C3: two edges from node 0 to node 1 of a two-node graph. -/
theorem add_edge_twice_spec_witness :
    ∃ g1 g2 es l,
      (((empty : MPropertyGraph Nat Nat).add_node 7).2.add_node 8).2.add_edge 0 1 5 = some g1 ∧
      g1.add_edge 0 1 5 = some g2 ∧
      (((empty : MPropertyGraph Nat Nat).add_node 7).2.add_node 8).2.get_edge_list 0 = some es ∧
      (((empty : MPropertyGraph Nat Nat).add_node 7).2.add_node 8).2.m_levels[1]? = some l ∧
      g2.get_edge_list 0 = some (es ++ [(1, 5), (1, 5)]) ∧
      g2.m_levels[1]? = some (l + 2) ∧
      (∃ s, g2.get_rev_edge_list 1 = some s ∧ 0 ∈ s) ∧
      (∀ i, i ≠ 0 → g2.get_edge_list i =
        (((empty : MPropertyGraph Nat Nat).add_node 7).2.add_node 8).2.get_edge_list i) ∧
      (∀ i, i ≠ 1 → g2.m_levels[i]? =
        (((empty : MPropertyGraph Nat Nat).add_node 7).2.add_node 8).2.m_levels[i]?) ∧
      g2.m_node_list = (((empty : MPropertyGraph Nat Nat).add_node 7).2.add_node 8).2.m_node_list :=
  add_edge_twice_spec (((empty : MPropertyGraph Nat Nat).add_node 7).2.add_node 8).2 0 1 5
    (by decide) (by decide)

/-! ## The example graphs are built by the interface -/

theorem parallel2_built :
    run_calls Nat.add Nat.add parallel2_calls empty = some parallel2 := by decide

theorem chain4_built :
    run_calls Nat.add Nat.add chain4_calls empty = some chain4 := by decide

theorem two_roots_built :
    run_calls Nat.add Nat.add two_roots_calls empty = some two_roots := by decide

theorem fork4_built :
    run_calls Nat.add Nat.add fork4_calls empty = some fork4 := by decide

theorem diamond_built :
    run_calls Nat.add Nat.add diamond_calls empty = some diamond := by decide

/-! ## update_edge_if_present -/

theorem update_scan_absent {U Y : Type} (add : U → Y → U) (to_ : node_id) (v : Y)
    (es : edge_list U) (h : ∀ p ∈ es, p.1 ≠ to_) :
    update_scan add to_ v es = (false, es) := by
  induction es with
  | nil => rfl
  | cons it rest ih =>
    have h1 : it.1 ≠ to_ := h it (by simp)
    have h2 := ih (fun p hp => h p (by simp [hp]))
    simp [update_scan, h1, h2]

theorem update_scan_present {U Y : Type} (add : U → Y → U) (to_ : node_id) (v : Y)
    (es : edge_list U) (h : ∃ p ∈ es, p.1 = to_) :
    ∃ pre info post, es = pre ++ (to_, info) :: post ∧ (∀ p ∈ pre, p.1 ≠ to_) ∧
      update_scan add to_ v es = (true, pre ++ (to_, add info v) :: post) := by
  induction es with
  | nil => simp at h
  | cons it rest ih =>
    by_cases h1 : it.1 = to_
    · refine ⟨[], it.2, rest, ?_, by simp, ?_⟩
      · simp [← h1]
      · simp [update_scan, h1]
    · have h2 : ∃ p ∈ rest, p.1 = to_ := by
        obtain ⟨p, hp, hpt⟩ := h
        rcases List.mem_cons.mp hp with hp1 | hp1
        · exact absurd (hp1 ▸ hpt) h1
        · exact ⟨p, hp1, hpt⟩
      obtain ⟨pre, info, post, hsplit, hpre, hscan⟩ := ih h2
      refine ⟨it :: pre, info, post, by simp [hsplit], ?_, ?_⟩
      · intro p hp
        rcases List.mem_cons.mp hp with hp1 | hp1
        · exact hp1 ▸ h1
        · exact hpre p hp1
      · simp [update_scan, h1, hscan]

theorem update_scan_fst {U Y : Type} (add : U → Y → U) (to_ : node_id) (v : Y)
    (es : edge_list U) :
    (update_scan add to_ v es).1 = false ↔ ∀ p ∈ es, p.1 ≠ to_ := by
  constructor
  · intro h p hp hpt
    obtain ⟨pre, info, post, -, -, hscan⟩ := update_scan_present add to_ v es ⟨p, hp, hpt⟩
    rw [hscan] at h
    cases h
  · intro h
    rw [update_scan_absent add to_ v es h]

/-- C4: when the outgoing list of `from_` has an entry that targets `to_`,
`update_edge_if_present(from_, to_, v)` returns `true`; the list splits as
`pre ++ (to_, info) :: post` with no entry of `pre` targeting `to_`, and
afterwards it is `pre ++ (to_, add info v) :: post` (same length, only the
first matching entry changed, later parallel entries kept); every other
outgoing list, the levels, the reverse sets and the node values are unchanged.
In particular, when no entry of `a` targets `b`, one `add_edge(a, b, e1)`
followed by `update_edge_if_present(a, b, e2)` leaves the old entries followed
by the single entry `(b, add e1 e2)`. -/
theorem update_edge_if_present_found {T U Y : Type} (add : U → Y → U)
    (g : MPropertyGraph T U) (from_ to_ : node_id) (v : Y) (es : edge_list U)
    (hes : g.get_edge_list from_ = some es) (hex : ∃ p ∈ es, p.1 = to_) :
    (∃ pre info post g1, es = pre ++ (to_, info) :: post ∧ (∀ p ∈ pre, p.1 ≠ to_) ∧
      g.update_edge_if_present add from_ to_ v = some (true, g1) ∧
      g1.get_edge_list from_ = some (pre ++ (to_, add info v) :: post) ∧
      (pre ++ (to_, add info v) :: post).length = es.length ∧
      (∀ i, i ≠ from_ → g1.get_edge_list i = g.get_edge_list i) ∧
      g1.m_levels = g.m_levels ∧
      g1.m_rev_adjacency_list = g.m_rev_adjacency_list ∧
      g1.m_node_list = g.m_node_list) ∧
    (∀ (g0 : MPropertyGraph T U) (a b : node_id) (e1 : U) (e2 : Y) (es0 : edge_list U),
      g0.get_edge_list a = some es0 → b < g0.m_levels.length → (∀ p ∈ es0, p.1 ≠ b) →
      ∃ g1 g2, g0.add_edge a b e1 = some g1 ∧
        g1.update_edge_if_present add a b e2 = some (true, g2) ∧
        g2.get_edge_list a = some (es0 ++ [(b, add e1 e2)])) := by
  constructor
  · obtain ⟨pre, info, post, hsplit, hpre, hscan⟩ := update_scan_present add to_ v es hex
    have hes' : g.m_adjacency_list[from_]? = some es := hes
    have hlt : from_ < g.m_adjacency_list.length := by
      by_contra hge
      rw [List.getElem?_eq_none (Nat.le_of_not_lt hge)] at hes'
      cases hes'
    refine ⟨pre, info, post,
      { g with m_adjacency_list :=
          g.m_adjacency_list.set from_ (pre ++ (to_, add info v) :: post) },
      hsplit, hpre, ?_, ?_, ?_, ?_, rfl, rfl, rfl⟩
    · simp [update_edge_if_present, hes', hscan]
    · simp [get_edge_list, List.getElem?_set, hlt]
    · simp [hsplit]
    · intro i hi
      simp [get_edge_list, List.getElem?_set, Ne.symm hi]
  · intro g0 a b e1 e2 es0 h0 hb hno
    have h0' : g0.m_adjacency_list[a]? = some es0 := h0
    have hlt : a < g0.m_adjacency_list.length := by
      by_contra hge
      rw [List.getElem?_eq_none (Nat.le_of_not_lt hge)] at h0'
      cases h0'
    obtain ⟨g1, h1, -, ha1, -, -⟩ := add_edge_eq g0 a b e1 hlt hb
    have hg1 : g1.m_adjacency_list[a]? = some (es0 ++ [(b, e1)]) := by
      simp [ha1, List.getElem?_modify, h0']
    have hscan : update_scan add b e2 (es0 ++ [(b, e1)]) = (true, es0 ++ [(b, add e1 e2)]) := by
      clear h0 h0' hg1
      induction es0 with
      | nil => simp [update_scan]
      | cons it rest ih =>
        have hit : it.1 ≠ b := hno it (by simp)
        have := ih (fun p hp => hno p (by simp [hp]))
        simp [update_scan, hit, this]
    have hlt1 : a < g1.m_adjacency_list.length := by rw [ha1]; simpa using hlt
    refine ⟨g1, { g1 with m_adjacency_list :=
        g1.m_adjacency_list.set a (es0 ++ [(b, add e1 e2)]) }, h1, ?_, ?_⟩
    · simp [update_edge_if_present, hg1, hscan]
    · simp [get_edge_list, List.getElem?_set, hlt1]

/-- Witness for C4: on `parallel2` the first of the two entries from node 0 to
node 1 is the one that is merged. -/
theorem update_edge_if_present_found_witness :
    ∃ g1, parallel2.update_edge_if_present Nat.add 0 1 100 = some (true, g1) ∧
      g1.get_edge_list 0 = some [(1, 105), (1, 6)] := by
  obtain ⟨pre, info, post, g1, hsplit, hpre, hupd, -⟩ :=
    (update_edge_if_present_found Nat.add parallel2 0 1 100 [(1, 5), (1, 6)] rfl
      ⟨(1, 5), by decide, rfl⟩).1
  refine ⟨g1, hupd, ?_⟩
  have h2 : parallel2.update_edge_if_present Nat.add 0 1 100 =
      some (true, { parallel2 with m_adjacency_list := [[(1, 105), (1, 6)], []] }) := by decide
  rw [h2] at hupd
  cases hupd
  rfl

/-- C5: `update_edge_if_present(from_, to_, v)` returns `false` exactly when
no entry of the outgoing list of `from_` targets `to_`, and then the graph
after the call is the graph before it. -/
theorem update_edge_if_present_absent {T U Y : Type} (add : U → Y → U)
    (g : MPropertyGraph T U) (from_ to_ : node_id) (v : Y) (es : edge_list U)
    (hes : g.get_edge_list from_ = some es) :
    ∃ r g1, g.update_edge_if_present add from_ to_ v = some (r, g1) ∧
      (r = false ↔ ∀ p ∈ es, p.1 ≠ to_) ∧
      (r = false → g1 = g) := by
  have hes' : g.m_adjacency_list[from_]? = some es := hes
  refine ⟨(update_scan add to_ v es).1,
    { g with m_adjacency_list := g.m_adjacency_list.set from_ (update_scan add to_ v es).2 },
    by simp [update_edge_if_present, hes'], update_scan_fst add to_ v es, ?_⟩
  intro hr
  have hno := (update_scan_fst add to_ v es).mp hr
  rw [update_scan_absent add to_ v es hno]
  have hset : g.m_adjacency_list.set from_ es = g.m_adjacency_list := by
    apply List.ext_getElem?
    intro i
    by_cases hi : from_ = i
    · subst hi
      rw [List.getElem?_set]
      simp [hes']
      by_contra hge
      rw [List.getElem?_eq_none (Nat.le_of_not_lt hge)] at hes'
      cases hes'
    · simp [List.getElem?_set, hi]
  show ({ g with m_adjacency_list := g.m_adjacency_list.set from_ es } : MPropertyGraph T U) = g
  rw [hset]

/-- Witness for C5: `parallel2` has no entry from node 0 to node 0. -/
theorem update_edge_if_present_absent_witness :
    ∃ r g1, parallel2.update_edge_if_present Nat.add 0 0 100 = some (r, g1) ∧
      (r = false ↔ ∀ p ∈ [((1 : Nat), (5 : Nat)), (1, 6)], p.1 ≠ 0) ∧
      (r = false → g1 = parallel2) :=
  update_edge_if_present_absent Nat.add parallel2 0 0 100 [(1, 5), (1, 6)] rfl

/-! ## Invariants of the graphs built through the interface -/

theorem sum_map_modify {α : Type} (h : α → Nat) (f : α → α) (d : Nat)
    (hf : ∀ x, h (f x) = h x + d) (l : List α) (i : Nat) (hi : i < l.length) :
    ((l.modify f i).map h).sum = (l.map h).sum + d := by
  induction l generalizing i with
  | nil => simp at hi
  | cons x xs ih =>
    cases i with
    | zero => simp [List.modify, hf]; omega
    | succ j =>
      have hj : j < xs.length := by simpa using hi
      have := ih j hj
      simp only [List.modify_succ_cons, List.map_cons, List.sum_cons, this]
      omega

theorem sum_map_set {α : Type} (h : α → Nat) (l : List α) (i : Nat) (x y : α)
    (hx : l[i]? = some x) (hy : h y = h x) :
    ((l.set i y).map h).sum = (l.map h).sum := by
  induction l generalizing i with
  | nil => simp
  | cons z zs ih =>
    cases i with
    | zero =>
      simp at hx
      simp [hx, hy]
    | succ j =>
      have hx' : zs[j]? = some x := by simpa using hx
      have := ih j hx'
      simp only [List.set_cons_succ, List.map_cons, List.sum_cons, this]

theorem update_scan_countP {U Y : Type} (add : U → Y → U) (to_ : node_id) (v : Y)
    (id : node_id) (es : edge_list U) :
    (update_scan add to_ v es).2.countP (fun p => p.1 == id) =
      es.countP (fun p => p.1 == id) := by
  induction es with
  | nil => rfl
  | cons it rest ih =>
    unfold update_scan
    split_ifs with h
    · simp [List.countP_cons]
    · simp [List.countP_cons, ih]

theorem update_scan_targets {U Y : Type} (add : U → Y → U) (to_ : node_id) (v : Y)
    (es : edge_list U) :
    (update_scan add to_ v es).2.map Prod.fst = es.map Prod.fst := by
  induction es with
  | nil => rfl
  | cons it rest ih =>
    unfold update_scan
    split_ifs with h
    · simp
    · simp [ih]

theorem entries_to_eq_zero {T U : Type} (g : MPropertyGraph T U) (id : node_id) :
    entries_to g id = 0 ↔ ∀ es ∈ g.m_adjacency_list, ∀ p ∈ es, p.1 ≠ id := by
  unfold entries_to
  rw [List.sum_eq_zero_iff]
  constructor
  · intro h es hes p hp hpid
    have h0 := h (es.countP (fun p => p.1 == id)) (List.mem_map.mpr ⟨es, hes, rfl⟩)
    rw [List.countP_eq_zero] at h0
    exact h0 p hp (by simp [hpid])
  · intro h x hx
    obtain ⟨es, hes, rfl⟩ := List.mem_map.mp hx
    rw [List.countP_eq_zero]
    intro p hp
    simpa using h es hes p hp

theorem mem_modify {α : Type} (f : α → α) (l : List α) (i : Nat) (y : α)
    (hy : y ∈ l.modify f i) : y ∈ l ∨ ∃ x ∈ l, y = f x := by
  induction l generalizing i with
  | nil => simp at hy
  | cons x xs ih =>
    cases i with
    | zero =>
      simp [List.modify] at hy
      rcases hy with hy | hy
      · exact Or.inr ⟨x, by simp, hy⟩
      · exact Or.inl (by simp [hy])
    | succ j =>
      simp only [List.modify_succ_cons, List.mem_cons] at hy
      rcases hy with hy | hy
      · exact Or.inl (by simp [hy])
      · rcases ih j hy with h1 | ⟨x1, hx1, h1⟩
        · exact Or.inl (by simp [h1])
        · exact Or.inr ⟨x1, by simp [hx1], h1⟩

theorem add_node_inv {T U : Type} (g : MPropertyGraph T U) (v : T)
    (hs : Sized g) (hc : Counted g) (ht : TargetsExist g) :
    Sized (g.add_node v).2 ∧ Counted (g.add_node v).2 ∧ TargetsExist (g.add_node v).2 ∧
    (g.add_node v).2.m_node_list.length = g.m_node_list.length + 1 ∧
    (∀ id, entries_to (g.add_node v).2 id = entries_to g id) ∧
    (∀ (i : Nat) (l : Int), g.m_levels[i]? = some l →
      (g.add_node v).2.m_levels[i]? = some l) := by
  obtain ⟨hs1, hs2⟩ := hs
  have hent : ∀ id, entries_to (g.add_node v).2 id = entries_to g id := by
    intro id
    simp [entries_to, add_node, add_node_impl]
  refine ⟨⟨by simp [add_node, add_node_impl, hs1], by simp [add_node, add_node_impl, hs2]⟩,
    ?_, ?_, by simp [add_node, add_node_impl], hent, ?_⟩
  · intro id hid
    rw [hent]
    have hid' : id < g.m_node_list.length + 1 := by simpa [add_node, add_node_impl] using hid
    by_cases hlt : id < g.m_node_list.length
    · have := hc id hlt
      simp only [add_node, add_node_impl]
      rw [List.getElem?_append_left (hs2 ▸ hlt)]
      exact this
    · have heq : id = g.m_node_list.length := by omega
      have h0 : entries_to g id = 0 := by
        rw [entries_to_eq_zero]
        intro es hes p hp hpid
        have := ht es hes p hp
        rw [hpid, heq] at this
        exact Nat.lt_irrefl _ this
      rw [h0]
      subst heq
      simp [add_node, add_node_impl, ← hs2]
  · intro es hes p hp
    simp only [add_node, add_node_impl, List.mem_append, List.mem_singleton] at hes
    rcases hes with hes | hes
    · have := ht es hes p hp
      simp only [add_node, add_node_impl, List.length_append, List.length_singleton]
      exact Nat.lt_succ_of_lt this
    · subst hes
      simp at hp
  · intro i l hl
    have hi : i < g.m_levels.length := by
      by_contra hge
      rw [List.getElem?_eq_none (Nat.le_of_not_lt hge)] at hl
      cases hl
    simp only [add_node, add_node_impl]
    rw [List.getElem?_append_left hi]
    exact hl

theorem add_edge_args {T U : Type} (g g1 : MPropertyGraph T U) (a b : node_id) (e : U)
    (h : g.add_edge a b e = some g1) :
    a < g.m_adjacency_list.length ∧ b < g.m_levels.length := by
  by_contra hn
  simp [add_edge, hn] at h

theorem add_edge_inv {T U : Type} (g g1 : MPropertyGraph T U) (a b : node_id) (e : U)
    (h : g.add_edge a b e = some g1)
    (hs : Sized g) (hc : Counted g) (ht : TargetsExist g) :
    Sized g1 ∧ Counted g1 ∧ TargetsExist g1 ∧
    g1.m_node_list.length = g.m_node_list.length ∧
    (∀ id, entries_to g1 id = entries_to g id + if b = id then 1 else 0) ∧
    (∀ (i : Nat) (l : Int), g.m_levels[i]? = some l →
      ∃ l1, g1.m_levels[i]? = some l1 ∧ l ≤ l1) := by
  obtain ⟨ha, hb⟩ := add_edge_args g g1 a b e h
  obtain ⟨g2, h2, hn, hadj, hlev, -⟩ := add_edge_eq g a b e ha hb
  rw [h] at h2
  cases h2
  obtain ⟨hs1, hs2⟩ := hs
  have hent : ∀ id, entries_to g1 id = entries_to g id + if b = id then 1 else 0 := by
    intro id
    unfold entries_to
    rw [hadj]
    apply sum_map_modify _ _ _ _ _ _ ha
    intro es
    by_cases hbi : b = id <;> simp [List.countP_append, hbi]
  refine ⟨⟨by rw [hadj, hn]; simpa using hs1, by rw [hlev, hn]; simpa using hs2⟩,
    ?_, ?_, by rw [hn], hent, ?_⟩
  · intro id hid
    rw [hn] at hid
    rw [hent, hlev, List.getElem?_modify, hc id hid]
    by_cases hbi : b = id <;> simp [hbi]
  · intro es hes p hp
    rw [hn]
    rw [hadj] at hes
    rcases mem_modify _ _ _ _ hes with h1 | ⟨x, hx, h1⟩
    · exact ht es h1 p hp
    · subst h1
      rcases List.mem_append.mp hp with hp1 | hp1
      · exact ht x hx p hp1
      · simp only [List.mem_singleton] at hp1
        subst hp1
        exact hs2 ▸ hb
  · intro i l hl
    rw [hlev, List.getElem?_modify, hl]
    by_cases hbi : b = i
    · exact ⟨l + 1, by simp [hbi], by omega⟩
    · exact ⟨l, by simp [hbi], le_refl _⟩

theorem update_node_inv {T U V : Type} (addT : T → V → T) (g g1 : MPropertyGraph T U)
    (id : node_id) (v : V) (h : g.update_node addT id v = some g1) :
    g1.m_adjacency_list = g.m_adjacency_list ∧ g1.m_levels = g.m_levels ∧
    g1.m_rev_adjacency_list = g.m_rev_adjacency_list ∧
    g1.m_node_list.length = g.m_node_list.length := by
  unfold update_node at h
  split_ifs at h
  cases h
  simp

theorem update_edge_inv {T U Y : Type} (addU : U → Y → U) (g g1 : MPropertyGraph T U)
    (a b : node_id) (v : Y) (r : Bool)
    (h : g.update_edge_if_present addU a b v = some (r, g1)) :
    g1.m_node_list = g.m_node_list ∧ g1.m_levels = g.m_levels ∧
    g1.m_rev_adjacency_list = g.m_rev_adjacency_list ∧
    g1.m_adjacency_list.length = g.m_adjacency_list.length ∧
    (∀ id, entries_to g1 id = entries_to g id) ∧
    (TargetsExist g → TargetsExist g1) := by
  unfold update_edge_if_present at h
  cases hes : g.m_adjacency_list[a]? with
  | none => simp [hes] at h
  | some es =>
    simp only [hes, Option.some.injEq, Prod.mk.injEq] at h
    obtain ⟨-, h⟩ := h
    subst h
    refine ⟨rfl, rfl, rfl, by simp, ?_, ?_⟩
    · intro id
      unfold entries_to
      exact sum_map_set _ _ _ es _ hes (update_scan_countP addU b v id es)
    · intro ht es1 hes1 p hp
      rcases List.mem_or_eq_of_mem_set hes1 with h1 | h1
      · exact ht es1 h1 p hp
      · subst h1
        have hmem : p.1 ∈ (update_scan addU b v es).2.map Prod.fst :=
          List.mem_map.mpr ⟨p, hp, rfl⟩
        rw [update_scan_targets] at hmem
        obtain ⟨q, hq, hqp⟩ := List.mem_map.mp hmem
        have := ht es (List.getElem?_mem hes) q hq
        rw [hqp] at this
        exact this

theorem apply_call_levels_mono {T U V Y : Type} (addT : T → V → T) (addU : U → Y → U)
    (g g1 : MPropertyGraph T U) (c : Call T U V Y)
    (h : apply_call addT addU g c = some g1) (i : Nat) (l : Int)
    (hl : g.m_levels[i]? = some l) :
    ∃ l1, g1.m_levels[i]? = some l1 ∧ l ≤ l1 := by
  cases c with
  | add_node v =>
    simp only [apply_call, Option.some.injEq] at h
    subst h
    have hi : i < g.m_levels.length := by
      by_contra hge
      rw [List.getElem?_eq_none (Nat.le_of_not_lt hge)] at hl
      cases hl
    refine ⟨l, ?_, le_refl _⟩
    simp only [add_node, add_node_impl]
    rw [List.getElem?_append_left hi]
    exact hl
  | add_edge a b e =>
    simp only [apply_call] at h
    obtain ⟨ha, hb⟩ := add_edge_args g g1 a b e h
    obtain ⟨g2, h2, -, -, hlev, -⟩ := add_edge_eq g a b e ha hb
    rw [h] at h2
    cases h2
    rw [hlev, List.getElem?_modify, hl]
    by_cases hbi : b = i
    · exact ⟨l + 1, by simp [hbi], by omega⟩
    · exact ⟨l, by simp [hbi], le_refl _⟩
  | update_node id v =>
    simp only [apply_call] at h
    obtain ⟨-, hlev, -, -⟩ := update_node_inv addT g g1 id v h
    exact ⟨l, by rw [hlev]; exact hl, le_refl _⟩
  | update_edge_if_present a b v =>
    simp only [apply_call, Option.map_eq_some'] at h
    obtain ⟨⟨r, g2⟩, h2, h3⟩ := h
    simp only at h3
    subst h3
    obtain ⟨-, hlev, -⟩ := update_edge_inv addU g g2 a b v r h2
    exact ⟨l, by rw [hlev]; exact hl, le_refl _⟩

theorem apply_call_inv {T U V Y : Type} (addT : T → V → T) (addU : U → Y → U)
    (g g1 : MPropertyGraph T U) (c : Call T U V Y)
    (h : apply_call addT addU g c = some g1)
    (hs : Sized g) (hc : Counted g) (ht : TargetsExist g) :
    Sized g1 ∧ Counted g1 ∧ TargetsExist g1 ∧
    g1.m_node_list.length = g.m_node_list.length + node_calls [c] ∧
    (∀ id, entries_to g1 id = entries_to g id + edge_calls_to [c] id) := by
  cases c with
  | add_node v =>
    simp only [apply_call, Option.some.injEq] at h
    subst h
    obtain ⟨h1, h2, h3, h4, h5, -⟩ := add_node_inv g v hs hc ht
    exact ⟨h1, h2, h3, by simpa [node_calls] using h4, by simpa [edge_calls_to] using h5⟩
  | add_edge a b e =>
    simp only [apply_call] at h
    obtain ⟨h1, h2, h3, h4, h5, -⟩ := add_edge_inv g g1 a b e h hs hc ht
    refine ⟨h1, h2, h3, by simpa [node_calls] using h4, ?_⟩
    intro id
    rw [h5 id]
    by_cases hbi : b = id <;> simp [edge_calls_to, hbi]
  | update_node id v =>
    simp only [apply_call] at h
    obtain ⟨hadj, hlev, -, hlen⟩ := update_node_inv addT g g1 id v h
    have hent : ∀ id, entries_to g1 id = entries_to g id := by
      intro id
      simp [entries_to, hadj]
    refine ⟨⟨by rw [hadj, hlen]; exact hs.1, by rw [hlev, hlen]; exact hs.2⟩, ?_, ?_,
      by simpa [node_calls] using hlen, by simpa [edge_calls_to] using hent⟩
    · intro i hi
      rw [hlen] at hi
      rw [hlev, hent]
      exact hc i hi
    · intro es hes p hp
      rw [hadj] at hes
      rw [hlen]
      exact ht es hes p hp
  | update_edge_if_present a b v =>
    simp only [apply_call, Option.map_eq_some'] at h
    obtain ⟨⟨r, g2⟩, h2, h3⟩ := h
    simp only at h3
    subst h3
    obtain ⟨hn, hlev, -, hlen, hent, htt⟩ := update_edge_inv addU g g2 a b v r h2
    refine ⟨⟨by rw [hlen, hn]; exact hs.1, by rw [hlev, hn]; exact hs.2⟩, ?_, htt ht,
      by simp [node_calls, hn], by simpa [edge_calls_to] using hent⟩
    intro i hi
    rw [hn] at hi
    rw [hlev, hent]
    exact hc i hi

theorem run_calls_inv {T U V Y : Type} (addT : T → V → T) (addU : U → Y → U)
    (cs : List (Call T U V Y)) (g g1 : MPropertyGraph T U)
    (h : run_calls addT addU cs g = some g1)
    (hs : Sized g) (hc : Counted g) (ht : TargetsExist g) :
    Sized g1 ∧ Counted g1 ∧ TargetsExist g1 ∧
    g1.m_node_list.length = g.m_node_list.length + node_calls cs ∧
    (∀ id, entries_to g1 id = entries_to g id + edge_calls_to cs id) := by
  induction cs generalizing g with
  | nil =>
    simp only [run_calls, Option.some.injEq] at h
    subst h
    exact ⟨hs, hc, ht, by simp [node_calls], by simp [edge_calls_to]⟩
  | cons c cs ih =>
    simp only [run_calls] at h
    cases hstep : apply_call addT addU g c with
    | none => simp [hstep] at h
    | some g2 =>
      simp only [hstep] at h
      obtain ⟨h1, h2, h3, h4, h5⟩ := apply_call_inv addT addU g g2 c hstep hs hc ht
      obtain ⟨k1, k2, k3, k4, k5⟩ := ih g2 h h1 h2 h3
      refine ⟨k1, k2, k3, ?_, ?_⟩
      · rw [k4, h4]
        simp only [node_calls, List.countP_cons, List.countP_nil]
        omega
      · intro id
        rw [k5, h5]
        simp only [edge_calls_to, List.countP_cons, List.countP_nil]
        omega

theorem empty_inv {T U : Type} :
    Sized (empty : MPropertyGraph T U) ∧ Counted (empty : MPropertyGraph T U) ∧
    TargetsExist (empty : MPropertyGraph T U) := by
  refine ⟨⟨rfl, rfl⟩, ?_, ?_⟩
  · intro id hid
    simp [empty] at hid
  · intro es hes
    simp [empty] at hes

theorem run_calls_levels {T U V Y : Type} (addT : T → V → T) (addU : U → Y → U)
    (cs : List (Call T U V Y)) (g : MPropertyGraph T U)
    (h : run_calls addT addU cs empty = some g) :
    g.m_node_list.length = node_calls cs ∧
    (∀ id, entries_to g id = edge_calls_to cs id) ∧
    g.m_levels = (List.range (node_calls cs)).map (fun id => (edge_calls_to cs id : Int)) := by
  obtain ⟨hs, hc, -, hn, hent⟩ :=
    run_calls_inv addT addU cs empty g h empty_inv.1 empty_inv.2.1 empty_inv.2.2
  have hn' : g.m_node_list.length = node_calls cs := by simpa [empty] using hn
  have hent' : ∀ id, entries_to g id = edge_calls_to cs id := by
    intro id
    simpa [entries_to, empty] using hent id
  refine ⟨hn', hent', ?_⟩
  apply List.ext_getElem?
  intro i
  by_cases hi : i < g.m_node_list.length
  · rw [hc i hi, hent']
    simp [List.getElem?_map, List.getElem?_range (hn' ▸ hi)]
  · have h1 : g.m_levels.length ≤ i := by rw [hs.2]; exact Nat.le_of_not_lt hi
    rw [List.getElem?_eq_none h1, List.getElem?_eq_none]
    simp only [List.length_map, List.length_range]
    rw [← hn']
    exact Nat.le_of_not_lt hi

/-- C11: in a graph reached from the empty graph by calls of `add_node`,
`add_edge`, `update_node` and `update_edge_if_present` (each within the
vectors), the node list, the adjacency list and the levels have the same
length; for every existing id the level is the number of `add_edge` calls that
targeted it, which is the number of entries with that target over all outgoing
lists; and no single call lowers a level.  (The level is a mathematical
integer: the statement covers the executions in which the C++ `int` does not
overflow.) -/
theorem levels_count_calls {T U V Y : Type} (addT : T → V → T) (addU : U → Y → U)
    (cs : List (Call T U V Y)) (g : MPropertyGraph T U)
    (h : run_calls addT addU cs empty = some g) :
    (g.m_adjacency_list.length = g.m_node_list.length ∧
      g.m_levels.length = g.m_node_list.length) ∧
    (∀ id, id < g.m_node_list.length →
      g.m_levels[id]? = some (edge_calls_to cs id : Int) ∧
      edge_calls_to cs id = entries_to g id) ∧
    (∀ (g1 g2 : MPropertyGraph T U) (c : Call T U V Y),
      apply_call addT addU g1 c = some g2 →
      ∀ (i : Nat) (l : Int), g1.m_levels[i]? = some l →
        ∃ l1, g2.m_levels[i]? = some l1 ∧ l ≤ l1) := by
  obtain ⟨hs, hc, -, -, -⟩ :=
    run_calls_inv addT addU cs empty g h empty_inv.1 empty_inv.2.1 empty_inv.2.2
  obtain ⟨-, hent, -⟩ := run_calls_levels addT addU cs g h
  refine ⟨hs, ?_, ?_⟩
  · intro id hid
    exact ⟨by rw [hc id hid, hent], (hent id).symm⟩
  · intro g1 g2 c hstep i l hl
    exact apply_call_levels_mono addT addU g1 g2 c hstep i l hl

/-- Witness for C11: the diamond, whose node 3 was targeted by two calls. -/
theorem levels_count_calls_witness :
    run_calls Nat.add Nat.add diamond_calls empty = some diamond ∧
    diamond.m_levels[3]? = some (edge_calls_to diamond_calls 3 : Int) ∧
    edge_calls_to diamond_calls 3 = 2 :=
  ⟨by decide,
    ((levels_count_calls Nat.add Nat.add diamond_calls diamond (by decide)).2.1 3
      (by decide)).1,
    by decide⟩

/-! ## get_roots -/

/-- C2: for a graph built from the empty graph through the interface,
`get_roots()` is strictly ascending, holds exactly the existing ids whose level
is 0, which are exactly the existing ids that no outgoing-edge entry targets,
and a second graph built by the same calls in another order has the same
`get_roots()`. -/
theorem get_roots_spec {T U V Y : Type} (addT : T → V → T) (addU : U → Y → U)
    (cs : List (Call T U V Y)) (g : MPropertyGraph T U)
    (h : run_calls addT addU cs empty = some g) :
    (get_roots g).Sorted (fun a b => a < b) ∧
    (∀ id, id ∈ get_roots g ↔ (id < g.m_node_list.length ∧ g.m_levels[id]? = some 0)) ∧
    (∀ id, id ∈ get_roots g ↔
      (id < g.m_node_list.length ∧ ∀ es ∈ g.m_adjacency_list, ∀ p ∈ es, p.1 ≠ id)) ∧
    (∀ (cs2 : List (Call T U V Y)) (g2 : MPropertyGraph T U), cs.Perm cs2 →
      run_calls addT addU cs2 empty = some g2 → get_roots g2 = get_roots g) := by
  obtain ⟨hs, hc, -, -, -⟩ :=
    run_calls_inv addT addU cs empty g h empty_inv.1 empty_inv.2.1 empty_inv.2.2
  have hmem : ∀ id, id ∈ get_roots g ↔
      (id < g.m_node_list.length ∧ g.m_levels[id]? = some 0) := by
    intro id
    simp [get_roots, hs.2]
  refine ⟨?_, hmem, ?_, ?_⟩
  · unfold get_roots
    exact List.Pairwise.filter _ (List.pairwise_lt_range _)
  · intro id
    rw [hmem, ← entries_to_eq_zero]
    constructor
    · rintro ⟨hid, hl⟩
      rw [hc id hid] at hl
      exact ⟨hid, by simpa using hl⟩
    · rintro ⟨hid, h0⟩
      exact ⟨hid, by rw [hc id hid, h0]; rfl⟩
  · intro cs2 g2 hperm h2
    obtain ⟨-, -, hl⟩ := run_calls_levels addT addU cs g h
    obtain ⟨-, -, hl2⟩ := run_calls_levels addT addU cs2 g2 h2
    have e1 : node_calls cs2 = node_calls cs := (hperm.countP_eq _).symm
    have e2 : ∀ id, edge_calls_to cs2 id = edge_calls_to cs id :=
      fun id => (hperm.countP_eq _).symm
    have : g2.m_levels = g.m_levels := by
      rw [hl, hl2, e1]
      simp [e2]
    simp [get_roots, this]

/-- Witness for C2: the diamond has the single root 0. -/
theorem get_roots_spec_witness :
    run_calls Nat.add Nat.add diamond_calls empty = some diamond ∧
    (get_roots diamond).Sorted (fun a b => a < b) ∧ get_roots diamond = [0] :=
  ⟨by decide, (get_roots_spec Nat.add Nat.add diamond_calls diamond (by decide)).1, by decide⟩

/-! ## get_leaves: the loop, fuel and termination -/

theorem leaves_loop_some {U : Type} (f : node_id × U → Option (edge_list U))
    (es acc : edge_list U) (h : ∀ e ∈ es, (f e).isSome) :
    leaves_loop f acc es = some (acc ++ es.flatMap (fun e => (f e).getD [])) := by
  induction es generalizing acc with
  | nil => simp [leaves_loop]
  | cons e rest ih =>
    have he := h e (by simp)
    obtain ⟨l, hl⟩ := Option.isSome_iff_exists.mp he
    have := ih (acc ++ l) (fun e1 h1 => h e1 (by simp [h1]))
    simp [leaves_loop, hl, this]

theorem leaves_loop_none {U : Type} (f : node_id × U → Option (edge_list U))
    (es acc : edge_list U) (h : leaves_loop f acc es = none) :
    ∃ e ∈ es, f e = none := by
  induction es generalizing acc with
  | nil => simp [leaves_loop] at h
  | cons e rest ih =>
    cases hfe : f e with
    | none => exact ⟨e, by simp, hfe⟩
    | some l =>
      simp only [leaves_loop, hfe] at h
      obtain ⟨e1, h1, h2⟩ := ih _ h
      exact ⟨e1, by simp [h1], h2⟩

theorem leaves_loop_isSome {U : Type} (f : node_id × U → Option (edge_list U))
    (es acc r : edge_list U) (h : leaves_loop f acc es = some r) :
    ∀ e ∈ es, (f e).isSome := by
  induction es generalizing acc with
  | nil => simp
  | cons e rest ih =>
    cases hfe : f e with
    | none => simp [leaves_loop, hfe] at h
    | some l =>
      simp only [leaves_loop, hfe] at h
      intro e1 h1
      rcases List.mem_cons.mp h1 with h2 | h2
      · simp [h2, hfe]
      · exact ih _ h e1 h2

theorem get_leaves_succ {T U : Type} (g : MPropertyGraph T U) (k : Nat) (e : node_id × U)
    (l : edge_list U) (h : g.get_leaves k e = some l) : g.get_leaves (k + 1) e = some l := by
  induction k generalizing e l with
  | zero => simp [get_leaves] at h
  | succ k ih =>
    rw [get_leaves] at h
    rw [get_leaves]
    cases hes : g.get_edge_list e.1 with
    | none => simp [hes] at h
    | some es =>
      simp only [hes] at h ⊢
      split_ifs at h ⊢ with h0
      · exact h
      · have hsome := leaves_loop_isSome _ _ _ _ h
        have hsome' : ∀ e1 ∈ es, (g.get_leaves (k + 1) e1).isSome := by
          intro e1 h1
          obtain ⟨l1, hl1⟩ := Option.isSome_iff_exists.mp (hsome e1 h1)
          simp [ih e1 l1 hl1]
        rw [leaves_loop_some _ _ _ hsome] at h
        rw [leaves_loop_some _ _ _ hsome', ← h]
        congr 2
        apply List.flatMap_congr
        intro e1 h1
        obtain ⟨l1, hl1⟩ := Option.isSome_iff_exists.mp (hsome e1 h1)
        simp [hl1, ih e1 l1 hl1]

theorem get_leaves_mono {T U : Type} (g : MPropertyGraph T U) (k m : Nat) (hkm : k ≤ m)
    (e : node_id × U) (l : edge_list U) (h : g.get_leaves k e = some l) :
    g.get_leaves m e = some l := by
  induction m with
  | zero =>
    have : k = 0 := by omega
    subst this
    exact h
  | succ m ih =>
    by_cases hk : k = m + 1
    · subst hk
      exact h
    · exact get_leaves_succ g m e l (ih (by omega))

theorem getElem?_lt {α : Type} (l : List α) (i : Nat) (x : α) (h : l[i]? = some x) :
    i < l.length := by
  by_contra hge
  rw [List.getElem?_eq_none (Nat.le_of_not_lt hge)] at h
  cases h

theorem edge_bounds {T U : Type} (g : MPropertyGraph T U) (hs : Sized g)
    (ht : TargetsExist g) (a b : node_id) (h : Edge g a b) :
    a < g.m_node_list.length ∧ b < g.m_node_list.length := by
  obtain ⟨es, hes, p, hp, hpb⟩ := h
  refine ⟨hs.1 ▸ getElem?_lt _ _ _ hes, ?_⟩
  rw [← hpb]
  exact ht es (List.getElem?_mem hes) p hp

theorem nodup_bound (l : List Nat) (n : Nat) (hn : l.Nodup) (hl : ∀ x ∈ l, x < n) :
    l.length ≤ n := by
  have hsub : l ⊆ List.range n := fun x hx => List.mem_range.mpr (hl x hx)
  have := (List.subperm_of_subset hn hsub).length_le
  simpa using this

theorem walk_bound {T U : Type} (g : MPropertyGraph T U) (hs : Sized g)
    (ht : TargetsExist g) (hac : Acyclic g) (k : Nat) (a : node_id) (seen : List Nat)
    (hnd : seen.Nodup) (hlt : ∀ s ∈ seen, s < g.m_node_list.length)
    (hreach : ∀ s ∈ seen, Relation.TransGen (Edge g) s a)
    (ha : a < g.m_node_list.length) (hw : HasWalk g k a) :
    seen.length + k + 1 ≤ g.m_node_list.length := by
  induction k generalizing a seen with
  | zero =>
    have hnot : a ∉ seen := fun hmem => hac a (hreach a hmem)
    have := nodup_bound (a :: seen) g.m_node_list.length (List.nodup_cons.mpr ⟨hnot, hnd⟩)
      (by
        intro x hx
        rcases List.mem_cons.mp hx with h1 | h1
        · exact h1 ▸ ha
        · exact hlt x h1)
    simpa using this
  | succ k ih =>
    obtain ⟨b, hedge, hwb⟩ := hw
    have hnot : a ∉ seen := fun hmem => hac a (hreach a hmem)
    have hb := (edge_bounds g hs ht a b hedge).2
    have := ih b (a :: seen) (List.nodup_cons.mpr ⟨hnot, hnd⟩)
      (by
        intro x hx
        rcases List.mem_cons.mp hx with h1 | h1
        · exact h1 ▸ ha
        · exact hlt x h1)
      (by
        intro x hx
        rcases List.mem_cons.mp hx with h1 | h1
        · exact h1 ▸ Relation.TransGen.single hedge
        · exact (hreach x h1).tail hedge)
      hb hwb
    simp only [List.length_cons] at this
    omega

theorem get_leaves_none_walk {T U : Type} (g : MPropertyGraph T U) (hs : Sized g)
    (ht : TargetsExist g) (k : Nat) (e : node_id × U) (he : e.1 < g.m_node_list.length)
    (h : g.get_leaves k e = none) : HasWalk g k e.1 := by
  induction k generalizing e with
  | zero => trivial
  | succ k ih =>
    rw [get_leaves] at h
    have hlt : e.1 < g.m_adjacency_list.length := hs.1.symm ▸ he
    have hes : g.get_edge_list e.1 = some g.m_adjacency_list[e.1] := by
      simp [get_edge_list, List.getElem?_eq_getElem hlt]
    simp only [hes] at h
    split_ifs at h with h0
    obtain ⟨e1, h1, h2⟩ := leaves_loop_none _ _ _ h
    have hb : e1.1 < g.m_node_list.length := ht _ (List.getElem_mem hlt) e1 h1
    exact ⟨e1.1, ⟨_, hes, e1, h1, rfl⟩, ih e1 hb h2⟩

theorem get_leaves_total {T U : Type} (g : MPropertyGraph T U) (hs : Sized g)
    (ht : TargetsExist g) (hac : Acyclic g) (fuel : Nat)
    (hfuel : g.m_node_list.length ≤ fuel) (e : node_id × U)
    (he : e.1 < g.m_node_list.length) : ∃ l, g.get_leaves fuel e = some l := by
  cases h : g.get_leaves g.m_node_list.length e with
  | none =>
    have hw := get_leaves_none_walk g hs ht _ e he h
    have := walk_bound g hs ht hac _ e.1 [] List.nodup_nil (by simp) (by simp) he hw
    simp at this
  | some l => exact ⟨l, get_leaves_mono g _ fuel hfuel e l h⟩

theorem get_leaves_unfold {T U : Type} (g : MPropertyGraph T U) (k : Nat) (e : node_id × U)
    (l es : edge_list U) (hes : g.get_edge_list e.1 = some es) (hne : es ≠ [])
    (h : g.get_leaves (k + 1) e = some l) :
    (∀ e1 ∈ es, (g.get_leaves k e1).isSome) ∧ l = es.flatMap (leaves_of g k) := by
  rw [get_leaves] at h
  simp only [hes] at h
  have h0 : ¬ es.length = 0 := by simpa using hne
  simp only [h0, if_false] at h
  have hsome := leaves_loop_isSome _ _ _ _ h
  rw [leaves_loop_some _ _ _ hsome] at h
  refine ⟨hsome, ?_⟩
  simp only [List.nil_append, Option.some.injEq] at h
  rw [← h]
  rfl

theorem get_leaves_props {T U : Type} (g : MPropertyGraph T U) (k : Nat) (e : node_id × U)
    (l : edge_list U) (h : g.get_leaves k e = some l) :
    l ≠ [] ∧ ∀ p ∈ l, Childless g p.1 := by
  induction k generalizing e l with
  | zero => simp [get_leaves] at h
  | succ k ih =>
    cases hes : g.get_edge_list e.1 with
    | none => simp [get_leaves, hes] at h
    | some es =>
      by_cases hne : es = []
      · subst hne
        simp only [get_leaves, hes, List.length_nil, if_true, Option.some.injEq] at h
        subst h
        exact ⟨by simp, by simpa [Childless] using hes⟩
      · obtain ⟨hsome, hl⟩ := get_leaves_unfold g k e l es hes hne h
        subst hl
        constructor
        · obtain ⟨e1, rest, hcons⟩ := List.exists_cons_of_ne_nil hne
          obtain ⟨l1, hl1⟩ := Option.isSome_iff_exists.mp (hsome e1 (by simp [hcons]))
          have := (ih e1 l1 hl1).1
          intro hnil
          rw [List.flatMap_eq_nil_iff] at hnil
          have h2 := hnil e1 (by simp [hcons])
          simp [leaves_of, hl1] at h2
          exact this h2
        · intro p hp
          obtain ⟨e1, he1, hp1⟩ := List.mem_flatMap.mp hp
          obtain ⟨l1, hl1⟩ := Option.isSome_iff_exists.mp (hsome e1 he1)
          simp only [leaves_of, hl1, Option.getD_some] at hp1
          exact (ih e1 l1 hl1).2 p hp1

theorem ascending_lt {T U : Type} (g : MPropertyGraph T U) (h : Ascending g)
    (a b : node_id) (hab : Relation.TransGen (Edge g) a b) : a < b := by
  have hedge : ∀ x y, Edge g x y → x < y := by
    intro x y hxy
    obtain ⟨es, hes, p, hp, hpy⟩ := hxy
    have hlt := getElem?_lt _ _ _ hes
    have hes' : g.m_adjacency_list[x]? = some es := hes
    have := h x hlt p (by simpa [List.getD, hes'] using hp)
    exact hpy ▸ this
  induction hab with
  | single h1 => exact hedge _ _ h1
  | tail _ h2 ih => exact lt_trans ih (hedge _ _ h2)

theorem acyclic_of_ascending {T U : Type} (g : MPropertyGraph T U) (h : Ascending g) :
    Acyclic g :=
  fun a haa => lt_irrefl a (ascending_lt g h a a haa)

theorem diamond_wf : Sized diamond ∧ TargetsExist diamond ∧ Acyclic diamond :=
  ⟨⟨rfl, rfl⟩, by unfold TargetsExist; decide,
    acyclic_of_ascending _ (by unfold Ascending; decide)⟩

theorem fork4_wf : Sized fork4 ∧ TargetsExist fork4 ∧ Acyclic fork4 :=
  ⟨⟨rfl, rfl⟩, by unfold TargetsExist; decide,
    acyclic_of_ascending _ (by unfold Ascending; decide)⟩

theorem chain4_wf : Sized chain4 ∧ TargetsExist chain4 ∧ Acyclic chain4 :=
  ⟨⟨rfl, rfl⟩, by unfold TargetsExist; decide,
    acyclic_of_ascending _ (by unfold Ascending; decide)⟩

theorem two_roots_wf : Sized two_roots ∧ TargetsExist two_roots ∧ Acyclic two_roots :=
  ⟨⟨rfl, rfl⟩, by unfold TargetsExist; decide,
    acyclic_of_ascending _ (by unfold Ascending; decide)⟩

theorem parallel2_wf : Sized parallel2 ∧ TargetsExist parallel2 ∧ Acyclic parallel2 :=
  ⟨⟨rfl, rfl⟩, by unfold TargetsExist; decide,
    acyclic_of_ascending _ (by unfold Ascending; decide)⟩

/-- C9: when node `L` has an empty outgoing-edge list, `get_leaves` applied to
an entry `(L, info)` returns the one-element list `[(L, info)]`, whatever
positive recursion budget it is given. -/
theorem get_leaves_childless {T U : Type} (g : MPropertyGraph T U) (L : node_id) (info : U)
    (hL : g.get_edge_list L = some []) (fuel : Nat) :
    g.get_leaves (fuel + 1) (L, info) = some [(L, info)] := by
  simp [get_leaves, hL]

/-- Witness for C9: node 3 of the diamond is childless. -/
theorem get_leaves_childless_witness :
    diamond.get_edge_list 3 = some [] ∧
    diamond.get_leaves (0 + 1) (3, 42) = some [(3, 42)] :=
  ⟨rfl, get_leaves_childless diamond 3 42 rfl 0⟩

/-! ## The record: keys and stored lists -/

theorem node_path_at_push {U : Type} (p : node_path U) (k c : node_id) (es : edge_list U) :
    node_path_at (node_path_push p k es) c =
      if k = c then node_path_at p c ++ es else node_path_at p c := by
  induction p with
  | nil =>
    by_cases hkc : k = c <;> simp [node_path_push, node_path_at, hkc]
  | cons kv rest ih =>
    unfold node_path_push
    by_cases h1 : kv.1 = k
    · by_cases hkc : k = c
      · simp [h1, hkc, node_path_at]
      · have : ¬ kv.1 = c := fun h => hkc (h1 ▸ h)
        simp [h1, hkc, node_path_at]
    · by_cases h2 : kv.1 = c
      · have hkc : ¬ k = c := fun h => h1 (h ▸ h2)
        have hck : ¬ c = k := fun h => hkc h.symm
        simp [h2, hkc, hck, node_path_at]
      · simp [h1, h2, node_path_at, ih]

theorem node_path_keys_push {U : Type} (p : node_path U) (k c : node_id) (es : edge_list U) :
    c ∈ node_path_keys (node_path_push p k es) ↔ c = k ∨ c ∈ node_path_keys p := by
  induction p with
  | nil => simp [node_path_push, node_path_keys]
  | cons kv rest ih =>
    unfold node_path_push
    by_cases h1 : kv.1 = k
    · simp only [h1, if_true, node_path_keys, List.map_cons, List.mem_cons]
      tauto
    · simp only [h1, if_false, node_path_keys, List.map_cons, List.mem_cons]
      simp only [node_path_keys] at ih
      rw [ih]
      tauto

theorem paths_loop_spec {U : Type} (f : node_id × U → Option (edge_list U))
    (es : edge_list U) (p : node_path U) (h : ∀ e ∈ es, (f e).isSome) :
    ∃ r, paths_loop f p es = some r ∧
      (∀ c, node_path_at r c = node_path_at p c ++
        (es.filter (fun e => decide (e.1 = c))).flatMap (fun e => e :: (f e).getD [])) ∧
      (∀ c, c ∈ node_path_keys r ↔ (c ∈ node_path_keys p ∨ ∃ e ∈ es, e.1 = c)) := by
  induction es generalizing p with
  | nil => exact ⟨p, rfl, by simp, by simp⟩
  | cons e rest ih =>
    obtain ⟨l, hl⟩ := Option.isSome_iff_exists.mp (h e (by simp))
    obtain ⟨r, hr, hat, hkeys⟩ :=
      ih (node_path_push (node_path_push p e.1 [e]) e.1 l) (fun e1 h1 => h e1 (by simp [h1]))
    refine ⟨r, by simp [paths_loop, hl, hr], ?_, ?_⟩
    · intro c
      rw [hat c, node_path_at_push, node_path_at_push]
      by_cases hc : e.1 = c
      · simp [hc, hl, List.filter_cons]
      · simp [hc, List.filter_cons]
    · intro c
      rw [hkeys c, node_path_keys_push, node_path_keys_push]
      constructor
      · rintro (h1 | ⟨e1, he1, h1⟩)
        · rcases h1 with h1 | h1 | h1
          · exact Or.inr ⟨e, by simp, h1.symm⟩
          · exact Or.inr ⟨e, by simp, h1.symm⟩
          · exact Or.inl h1
        · exact Or.inr ⟨e1, by simp [he1], h1⟩
      · rintro (h1 | ⟨e1, he1, h1⟩)
        · exact Or.inl (Or.inr (Or.inr h1))
        · rcases List.mem_cons.mp he1 with h2 | h2
          · exact Or.inl (Or.inl (by rw [← h1, h2]))
          · exact Or.inr ⟨e1, h2, h1⟩

theorem paths_loop_isSome {U : Type} (f : node_id × U → Option (edge_list U))
    (es : edge_list U) (p r : node_path U) (h : paths_loop f p es = some r) :
    ∀ e ∈ es, (f e).isSome := by
  induction es generalizing p with
  | nil => simp
  | cons e rest ih =>
    cases hfe : f e with
    | none => simp [paths_loop, hfe] at h
    | some l =>
      simp only [paths_loop, hfe] at h
      intro e1 h1
      rcases List.mem_cons.mp h1 with h2 | h2
      · simp [h2, hfe]
      · exact ih _ h e1 h2

theorem roots_loop_spec {T U : Type} (g : MPropertyGraph T U) (is : List node_id)
    (acc : edge_list U) (h : ∀ i ∈ is, i < g.m_adjacency_list.length) :
    roots_loop g acc is = some (acc ++
      (is.filter (fun i => g.m_levels[i]? == some 0)).flatMap
        (fun i => (g.get_edge_list i).getD [])) := by
  induction is generalizing acc with
  | nil => simp [roots_loop]
  | cons i rest ih =>
    have hi := h i (by simp)
    have hes : g.get_edge_list i = some g.m_adjacency_list[i] := by
      simp [get_edge_list, List.getElem?_eq_getElem hi]
    have hrest : ∀ j ∈ rest, j < g.m_adjacency_list.length := fun j hj => h j (by simp [hj])
    unfold roots_loop
    by_cases h0 : (g.m_levels[i]? == some 0) = true
    · simp only [h0, if_true, hes]
      rw [ih _ hrest]
      simp [List.filter_cons, h0, hes]
    · simp only [h0]
      rw [ih _ hrest]
      simp [List.filter_cons, h0]

theorem roots_loop_root_edges {T U : Type} (g : MPropertyGraph T U) (hs : Sized g) :
    roots_loop g [] (List.range g.m_levels.length) = some (root_edges g) := by
  rw [roots_loop_spec g _ [] (by
    intro i hi
    rw [hs.1, ← hs.2]
    exact List.mem_range.mp hi)]
  rfl

theorem mem_root_edges {T U : Type} (g : MPropertyGraph T U) (e : node_id × U) :
    e ∈ root_edges g ↔
      ∃ root ∈ get_roots g, ∃ es, g.get_edge_list root = some es ∧ e ∈ es := by
  unfold root_edges
  rw [List.mem_flatMap]
  constructor
  · rintro ⟨root, hroot, he⟩
    cases hes : g.get_edge_list root with
    | none => simp [hes] at he
    | some es => exact ⟨root, hroot, es, hes, by simpa [hes] using he⟩
  · rintro ⟨root, hroot, es, hes, he⟩
    exact ⟨root, hroot, by simpa [hes] using he⟩

theorem edges_total {T U : Type} (g : MPropertyGraph T U) (hs : Sized g)
    (ht : TargetsExist g) (hac : Acyclic g) (fuel : Nat)
    (hfuel : g.m_node_list.length ≤ fuel) (a : node_id) (es : edge_list U)
    (hes : g.get_edge_list a = some es) :
    ∀ e ∈ es, (g.get_leaves fuel e).isSome := by
  intro e he
  have hb : e.1 < g.m_node_list.length := ht es (List.getElem?_mem hes) e he
  obtain ⟨l, hl⟩ := get_leaves_total g hs ht hac fuel hfuel e hb
  simp [hl]

theorem root_edges_total {T U : Type} (g : MPropertyGraph T U) (hs : Sized g)
    (ht : TargetsExist g) (hac : Acyclic g) (fuel : Nat)
    (hfuel : g.m_node_list.length ≤ fuel) :
    ∀ e ∈ root_edges g, (g.get_leaves fuel e).isSome := by
  intro e he
  obtain ⟨root, -, es, hes, hmem⟩ := (mem_root_edges g e).mp he
  exact edges_total g hs ht hac fuel hfuel root es hes e hmem

theorem get_paths_from_record {T U : Type} (g : MPropertyGraph T U) (hs : Sized g)
    (ht : TargetsExist g) (hac : Acyclic g) (fuel : Nat)
    (hfuel : g.m_node_list.length ≤ fuel) (id : node_id) (es : edge_list U)
    (hes : g.get_edge_list id = some es) :
    ∃ r, g.get_paths_from fuel id = some r ∧
      (∀ c, node_path_at r c =
        (es.filter (fun e => decide (e.1 = c))).flatMap (fun e => e :: leaves_of g fuel e)) ∧
      (∀ c, c ∈ node_path_keys r ↔ ∃ e ∈ es, e.1 = c) := by
  obtain ⟨r, hr, hat, hkeys⟩ := paths_loop_spec (g.get_leaves fuel) es []
    (edges_total g hs ht hac fuel hfuel id es hes)
  refine ⟨r, by simp [get_paths_from, hes, hr], ?_, ?_⟩
  · intro c
    rw [hat c]
    simp [node_path_at, leaves_of]
  · intro c
    rw [hkeys c]
    simp [node_path_keys]

theorem get_parents_to_leaves_record {T U : Type} (g : MPropertyGraph T U) (hs : Sized g)
    (ht : TargetsExist g) (hac : Acyclic g) (fuel : Nat)
    (hfuel : g.m_node_list.length ≤ fuel) :
    ∃ r, g.get_parents_to_leaves fuel = some r ∧
      (∀ c, node_path_at r c =
        ((root_edges g).filter (fun e => decide (e.1 = c))).flatMap
          (fun e => e :: leaves_of g fuel e)) ∧
      (∀ c, c ∈ node_path_keys r ↔ ∃ e ∈ root_edges g, e.1 = c) := by
  obtain ⟨r, hr, hat, hkeys⟩ := paths_loop_spec (g.get_leaves fuel) (root_edges g) []
    (root_edges_total g hs ht hac fuel hfuel)
  refine ⟨r, by simp [get_parents_to_leaves, roots_loop_root_edges g hs, hr], ?_, ?_⟩
  · intro c
    rw [hat c]
    simp [node_path_at, leaves_of]
  · intro c
    rw [hkeys c]
    simp [node_path_keys]

theorem filter_unique {α : Type} (p : α → Bool) (l : List α) (x : α) (hx : x ∈ l)
    (hp : p x = true) (h1 : l.countP p = 1) : l.filter p = [x] := by
  rw [List.countP_eq_length_filter] at h1
  obtain ⟨y, hy⟩ := List.length_eq_one.mp h1
  have : x ∈ l.filter p := List.mem_filter.mpr ⟨hx, hp⟩
  rw [hy] at this
  rw [hy, List.mem_singleton.mp this]

theorem paths_loop_mono {U : Type} (f f1 : node_id × U → Option (edge_list U))
    (hf : ∀ e l, f e = some l → f1 e = some l) (es : edge_list U) (p r : node_path U)
    (h : paths_loop f p es = some r) : paths_loop f1 p es = some r := by
  induction es generalizing p with
  | nil => exact h
  | cons e rest ih =>
    cases hfe : f e with
    | none => simp [paths_loop, hfe] at h
    | some l =>
      simp only [paths_loop, hfe] at h
      simp only [paths_loop, hf e l hfe]
      exact ih _ h

theorem get_paths_from_mono {T U : Type} (g : MPropertyGraph T U) (k m : Nat) (hkm : k ≤ m)
    (id : node_id) (r : node_path U) (h : g.get_paths_from k id = some r) :
    g.get_paths_from m id = some r := by
  unfold get_paths_from at h ⊢
  cases hes : g.get_edge_list id with
  | none => simp [hes] at h
  | some es =>
    simp only [hes] at h ⊢
    exact paths_loop_mono _ _ (fun e l => get_leaves_mono g k m hkm e l) es [] r h

theorem get_parents_to_leaves_mono {T U : Type} (g : MPropertyGraph T U) (k m : Nat)
    (hkm : k ≤ m) (r : node_path U) (h : g.get_parents_to_leaves k = some r) :
    g.get_parents_to_leaves m = some r := by
  unfold get_parents_to_leaves at h ⊢
  cases hes : roots_loop g [] (List.range g.m_levels.length) with
  | none => simp [hes] at h
  | some es =>
    simp only [hes] at h ⊢
    exact paths_loop_mono _ _ (fun e l => get_leaves_mono g k m hkm e l) es [] r h

/-! ## get_paths_from -/

/-- Counterexample to C6: in the acyclic graph `parallel2` node 0 has the two
edges `(1, 5)` and `(1, 6)`; the leaves of `(1, 5)` are `[(1, 5)]`, yet the
entry that `get_paths_from(0)` stores under key 1 has four elements, not the
two of `[(1, 5)] ++ get_leaves((1, 5))`.  The recursion budget `k + 2` is any
budget with which the calls return. -/
theorem get_paths_from_parallel_counterexample :
    Acyclic parallel2 ∧
    parallel2.get_edge_list 0 = some [(1, 5), (1, 6)] ∧
    (∀ k, parallel2.get_leaves (k + 2) (1, 5) = some [(1, 5)]) ∧
    (∀ k, parallel2.get_paths_from (k + 2) 0 =
      some [(1, [(1, 5), (1, 5), (1, 6), (1, 6)])]) ∧
    node_path_at [(1, [((1 : Nat), (5 : Nat)), (1, 5), (1, 6), (1, 6)])] 1 ≠
      [(1, 5)] ++ [(1, 5)] := by
  refine ⟨parallel2_wf.2.2, rfl, ?_, ?_, by decide⟩
  · intro k
    exact get_leaves_mono parallel2 2 (k + 2) (by omega) _ _ (by decide)
  · intro k
    exact get_paths_from_mono parallel2 2 (k + 2) (by omega) _ _ (by decide)

/-- C6, amended: in an acyclic graph whose vectors have equal length and whose
entries target existing ids, `get_paths_from(id)` returns for an existing
`id`; its keys are exactly the targets of the outgoing edges of `id`; the list
stored under a key `c` is the concatenation, over the outgoing edges `e` of
`id` with target `c` in list order, of `[e] ++ get_leaves(e)`; so it is
`[e] ++ get_leaves(e)` when `e` is the only outgoing edge of `id` with that
target. -/
theorem get_paths_from_spec {T U : Type} (g : MPropertyGraph T U) (hs : Sized g)
    (ht : TargetsExist g) (hac : Acyclic g) (fuel : Nat)
    (hfuel : g.m_node_list.length ≤ fuel) (id : node_id) (es : edge_list U)
    (hes : g.get_edge_list id = some es) :
    ∃ r, g.get_paths_from fuel id = some r ∧
      (∀ c, c ∈ node_path_keys r ↔ ∃ e ∈ es, e.1 = c) ∧
      (∀ e ∈ es, ∃ l, g.get_leaves fuel e = some l ∧ leaves_of g fuel e = l) ∧
      (∀ c, node_path_at r c =
        (es.filter (fun e => decide (e.1 = c))).flatMap
          (fun e => e :: leaves_of g fuel e)) ∧
      (∀ e ∈ es, es.countP (fun e1 => decide (e1.1 = e.1)) = 1 →
        node_path_at r e.1 = e :: leaves_of g fuel e) := by
  obtain ⟨r, hr, hat, hkeys⟩ := get_paths_from_record g hs ht hac fuel hfuel id es hes
  refine ⟨r, hr, hkeys, ?_, hat, ?_⟩
  · intro e he
    obtain ⟨l, hl⟩ := Option.isSome_iff_exists.mp
      (edges_total g hs ht hac fuel hfuel id es hes e he)
    exact ⟨l, hl, by simp [leaves_of, hl]⟩
  · intro e he h1
    rw [hat e.1, filter_unique _ es e he (by simp) h1]
    simp

/-- Witness for C6, amended: node 0 of the diamond. -/
theorem get_paths_from_spec_witness :
    ∃ r, diamond.get_paths_from 4 0 = some r ∧
      (∀ c, c ∈ node_path_keys r ↔ ∃ e ∈ [((1 : Nat), (5 : Nat)), (2, 6)], e.1 = c) ∧
      (∀ e ∈ [((1 : Nat), (5 : Nat)), (2, 6)],
        ∃ l, diamond.get_leaves 4 e = some l ∧ leaves_of diamond 4 e = l) ∧
      (∀ c, node_path_at r c =
        ([((1 : Nat), (5 : Nat)), (2, 6)].filter (fun e => decide (e.1 = c))).flatMap
          (fun e => e :: leaves_of diamond 4 e)) ∧
      (∀ e ∈ [((1 : Nat), (5 : Nat)), (2, 6)],
        [((1 : Nat), (5 : Nat)), (2, 6)].countP (fun e1 => decide (e1.1 = e.1)) = 1 →
        node_path_at r e.1 = e :: leaves_of diamond 4 e) :=
  get_paths_from_spec diamond diamond_wf.1 diamond_wf.2.1 diamond_wf.2.2 4 (by decide) 0 _ rfl

/-- C8: when the only outgoing edge of `A` is `(B, eAB)`, the only outgoing
edge of `B` is `(C, eBC)` and `C` has no outgoing edge, `get_paths_from(A)`
returns the record with the single key `B`, mapped to the two-element list
`[(B, eAB), (C, eBC)]`, for every recursion budget of at least 2. -/
theorem get_paths_from_chain {T U : Type} (g : MPropertyGraph T U) (A B C : node_id)
    (eAB eBC : U) (hA : g.get_edge_list A = some [(B, eAB)])
    (hB : g.get_edge_list B = some [(C, eBC)]) (hC : g.get_edge_list C = some [])
    (fuel : Nat) :
    g.get_paths_from (fuel + 2) A = some [(B, [(B, eAB), (C, eBC)])] := by
  simp [get_paths_from, paths_loop, get_leaves, leaves_loop, node_path_push, hA, hB, hC]

/-- Witness for C8: the chain `1 → 2 → 3` inside `chain4`. -/
theorem get_paths_from_chain_witness :
    chain4.get_edge_list 1 = some [(2, 6)] ∧ chain4.get_edge_list 2 = some [(3, 7)] ∧
    chain4.get_edge_list 3 = some [] ∧
    chain4.get_paths_from (0 + 2) 1 = some [(2, [(2, 6), (3, 7)])] :=
  ⟨rfl, rfl, rfl, get_paths_from_chain chain4 1 2 3 6 7 rfl rfl rfl 0⟩

/-! ## get_parents_to_leaves -/

theorem head_flatMap_cons {α : Type} (l : List α) (F : α → List α) (x : α)
    (hx : x ∈ l) : ∃ y ∈ l, (l.flatMap (fun e => e :: F e)).head? = some y := by
  cases l with
  | nil => simp at hx
  | cons y ys => exact ⟨y, by simp, by simp⟩

/-- C7: in an acyclic graph whose vectors have equal length and whose entries
target existing ids, `get_parents_to_leaves()` returns; its keys are exactly
the targets of the outgoing edges of the roots (the ids of level 0), and the
first element of the list stored under a key `c` is an outgoing edge of a root
whose target is `c`. -/
theorem get_parents_to_leaves_keys {T U : Type} (g : MPropertyGraph T U) (hs : Sized g)
    (ht : TargetsExist g) (hac : Acyclic g) (fuel : Nat)
    (hfuel : g.m_node_list.length ≤ fuel) :
    ∃ r, g.get_parents_to_leaves fuel = some r ∧
      (∀ c, c ∈ node_path_keys r ↔
        ∃ root ∈ get_roots g, ∃ es, g.get_edge_list root = some es ∧ ∃ p ∈ es, p.1 = c) ∧
      (∀ c ∈ node_path_keys r, ∃ p root es, (node_path_at r c).head? = some p ∧ p.1 = c ∧
        root ∈ get_roots g ∧ g.get_edge_list root = some es ∧ p ∈ es) := by
  obtain ⟨r, hr, hat, hkeys⟩ := get_parents_to_leaves_record g hs ht hac fuel hfuel
  refine ⟨r, hr, ?_, ?_⟩
  · intro c
    rw [hkeys c]
    constructor
    · rintro ⟨e, he, hec⟩
      obtain ⟨root, hroot, es, hes, hmem⟩ := (mem_root_edges g e).mp he
      exact ⟨root, hroot, es, hes, e, hmem, hec⟩
    · rintro ⟨root, hroot, es, hes, p, hp, hpc⟩
      exact ⟨p, (mem_root_edges g p).mpr ⟨root, hroot, es, hes, hp⟩, hpc⟩
  · intro c hc
    obtain ⟨e, he, hec⟩ := (hkeys c).mp hc
    have hmem : e ∈ (root_edges g).filter (fun e => decide (e.1 = c)) :=
      List.mem_filter.mpr ⟨he, by simp [hec]⟩
    obtain ⟨y, hy, hhead⟩ := head_flatMap_cons _ (leaves_of g fuel) e hmem
    obtain ⟨hy1, hy2⟩ := List.mem_filter.mp hy
    obtain ⟨root, hroot, es, hes, hmem2⟩ := (mem_root_edges g y).mp hy1
    exact ⟨y, root, es, by rw [hat c]; exact hhead, by simpa using hy2, hroot, hes, hmem2⟩

/-- Witness for C7: in `two_roots` the only key is node 2. -/
theorem get_parents_to_leaves_keys_witness :
    ∃ r, two_roots.get_parents_to_leaves 4 = some r ∧
      (∀ c, c ∈ node_path_keys r ↔
        ∃ root ∈ get_roots two_roots, ∃ es, two_roots.get_edge_list root = some es ∧
          ∃ p ∈ es, p.1 = c) ∧
      (∀ c ∈ node_path_keys r, ∃ p root es, (node_path_at r c).head? = some p ∧ p.1 = c ∧
        root ∈ get_roots two_roots ∧ two_roots.get_edge_list root = some es ∧ p ∈ es) :=
  get_parents_to_leaves_keys two_roots two_roots_wf.1 two_roots_wf.2.1 two_roots_wf.2.2 4
    (by decide)

/-- C18: in an acyclic graph whose vectors have equal length and whose entries
target existing ids, `get_parents_to_leaves()` is the merge of
`get_paths_from(r)` over the roots: both return, the list stored under any id
`c` is the concatenation, over the roots in the ascending order of
`get_roots()`, of the list that `get_paths_from(r)` stores under `c` (the empty
list when `c` is not a key there), and `c` is a key exactly when it is a key
of `get_paths_from(r)` for some root `r`. -/
theorem get_parents_to_leaves_merge {T U : Type} (g : MPropertyGraph T U) (hs : Sized g)
    (ht : TargetsExist g) (hac : Acyclic g) (fuel : Nat)
    (hfuel : g.m_node_list.length ≤ fuel) :
    ∃ r, g.get_parents_to_leaves fuel = some r ∧
      (∀ root ∈ get_roots g, ∃ q, g.get_paths_from fuel root = some q ∧
        (∀ c, node_path_at q c = [] ↔ c ∉ node_path_keys q)) ∧
      (∀ c, node_path_at r c = (get_roots g).flatMap
        (fun root => node_path_at ((g.get_paths_from fuel root).getD []) c)) ∧
      (∀ c, c ∈ node_path_keys r ↔
        ∃ root ∈ get_roots g, c ∈ node_path_keys ((g.get_paths_from fuel root).getD [])) := by
  obtain ⟨r, hr, hat, hkeys⟩ := get_parents_to_leaves_record g hs ht hac fuel hfuel
  have hroot : ∀ root ∈ get_roots g, ∃ q, g.get_paths_from fuel root = some q ∧
      (∀ c, node_path_at q c =
        (((g.get_edge_list root).getD []).filter (fun e => decide (e.1 = c))).flatMap
          (fun e => e :: leaves_of g fuel e)) ∧
      (∀ c, c ∈ node_path_keys q ↔ ∃ e ∈ (g.get_edge_list root).getD [], e.1 = c) := by
    intro root hmem
    have hlt : root < g.m_adjacency_list.length := by
      have := (List.mem_filter.mp hmem).1
      rw [hs.1, ← hs.2]
      exact List.mem_range.mp this
    have hes : g.get_edge_list root = some g.m_adjacency_list[root] := by
      simp [get_edge_list, List.getElem?_eq_getElem hlt]
    obtain ⟨q, hq, hqat, hqkeys⟩ := get_paths_from_record g hs ht hac fuel hfuel root _ hes
    exact ⟨q, hq, by simpa [hes] using hqat, by simpa [hes] using hqkeys⟩
  refine ⟨r, hr, ?_, ?_, ?_⟩
  · intro root hmem
    obtain ⟨q, hq, hqat, hqkeys⟩ := hroot root hmem
    refine ⟨q, hq, ?_⟩
    intro c
    rw [hqat c, hqkeys c]
    constructor
    · intro hnil
      rintro ⟨e, he, hec⟩
      have hmem2 : e ∈ ((g.get_edge_list root).getD []).filter (fun e => decide (e.1 = c)) :=
        List.mem_filter.mpr ⟨he, by simp [hec]⟩
      obtain ⟨y, -, hhead⟩ := head_flatMap_cons _ (leaves_of g fuel) e hmem2
      rw [hnil] at hhead
      simp at hhead
    · intro hno
      have : ((g.get_edge_list root).getD []).filter (fun e => decide (e.1 = c)) = [] := by
        rw [List.filter_eq_nil_iff]
        intro e he hec
        exact hno ⟨e, he, by simpa using hec⟩
      rw [this]
      rfl
  · intro c
    rw [hat c]
    unfold root_edges
    rw [List.filter_flatMap, List.flatMap_assoc]
    apply List.flatMap_congr
    intro root hmem
    obtain ⟨q, hq, hqat, -⟩ := hroot root hmem
    rw [hq, Option.getD_some, hqat c]
  · intro c
    rw [hkeys c]
    constructor
    · rintro ⟨e, he, hec⟩
      obtain ⟨root, hmem, es, hes, hmem2⟩ := (mem_root_edges g e).mp he
      obtain ⟨q, hq, -, hqkeys⟩ := hroot root hmem
      refine ⟨root, hmem, ?_⟩
      rw [hq, Option.getD_some, hqkeys c]
      exact ⟨e, by simpa [hes] using hmem2, hec⟩
    · rintro ⟨root, hmem, hc⟩
      obtain ⟨q, hq, -, hqkeys⟩ := hroot root hmem
      rw [hq, Option.getD_some, hqkeys c] at hc
      obtain ⟨e, he, hec⟩ := hc
      cases hes : g.get_edge_list root with
      | none => simp [hes] at he
      | some es =>
        exact ⟨e, (mem_root_edges g e).mpr ⟨root, hmem, es, hes, by simpa [hes] using he⟩, hec⟩

/-- Witness for C18: `two_roots`, where both roots contribute to key 2. -/
theorem get_parents_to_leaves_merge_witness :
    two_roots.get_parents_to_leaves 4 = some [(2, [(2, 5), (3, 7), (2, 6), (3, 7)])] ∧
    two_roots.get_paths_from 4 0 = some [(2, [(2, 5), (3, 7)])] ∧
    two_roots.get_paths_from 4 1 = some [(2, [(2, 6), (3, 7)])] ∧
    ∃ r, two_roots.get_parents_to_leaves 4 = some r ∧
      (∀ root ∈ get_roots two_roots, ∃ q, two_roots.get_paths_from 4 root = some q ∧
        (∀ c, node_path_at q c = [] ↔ c ∉ node_path_keys q)) ∧
      (∀ c, node_path_at r c = (get_roots two_roots).flatMap
        (fun root => node_path_at ((two_roots.get_paths_from 4 root).getD []) c)) ∧
      (∀ c, c ∈ node_path_keys r ↔
        ∃ root ∈ get_roots two_roots,
          c ∈ node_path_keys ((two_roots.get_paths_from 4 root).getD [])) :=
  ⟨by decide, by decide, by decide,
    get_parents_to_leaves_merge two_roots two_roots_wf.1 two_roots_wf.2.1 two_roots_wf.2.2 4
      (by decide)⟩

/-! ## Paths down to the childless nodes -/

theorem walks_loop_mem {U : Type} (f : node_id → List (List Nat)) (es : edge_list U)
    (i : Nat) (w1 : List Nat) :
    w1 ∈ walks_loop f i es ↔
      ∃ j e w, es[j]? = some e ∧ w ∈ f e.1 ∧ w1 = (i + j) :: w := by
  induction es generalizing i with
  | nil => simp [walks_loop]
  | cons e rest ih =>
    simp only [walks_loop, List.mem_append, List.mem_map, ih]
    constructor
    · rintro (⟨w, hw, rfl⟩ | ⟨j, e1, w, hj, hw, rfl⟩)
      · exact ⟨0, e, w, by simp, hw, by simp⟩
      · exact ⟨j + 1, e1, w, by simpa using hj, hw, by simp; omega⟩
    · rintro ⟨j, e1, w, hj, hw, rfl⟩
      cases j with
      | zero =>
        simp only [List.getElem?_cons_zero, Option.some.injEq] at hj
        subst hj
        exact Or.inl ⟨w, hw, by simp⟩
      | succ j =>
        exact Or.inr ⟨j, e1, w, by simpa using hj, hw, by simp; omega⟩

theorem walks_loop_nodup {U : Type} (f : node_id → List (List Nat)) (es : edge_list U)
    (i : Nat) (h : ∀ e ∈ es, (f e.1).Nodup) : (walks_loop f i es).Nodup := by
  induction es generalizing i with
  | nil => simp [walks_loop]
  | cons e rest ih =>
    simp only [walks_loop]
    rw [List.nodup_append]
    refine ⟨?_, ih (i + 1) (fun e1 h1 => h e1 (by simp [h1])), ?_⟩
    · exact (h e (by simp)).map (fun a b hab => by simpa using hab)
    · intro x hx1 hx2
      obtain ⟨w, -, rfl⟩ := List.mem_map.mp hx1
      obtain ⟨j, e1, w1, -, -, heq⟩ := (walks_loop_mem f rest (i + 1) _).mp hx2
      simp only [List.cons.injEq] at heq
      omega

theorem leaf_walks_nodup {T U : Type} (g : MPropertyGraph T U) (k : Nat) (a : node_id) :
    (leaf_walks g k a).Nodup := by
  induction k generalizing a with
  | zero => simp [leaf_walks]
  | succ k ih =>
    unfold leaf_walks
    cases hes : g.get_edge_list a with
    | none => simp
    | some es =>
      simp only
      split_ifs
      · simp
      · exact walks_loop_nodup _ _ _ (fun e _ => ih e.1)

theorem leaf_walks_mem {T U : Type} (g : MPropertyGraph T U) (k : Nat) (a : node_id)
    (w : List Nat) : w ∈ leaf_walks g k a ↔ (IsLeafWalk g a w ∧ w.length < k) := by
  induction k generalizing a w with
  | zero => simp [leaf_walks]
  | succ k ih =>
    unfold leaf_walks
    cases hes : g.get_edge_list a with
    | none =>
      cases w with
      | nil => simp [IsLeafWalk, hes]
      | cons i w1 => simp [IsLeafWalk, hes]
    | some es =>
      simp only
      by_cases h0 : es.length = 0
      · have hnil : es = [] := List.length_eq_zero.mp h0
        subst hnil
        cases w with
        | nil => simp [IsLeafWalk, hes]
        | cons i w1 => simp [IsLeafWalk, hes]
      · simp only [h0, if_false, walks_loop_mem]
        have hne : es ≠ [] := fun h => h0 (by simp [h])
        cases w with
        | nil => simp [IsLeafWalk, hes, hne]
        | cons i w1 =>
          simp only [IsLeafWalk, hes, Option.some.injEq, List.length_cons]
          constructor
          · rintro ⟨j, e, w2, hj, hw2, heq⟩
            simp only [Nat.zero_add, List.cons.injEq] at heq
            obtain ⟨rfl, rfl⟩ := heq
            obtain ⟨h1, h2⟩ := (ih e.1 w1).mp hw2
            exact ⟨⟨es, e, rfl, hj, h1⟩, by omega⟩
          · rintro ⟨⟨es1, e, rfl, hj, h1⟩, h2⟩
            exact ⟨i, e, w1, hj, (ih e.1 w1).mpr ⟨h1, by omega⟩, by simp⟩

theorem leaf_walk_has_walk {T U : Type} (g : MPropertyGraph T U) (a : node_id)
    (w : List Nat) (h : IsLeafWalk g a w) : HasWalk g w.length a := by
  induction w generalizing a with
  | nil => trivial
  | cons i w1 ih =>
    obtain ⟨es, e, hes, hi, hw⟩ := h
    exact ⟨e.1, ⟨es, hes, e, List.getElem?_mem hi, rfl⟩, ih e.1 hw⟩

theorem leaf_walks_complete {T U : Type} (g : MPropertyGraph T U) (hs : Sized g)
    (ht : TargetsExist g) (hac : Acyclic g) (fuel : Nat)
    (hfuel : g.m_node_list.length ≤ fuel) (a : node_id) (w : List Nat) :
    w ∈ leaf_walks g fuel a ↔ IsLeafWalk g a w := by
  rw [leaf_walks_mem]
  constructor
  · exact fun h => h.1
  · intro h
    refine ⟨h, ?_⟩
    have ha : a < g.m_node_list.length := by
      cases w with
      | nil => exact hs.1 ▸ getElem?_lt _ _ _ h
      | cons i w1 =>
        obtain ⟨es, e, hes, -, -⟩ := h
        exact hs.1 ▸ getElem?_lt _ _ _ hes
    have := walk_bound g hs ht hac _ a [] List.nodup_nil (by simp) (by simp) ha
      (leaf_walk_has_walk g a w h)
    simp only [List.length_nil] at this
    omega

theorem walks_loop_leaves {T U : Type} (g : MPropertyGraph T U) (k : Nat) (a : node_id)
    (e : node_id × U) (es : edge_list U) (hes : g.get_edge_list a = some es)
    (ih : ∀ e1 l1, g.get_leaves k e1 = some l1 →
      l1 = (leaf_walks g k e1.1).map (fun w => last_edge e1 (walk_edges g e1.1 w)))
    (pre suf : edge_list U) (hsplit : es = pre ++ suf)
    (hsome : ∀ e1 ∈ suf, (g.get_leaves k e1).isSome) :
    (walks_loop (leaf_walks g k) pre.length suf).map
        (fun w => last_edge e (walk_edges g a w)) =
      suf.flatMap (leaves_of g k) := by
  induction suf generalizing pre with
  | nil => simp [walks_loop]
  | cons e1 rest ihs =>
    obtain ⟨l1, hl1⟩ := Option.isSome_iff_exists.mp (hsome e1 (by simp))
    have hidx : es[pre.length]? = some e1 := by
      rw [hsplit, List.getElem?_append_right (le_refl _)]
      simp
    have hrest := ihs (pre ++ [e1]) (by simp [hsplit]) (fun e2 h2 => hsome e2 (by simp [h2]))
    simp only [List.length_append, List.length_singleton] at hrest
    simp only [walks_loop, List.map_append, List.map_map, List.flatMap_cons, hrest]
    congr 1
    rw [show leaves_of g k e1 = l1 by simp [leaves_of, hl1], ih e1 l1 hl1]
    apply List.map_congr_left
    intro w _
    simp [walk_edges, hes, hidx, last_edge]

theorem get_leaves_walks {T U : Type} (g : MPropertyGraph T U) (k : Nat) (e : node_id × U)
    (l : edge_list U) (h : g.get_leaves k e = some l) :
    l = (leaf_walks g k e.1).map (fun w => last_edge e (walk_edges g e.1 w)) := by
  induction k generalizing e l with
  | zero => simp [get_leaves] at h
  | succ k ih =>
    cases hes : g.get_edge_list e.1 with
    | none => simp [get_leaves, hes] at h
    | some es =>
      by_cases hne : es = []
      · subst hne
        simp only [get_leaves, hes, List.length_nil, if_true, Option.some.injEq] at h
        subst h
        simp [leaf_walks, hes, walk_edges, last_edge]
      · obtain ⟨hsome, hl⟩ := get_leaves_unfold g k e l es hes hne h
        have h0 : ¬ es.length = 0 := by simpa using hne
        have := walks_loop_leaves g k e.1 e es hes ih [] es rfl hsome
        simp only [List.length_nil] at this
        rw [hl, ← this]
        simp [leaf_walks, hes, h0]

theorem exists_leaf_walk {T U : Type} (g : MPropertyGraph T U) (hs : Sized g)
    (ht : TargetsExist g) (hac : Acyclic g) (e : node_id × U)
    (he : e.1 < g.m_node_list.length) : ∃ w, IsLeafWalk g e.1 w := by
  obtain ⟨l, hl⟩ := get_leaves_total g hs ht hac _ (le_refl _) e he
  have hne := (get_leaves_props g _ e l hl).1
  have hval := get_leaves_walks g _ e l hl
  cases hw : leaf_walks g g.m_node_list.length e.1 with
  | nil =>
    rw [hw] at hval
    exact absurd hval hne
  | cons w ws =>
    have hmem : w ∈ leaf_walks g g.m_node_list.length e.1 := by simp [hw]
    exact ⟨w, ((leaf_walks_mem g _ _ w).mp hmem).1⟩

theorem get_leaves_depth {T U : Type} (g : MPropertyGraph T U) (hs : Sized g)
    (ht : TargetsExist g) (hac : Acyclic g) (d : Nat) (e : node_id × U)
    (he : e.1 < g.m_node_list.length)
    (hd : ∀ w, IsLeafWalk g e.1 w → w.length < d) : ∃ l, g.get_leaves d e = some l := by
  induction d generalizing e with
  | zero =>
    obtain ⟨w, hw⟩ := exists_leaf_walk g hs ht hac e he
    exact absurd (hd w hw) (Nat.not_lt_zero _)
  | succ d ih =>
    have hlt : e.1 < g.m_adjacency_list.length := hs.1.symm ▸ he
    have hes : g.get_edge_list e.1 = some g.m_adjacency_list[e.1] := by
      simp [get_edge_list, List.getElem?_eq_getElem hlt]
    rw [get_leaves]
    simp only [hes]
    split_ifs with h0
    · exact ⟨_, rfl⟩
    · have hsome : ∀ e1 ∈ g.m_adjacency_list[e.1], (g.get_leaves d e1).isSome := by
        intro e1 h1
        obtain ⟨j, hj, hje⟩ := List.getElem_of_mem h1
        have hb : e1.1 < g.m_node_list.length := ht _ (List.getElem_mem hlt) e1 h1
        have hidx : (g.m_adjacency_list[e.1])[j]? = some e1 := by
          rw [List.getElem?_eq_getElem hj, hje]
        obtain ⟨l1, hl1⟩ := ih e1 hb (by
          intro w hw
          have := hd (j :: w) ⟨_, e1, hes, hidx, hw⟩
          simpa using this)
        simp [hl1]
      exact ⟨_, leaves_loop_some _ _ _ hsome⟩

/-! ## Termination -/

/-- C17: in a graph whose vectors have equal length, whose entries target
existing ids and whose adjacency relation is acyclic, `get_leaves` returns on
every entry with an existing target as soon as the recursion budget is the
number of nodes, and so do `get_paths_from` on every existing id and
`get_parents_to_leaves`; and when no path from the target of the entry down to
a childless node has more than `d` edges, a recursion depth of `d + 1` is
enough for `get_leaves`. -/
theorem get_leaves_terminates {T U : Type} (g : MPropertyGraph T U) (hs : Sized g)
    (ht : TargetsExist g) (hac : Acyclic g) :
    (∀ fuel, g.m_node_list.length ≤ fuel → ∀ e : node_id × U,
      e.1 < g.m_node_list.length → ∃ l, g.get_leaves fuel e = some l) ∧
    (∀ fuel, g.m_node_list.length ≤ fuel → ∀ id, id < g.m_node_list.length →
      ∃ r, g.get_paths_from fuel id = some r) ∧
    (∀ fuel, g.m_node_list.length ≤ fuel → ∃ r, g.get_parents_to_leaves fuel = some r) ∧
    (∀ (e : node_id × U) (d : Nat), e.1 < g.m_node_list.length →
      (∀ w, IsLeafWalk g e.1 w → w.length ≤ d) →
      ∃ l, g.get_leaves (d + 1) e = some l) := by
  refine ⟨fun fuel hfuel e he => get_leaves_total g hs ht hac fuel hfuel e he, ?_, ?_, ?_⟩
  · intro fuel hfuel id hid
    have hlt : id < g.m_adjacency_list.length := hs.1.symm ▸ hid
    have hes : g.get_edge_list id = some g.m_adjacency_list[id] := by
      simp [get_edge_list, List.getElem?_eq_getElem hlt]
    obtain ⟨r, hr, -⟩ := get_paths_from_record g hs ht hac fuel hfuel id _ hes
    exact ⟨r, hr⟩
  · intro fuel hfuel
    obtain ⟨r, hr, -⟩ := get_parents_to_leaves_record g hs ht hac fuel hfuel
    exact ⟨r, hr⟩
  · intro e d he hd
    exact get_leaves_depth g hs ht hac (d + 1) e he (fun w hw => Nat.lt_succ_of_le (hd w hw))

/-- Witness for C17: the chain `0 → 1 → 2 → 3`, entered at node 0. -/
theorem get_leaves_terminates_witness :
    (∃ l, chain4.get_leaves 4 (0, 9) = some l) ∧
    (∃ r, chain4.get_paths_from 4 0 = some r) ∧
    (∃ r, chain4.get_parents_to_leaves 4 = some r) :=
  ⟨(get_leaves_terminates chain4 chain4_wf.1 chain4_wf.2.1 chain4_wf.2.2).1 4 (by decide)
      (0, 9) (by decide),
    (get_leaves_terminates chain4 chain4_wf.1 chain4_wf.2.1 chain4_wf.2.2).2.1 4 (by decide)
      0 (by decide),
    (get_leaves_terminates chain4 chain4_wf.1 chain4_wf.2.1 chain4_wf.2.2).2.2.1 4
      (by decide)⟩

/-! ## What the lists of a record hold -/

theorem leaves_of_walks {T U : Type} (g : MPropertyGraph T U) (hs : Sized g)
    (ht : TargetsExist g) (hac : Acyclic g) (fuel : Nat)
    (hfuel : g.m_node_list.length ≤ fuel) (e : node_id × U)
    (he : e.1 < g.m_node_list.length) :
    g.get_leaves fuel e = some (leaves_of g fuel e) ∧
    leaves_of g fuel e =
      (leaf_walks g fuel e.1).map (fun w => last_edge e (walk_edges g e.1 w)) := by
  obtain ⟨l, hl⟩ := get_leaves_total g hs ht hac fuel hfuel e he
  have h1 : leaves_of g fuel e = l := by simp [leaves_of, hl]
  exact ⟨by rw [h1, hl], by rw [h1]; exact get_leaves_walks g fuel e l hl⟩

theorem childless_lt {T U : Type} (g : MPropertyGraph T U) (hs : Sized g) (a : node_id)
    (h : Childless g a) : a < g.m_node_list.length :=
  hs.1 ▸ getElem?_lt _ _ _ h

/-- C19: in an acyclic graph whose vectors have equal length and whose entries
target existing ids, `get_leaves(e)` returns a list with one element per
directed path from the target of `e` down to a childless node: the paths,
written as positions in the successive outgoing lists (so parallel edges give
different paths, and the empty path is there when the target is childless),
form a duplicate-free list `ws` that holds every such path, and the returned
list is the list of the last edges of these paths, of the same length.  In the
diamond `0 → 1`, `0 → 2`, `1 → 3`, `2 → 3` an entry that targets node 0 yields
two entries for node 3. -/
theorem get_leaves_counts_paths {T U : Type} (g : MPropertyGraph T U) (hs : Sized g)
    (ht : TargetsExist g) (hac : Acyclic g) (fuel : Nat)
    (hfuel : g.m_node_list.length ≤ fuel) (e : node_id × U)
    (he : e.1 < g.m_node_list.length) :
    (∃ (l : edge_list U) (ws : List (List Nat)), g.get_leaves fuel e = some l ∧ ws.Nodup ∧
      (∀ w, w ∈ ws ↔ IsLeafWalk g e.1 w) ∧ l.length = ws.length ∧
      l = ws.map (fun w => last_edge e (walk_edges g e.1 w))) ∧
    (∀ (info : Nat) (k : Nat), diamond.get_leaves (k + 4) (0, info) = some [(3, 7), (3, 8)]) := by
  constructor
  · obtain ⟨h1, h2⟩ := leaves_of_walks g hs ht hac fuel hfuel e he
    exact ⟨leaves_of g fuel e, leaf_walks g fuel e.1, h1, leaf_walks_nodup g fuel e.1,
      fun w => leaf_walks_complete g hs ht hac fuel hfuel e.1 w, by rw [h2]; simp, h2⟩
  · intro info k
    exact get_leaves_mono diamond 4 (k + 4) (by omega) _ _
      (by simp [get_leaves, leaves_loop, diamond, get_edge_list])

/-- Witness for C19: the diamond entered at node 0 has the two paths
`[0, 0]` and `[1, 0]` down to node 3. -/
theorem get_leaves_counts_paths_witness :
    ∃ (l : edge_list Nat) (ws : List (List Nat)),
      diamond.get_leaves 4 (0, 9) = some l ∧ ws.Nodup ∧
      (∀ w, w ∈ ws ↔ IsLeafWalk diamond 0 w) ∧ l.length = ws.length ∧
      l = ws.map (fun w => last_edge (0, 9) (walk_edges diamond 0 w)) :=
  (get_leaves_counts_paths diamond diamond_wf.1 diamond_wf.2.1 diamond_wf.2.2 4 (by decide)
    (0, 9) (by decide)).1

theorem blocks_walks {T U : Type} (g : MPropertyGraph T U) (hs : Sized g)
    (ht : TargetsExist g) (hac : Acyclic g) (fuel : Nat)
    (hfuel : g.m_node_list.length ≤ fuel) (es : edge_list U)
    (hes : ∀ e ∈ es, e.1 < g.m_node_list.length) (c : node_id) :
    (es.filter (fun e => decide (e.1 = c))).flatMap (fun e => e :: leaves_of g fuel e) =
      (es.filter (fun e => decide (e.1 = c))).flatMap
        (fun e => e :: (leaf_walks g fuel c).map
          (fun w => last_edge e (walk_edges g c w))) := by
  apply List.flatMap_congr
  intro e he
  obtain ⟨h1, h2⟩ := List.mem_filter.mp he
  have hc : e.1 = c := by simpa using h2
  rw [(leaves_of_walks g hs ht hac fuel hfuel e (hes e h1)).2, hc]

theorem root_edges_lt {T U : Type} (g : MPropertyGraph T U) (ht : TargetsExist g) :
    ∀ e ∈ root_edges g, e.1 < g.m_node_list.length := by
  intro e he
  obtain ⟨root, -, es, hes, hmem⟩ := (mem_root_edges g e).mp he
  exact ht es (List.getElem?_mem hes) e hmem

/-- Counterexample to C10: in the acyclic chain `0 → 1 → 2 → 3` the entry
keyed by child 1, both in `get_paths_from(0)` and in `get_parents_to_leaves()`,
is `[(1, 5), (3, 7)]`; the edge `(2, 6)` lies on the path `1 → 2 → 3` from the
child down to the leaf 3 and is not among the remaining elements. -/
theorem record_inner_edge_counterexample :
    Acyclic chain4 ∧
    (∀ k, chain4.get_paths_from (k + 4) 0 = some [(1, [(1, 5), (3, 7)])]) ∧
    (∀ k, chain4.get_parents_to_leaves (k + 4) = some [(1, [(1, 5), (3, 7)])]) ∧
    IsLeafWalk chain4 1 [0, 0] ∧
    walk_edges chain4 1 [0, 0] = [(2, 6), (3, 7)] ∧
    (2, 6) ∉ node_path_at [(1, [((1 : Nat), (5 : Nat)), (3, 7)])] 1 := by
  refine ⟨chain4_wf.2.2, ?_, ?_, ?_, by decide, by decide⟩
  · intro k
    exact get_paths_from_mono chain4 4 (k + 4) (by omega) _ _ (by decide)
  · intro k
    exact get_parents_to_leaves_mono chain4 4 (k + 4) (by omega) _ (by decide)
  · exact ⟨_, (2, 6), rfl, rfl, _, (3, 7), rfl, rfl, rfl⟩

theorem walks_loop_sorted {U : Type} (f : node_id → List (List Nat)) (es : edge_list U)
    (i : Nat) (h : ∀ e ∈ es, (f e.1).Pairwise walk_before) :
    (walks_loop f i es).Pairwise walk_before := by
  induction es generalizing i with
  | nil => simp [walks_loop]
  | cons e rest ih =>
    simp only [walks_loop]
    rw [List.pairwise_append]
    refine ⟨?_, ih (i + 1) (fun e1 h1 => h e1 (by simp [h1])), ?_⟩
    · rw [List.pairwise_map]
      exact (h e (by simp)).imp (fun hab => Or.inr ⟨rfl, hab⟩)
    · intro x hx y hy
      obtain ⟨w, -, rfl⟩ := List.mem_map.mp hx
      obtain ⟨j, e1, w1, -, -, rfl⟩ := (walks_loop_mem f rest (i + 1) _).mp hy
      exact Or.inl (by omega)

theorem leaf_walks_sorted {T U : Type} (g : MPropertyGraph T U) (k : Nat) (a : node_id) :
    (leaf_walks g k a).Pairwise walk_before := by
  induction k generalizing a with
  | zero => simp [leaf_walks]
  | succ k ih =>
    unfold leaf_walks
    cases hes : g.get_edge_list a with
    | none => simp
    | some es =>
      simp only
      split_ifs
      · simp
      · exact walks_loop_sorted _ _ _ (fun e _ => ih e.1)

theorem single_block {T U : Type} (g : MPropertyGraph T U) (hs : Sized g)
    (ht : TargetsExist g) (hac : Acyclic g) (fuel : Nat)
    (hfuel : g.m_node_list.length ≤ fuel) (es : edge_list U)
    (hlt : ∀ e ∈ es, e.1 < g.m_node_list.length) (l : edge_list U) (e : node_id × U)
    (he : e ∈ es) (h1 : es.countP (fun e1 => decide (e1.1 = e.1)) = 1)
    (hl : l = (es.filter (fun e1 => decide (e1.1 = e.1))).flatMap
      (fun e1 => e1 :: leaves_of g fuel e1)) :
    ∃ ws : List (List Nat), ws.Pairwise walk_before ∧ ws.Nodup ∧
      (∀ w, w ∈ ws ↔ IsLeafWalk g e.1 w) ∧
      l = e :: ws.map (fun w => last_edge e (walk_edges g e.1 w)) := by
  refine ⟨leaf_walks g fuel e.1, leaf_walks_sorted g fuel e.1, leaf_walks_nodup g fuel e.1,
    fun w => leaf_walks_complete g hs ht hac fuel hfuel e.1 w, ?_⟩
  rw [hl, filter_unique _ es e he (by simp) h1]
  simp only [List.flatMap_cons, List.flatMap_nil, List.append_nil]
  rw [(leaves_of_walks g hs ht hac fuel hfuel e (hlt e he)).2]

/-- C10, amended: in an acyclic graph whose vectors have equal length and
whose entries target existing ids, take an outgoing edge `e` of `id` that is
the only outgoing edge of `id` with its target `c`.  The list that
`get_paths_from(id)` stores under `c` is `e` followed by one element for every
directed path from `c` down to a childless node, the paths `ws` taken in
depth-first order (`walk_before`, each path once): the element is the last edge
of the path, and `e` itself for the empty path.  The same holds for
`get_parents_to_leaves()` and an outgoing edge `e` of a root that is the only
outgoing edge of the roots with its target.  Edges in the middle of a path are
not listed. -/
theorem record_entries_spec {T U : Type} (g : MPropertyGraph T U) (hs : Sized g)
    (ht : TargetsExist g) (hac : Acyclic g) (fuel : Nat)
    (hfuel : g.m_node_list.length ≤ fuel) (id : node_id) (es : edge_list U)
    (hes : g.get_edge_list id = some es) :
    (∃ r, g.get_paths_from fuel id = some r ∧
      ∀ e ∈ es, es.countP (fun e1 => decide (e1.1 = e.1)) = 1 →
        ∃ ws : List (List Nat), ws.Pairwise walk_before ∧ ws.Nodup ∧
          (∀ w, w ∈ ws ↔ IsLeafWalk g e.1 w) ∧
          node_path_at r e.1 = e :: ws.map (fun w => last_edge e (walk_edges g e.1 w))) ∧
    (∃ r, g.get_parents_to_leaves fuel = some r ∧
      ∀ e ∈ root_edges g, (root_edges g).countP (fun e1 => decide (e1.1 = e.1)) = 1 →
        ∃ ws : List (List Nat), ws.Pairwise walk_before ∧ ws.Nodup ∧
          (∀ w, w ∈ ws ↔ IsLeafWalk g e.1 w) ∧
          node_path_at r e.1 = e :: ws.map (fun w => last_edge e (walk_edges g e.1 w))) := by
  have hlt : ∀ e ∈ es, e.1 < g.m_node_list.length :=
    fun e he => ht es (List.getElem?_mem hes) e he
  constructor
  · obtain ⟨r, hr, hat, -⟩ := get_paths_from_record g hs ht hac fuel hfuel id es hes
    exact ⟨r, hr, fun e he h1 =>
      single_block g hs ht hac fuel hfuel es hlt _ e he h1 (hat e.1)⟩
  · obtain ⟨r, hr, hat, -⟩ := get_parents_to_leaves_record g hs ht hac fuel hfuel
    exact ⟨r, hr, fun e he h1 =>
      single_block g hs ht hac fuel hfuel _ (root_edges_lt g ht) _ e he h1 (hat e.1)⟩

/-- Witness for C10, amended: the fork `0 → 1`, `1 → 2`, `1 → 3` read from its
root, where the two paths from node 1 are `[0]` and `[1]` in this order. -/
theorem record_entries_spec_witness :
    fork4.get_parents_to_leaves 4 = some [(1, [(1, 5), (2, 6), (3, 7)])] ∧
    walk_before [0] [1] ∧ ¬ walk_before [1] [0] ∧
    ∃ r, fork4.get_parents_to_leaves 4 = some r ∧
      ∀ e ∈ root_edges fork4, (root_edges fork4).countP (fun e1 => decide (e1.1 = e.1)) = 1 →
        ∃ ws : List (List Nat), ws.Pairwise walk_before ∧ ws.Nodup ∧
          (∀ w, w ∈ ws ↔ IsLeafWalk fork4 e.1 w) ∧
          node_path_at r e.1 = e :: ws.map (fun w => last_edge e (walk_edges fork4 e.1 w)) :=
  ⟨by decide, Or.inl (by decide), by simp [walk_before],
    (record_entries_spec fork4 fork4_wf.1 fork4_wf.2.1 fork4_wf.2.2 4 (by decide) 0
      [(1, 5)] rfl).2⟩

/-- What `get_parents_to_leaves()` stores after the first element of a list:
in an acyclic graph whose vectors have equal length and whose entries target
existing ids, every element after the first of the list stored under a key `c`
is either an entry whose node has no outgoing edge or one more outgoing edge
of a root with target `c`; when exactly one outgoing edge of the roots targets
`c`, every element after the first is an entry whose node has no outgoing
edge. -/
theorem parents_to_leaves_tail_spec {T U : Type} (g : MPropertyGraph T U) (hs : Sized g)
    (ht : TargetsExist g) (hac : Acyclic g) (fuel : Nat)
    (hfuel : g.m_node_list.length ≤ fuel) :
    ∃ r, g.get_parents_to_leaves fuel = some r ∧
      (∀ c, ∀ p ∈ (node_path_at r c).tail,
        Childless g p.1 ∨ (p.1 = c ∧ p ∈ root_edges g)) ∧
      (∀ c, (root_edges g).countP (fun e => decide (e.1 = c)) = 1 →
        ∀ p ∈ (node_path_at r c).tail, Childless g p.1) := by
  obtain ⟨r, hr, hat, -⟩ := get_parents_to_leaves_record g hs ht hac fuel hfuel
  have hleaf : ∀ e ∈ root_edges g, ∀ p ∈ leaves_of g fuel e, Childless g p.1 := by
    intro e he p hp
    obtain ⟨l, hl⟩ := Option.isSome_iff_exists.mp (root_edges_total g hs ht hac fuel hfuel e he)
    have : leaves_of g fuel e = l := by simp [leaves_of, hl]
    rw [this] at hp
    exact (get_leaves_props g fuel e l hl).2 p hp
  refine ⟨r, hr, ?_, ?_⟩
  · intro c p hp
    rw [hat c] at hp
    have hp1 := List.mem_of_mem_tail hp
    obtain ⟨e, he, hpe⟩ := List.mem_flatMap.mp hp1
    obtain ⟨he1, he2⟩ := List.mem_filter.mp he
    rcases List.mem_cons.mp hpe with h1 | h1
    · exact Or.inr ⟨by rw [h1]; simpa using he2, h1 ▸ he1⟩
    · exact Or.inl (hleaf e he1 p h1)
  · intro c hc p hp
    rw [hat c] at hp
    rw [List.countP_eq_length_filter] at hc
    obtain ⟨e, he⟩ := List.length_eq_one.mp hc
    have hmem : e ∈ root_edges g := by
      have : e ∈ (root_edges g).filter (fun e => decide (e.1 = c)) := by simp [he]
      exact (List.mem_filter.mp this).1
    rw [he] at hp
    simp only [List.flatMap_cons, List.flatMap_nil, List.append_nil, List.tail_cons] at hp
    exact hleaf e hmem p hp

/-! ## explain_problem -/

open MProblemsExplainer

/-- Counterexample to C12: for the node named `foo` whose problem type is
`SOLVER_RULE_JOB_UNKNOWN_PACKAGE`, `explain_problem` returns the name, the
clause and an end-of-line character, which is not the name followed by the
clause alone. -/
theorem explain_problem_newline_counterexample :
    explain_problem plain_ops ("foo", some SolverRuleinfo.SOLVER_RULE_JOB_UNKNOWN_PACKAGE) =
      "foo which can\x27t be found in the configured channels\n" ∧
    explain_problem plain_ops ("foo", some SolverRuleinfo.SOLVER_RULE_JOB_UNKNOWN_PACKAGE) ≠
      "foo which can\x27t be found in the configured channels" := by
  constructor
  · rfl
  · decide

/-- C12, amended: for a node whose `m_problem_type` holds the kind `t`,
`explain_problem(node)` is the name of the node, followed by the clause that
the table gives for `t`, followed by one end-of-line character; for the kind
unknown-package it is `<name> which can't be found in the configured channels`
followed by the end-of-line character. -/
theorem explain_problem_spec {N E : Type} (ops : GroupOps N E) (node : N)
    (t : SolverRuleinfo) (ht : ops.m_problem_type node = some t) :
    explain_problem ops node = ops.get_name node ++ spec_clause t ++ "\n" ∧
    (t = SolverRuleinfo.SOLVER_RULE_JOB_UNKNOWN_PACKAGE →
      explain_problem ops node =
        ops.get_name node ++ " which can\x27t be found in the configured channels" ++ "\n") := by
  constructor
  · cases t <;> simp [explain_problem, ht, spec_clause]
  · intro h
    subst h
    simp [explain_problem, ht]

/-- Witness for C12, amended: the node named `foo` with kind
`SOLVER_RULE_BEST`. -/
theorem explain_problem_spec_witness :
    explain_problem plain_ops ("foo", some SolverRuleinfo.SOLVER_RULE_BEST) =
      "foo" ++ spec_clause SolverRuleinfo.SOLVER_RULE_BEST ++ "\n" :=
  (explain_problem_spec plain_ops ("foo", some SolverRuleinfo.SOLVER_RULE_BEST)
    SolverRuleinfo.SOLVER_RULE_BEST rfl).1

/-- The branch of `explain_problem` for a node whose `m_problem_type` is not
set: the text is what the stream operator of the node type writes for the
node, followed by ` which is problematic`, with no end-of-line character.  It
is `<name> which is problematic` when the stream operator writes exactly the
name; the operator is declared outside the two source files. -/
theorem explain_problem_unset {N E : Type} (ops : GroupOps N E) (node : N)
    (ht : ops.m_problem_type node = none) :
    explain_problem ops node = ops.show_node node ++ " which is problematic" ∧
    (ops.show_node node = ops.get_name node →
      explain_problem ops node = ops.get_name node ++ " which is problematic") := by
  constructor
  · simp [explain_problem, ht]
  · intro h
    simp [explain_problem, ht, h]

/-! ## explain: the aggregation -/

theorem map_at_push {V : Type} (m : List (String × List V)) (k k1 : String) (v : V) :
    map_at (map_push m k v) k1 = if k = k1 then map_at m k1 ++ [v] else map_at m k1 := by
  induction m with
  | nil =>
    by_cases hk : k = k1 <;> simp [map_push, map_at, hk]
  | cons kv rest ih =>
    unfold map_push
    by_cases h1 : kv.1 = k
    · by_cases hk : k = k1
      · simp [h1, hk, map_at]
      · have : ¬ kv.1 = k1 := fun h => hk (h1 ▸ h)
        simp [h1, hk, map_at]
    · by_cases h2 : kv.1 = k1
      · have hkc : ¬ k = k1 := fun h => h1 (h ▸ h2)
        have hck : ¬ k1 = k := fun h => hkc h.symm
        simp [h2, hkc, hck, map_at]
      · simp [h1, h2, map_at, ih]

theorem map_at_push2 {V : Type} (m : List (String × List (String × List V)))
    (k1 k2 c1 : String) (v : V) :
    map_at (map_push2 m k1 k2 v) c1 =
      if k1 = c1 then map_push (map_at m c1) k2 v else map_at m c1 := by
  induction m with
  | nil =>
    by_cases hk : k1 = c1 <;> simp [map_push2, map_at, map_push, hk]
  | cons kv rest ih =>
    unfold map_push2
    by_cases h1 : kv.1 = k1
    · by_cases hk : k1 = c1
      · simp [h1, hk, map_at]
      · have : ¬ kv.1 = c1 := fun h => hk (h1 ▸ h)
        simp [h1, hk, map_at]
    · by_cases h2 : kv.1 = c1
      · have hkc : ¬ k1 = c1 := fun h => h1 (h ▸ h2)
        have hck : ¬ c1 = k1 := fun h => hkc h.symm
        simp [h2, hkc, hck, map_at]
      · simp [h1, h2, map_at, ih]

theorem mem_map_at_push2 {V : Type} (m : List (String × List (String × List V)))
    (k1 k2 c1 c2 : String) (v x : V) :
    x ∈ map_at (map_at (map_push2 m k1 k2 v) c1) c2 ↔
      (x ∈ map_at (map_at m c1) c2 ∨ (x = v ∧ k1 = c1 ∧ k2 = c2)) := by
  rw [map_at_push2]
  by_cases h1 : k1 = c1
  · simp only [h1, if_true, map_at_push]
    by_cases h2 : k2 = c2
    · simp [h2]
    · simp [h2]
  · simp [h1]

theorem explain_leaves_spec {N E : Type} (ops : GroupOps N E) (g : MPropertyGraph N E)
    (rn : N) (re : E) (leaves : edge_list E) (agg agg1 : Aggregation N E)
    (h : explain_leaves ops g rn re agg leaves = some agg1) (x : N × E) (c1 c2 : String) :
    x ∈ map_at (map_at agg1.2 c1) c2 ↔
      (x ∈ map_at (map_at agg.2 c1) c2 ∨
        (x = (rn, re) ∧ ∃ it ∈ leaves, ∃ cn, g.get_node it.1 = some cn ∧
          ops.get_name cn = c1 ∧ ops.join (ops.m_deps it.2) ", " = c2)) := by
  induction leaves generalizing agg with
  | nil =>
    simp only [explain_leaves, Option.some.injEq] at h
    subst h
    simp
  | cons it rest ih =>
    cases hn : g.get_node it.1 with
    | none => simp [explain_leaves, hn] at h
    | some cn =>
      simp only [explain_leaves, hn] at h
      rw [ih _ h, mem_map_at_push2]
      constructor
      · rintro ((h1 | ⟨h1, h2, h3⟩) | ⟨h1, it1, hit1, cn1, h2, h3, h4⟩)
        · exact Or.inl h1
        · exact Or.inr ⟨h1, it, by simp, cn, hn, h2, h3⟩
        · exact Or.inr ⟨h1, it1, by simp [hit1], cn1, h2, h3, h4⟩
      · rintro (h1 | ⟨h1, it1, hit1, cn1, h2, h3, h4⟩)
        · exact Or.inl (Or.inl h1)
        · rcases List.mem_cons.mp hit1 with h5 | h5
          · subst h5
            rw [hn] at h2
            cases h2
            exact Or.inl (Or.inr ⟨h1, h3, h4⟩)
          · exact Or.inr ⟨h1, it1, h5, cn1, h2, h3, h4⟩

theorem explain_entries_spec {N E : Type} (ops : GroupOps N E) (g : MPropertyGraph N E)
    (path : node_path E) (agg agg1 : Aggregation N E)
    (h : explain_entries ops g agg path = some agg1) (x : N × E) (c1 c2 : String) :
    x ∈ map_at (map_at agg1.2 c1) c2 ↔
      (x ∈ map_at (map_at agg.2 c1) c2 ∨
        ∃ entry ∈ path, ∃ root_node root_info leaves,
          g.get_node entry.1 = some root_node ∧ entry.2 = root_info :: leaves ∧
          x = (root_node, root_info.2) ∧
          ∃ it ∈ leaves, ∃ cn, g.get_node it.1 = some cn ∧
            ops.get_name cn = c1 ∧ ops.join (ops.m_deps it.2) ", " = c2) := by
  induction path generalizing agg with
  | nil =>
    simp only [explain_entries, Option.some.injEq] at h
    subst h
    simp
  | cons entry rest ih =>
    cases hn : g.get_node entry.1 with
    | none => simp [explain_entries, hn] at h
    | some rn =>
      cases hl : entry.2 with
      | nil => simp [explain_entries, hn, hl] at h
      | cons ri leaves =>
        cases hin : explain_leaves ops g rn ri.2 agg leaves with
        | none => simp [explain_entries, hn, hl, hin] at h
        | some agg2 =>
          simp only [explain_entries, hn, hl, hin] at h
          rw [ih _ h, explain_leaves_spec ops g rn ri.2 leaves agg agg2 hin]
          constructor
          · rintro ((h1 | ⟨h1, h2⟩) | ⟨e1, he1, h2⟩)
            · exact Or.inl h1
            · exact Or.inr ⟨entry, by simp, rn, ri, leaves, hn, hl, h1, h2⟩
            · exact Or.inr ⟨e1, by simp [he1], h2⟩
          · rintro (h1 | ⟨e1, he1, rn1, ri1, leaves1, h2, h3, h4, h5⟩)
            · exact Or.inl (Or.inl h1)
            · rcases List.mem_cons.mp he1 with h6 | h6
              · subst h6
                rw [hn] at h2
                rw [hl] at h3
                cases h2
                cases h3
                exact Or.inl (Or.inr ⟨h4, h5⟩)
              · exact Or.inr ⟨e1, h6, rn1, ri1, leaves1, h2, h3, h4, h5⟩

theorem mem_map_at_push {V : Type} (m : List (String × List V)) (k k1 : String) (v x : V) :
    x ∈ map_at (map_push m k v) k1 ↔ (x ∈ map_at m k1 ∨ (x = v ∧ k = k1)) := by
  rw [map_at_push]
  by_cases h : k = k1
  · simp [h]
  · simp [h]

theorem explain_leaves_bluf {N E : Type} (ops : GroupOps N E) (g : MPropertyGraph N E)
    (rn : N) (re : E) (leaves : edge_list E) (agg agg1 : Aggregation N E)
    (h : explain_leaves ops g rn re agg leaves = some agg1) (x : N × E) (c1 : String) :
    x ∈ map_at agg1.1 c1 ↔
      (x ∈ map_at agg.1 c1 ∨
        ∃ it ∈ leaves, ∃ cn, g.get_node it.1 = some cn ∧ x = (cn, re) ∧
          ops.get_name cn = c1) := by
  induction leaves generalizing agg with
  | nil =>
    simp only [explain_leaves, Option.some.injEq] at h
    subst h
    simp
  | cons it rest ih =>
    cases hn : g.get_node it.1 with
    | none => simp [explain_leaves, hn] at h
    | some cn =>
      simp only [explain_leaves, hn] at h
      rw [ih _ h, mem_map_at_push]
      constructor
      · rintro ((h1 | ⟨h1, h2⟩) | ⟨it1, hit1, cn1, h2, h3, h4⟩)
        · exact Or.inl h1
        · exact Or.inr ⟨it, by simp, cn, hn, h1, h2⟩
        · exact Or.inr ⟨it1, by simp [hit1], cn1, h2, h3, h4⟩
      · rintro (h1 | ⟨it1, hit1, cn1, h2, h3, h4⟩)
        · exact Or.inl (Or.inl h1)
        · rcases List.mem_cons.mp hit1 with h5 | h5
          · subst h5
            rw [hn] at h2
            cases h2
            exact Or.inl (Or.inr ⟨h3, h4⟩)
          · exact Or.inr ⟨it1, h5, cn1, h2, h3, h4⟩

theorem explain_entries_bluf {N E : Type} (ops : GroupOps N E) (g : MPropertyGraph N E)
    (path : node_path E) (agg agg1 : Aggregation N E)
    (h : explain_entries ops g agg path = some agg1) (x : N × E) (c1 : String) :
    x ∈ map_at agg1.1 c1 ↔
      (x ∈ map_at agg.1 c1 ∨
        ∃ entry ∈ path, ∃ root_node root_info leaves,
          g.get_node entry.1 = some root_node ∧ entry.2 = root_info :: leaves ∧
          ∃ it ∈ leaves, ∃ cn, g.get_node it.1 = some cn ∧ x = (cn, root_info.2) ∧
            ops.get_name cn = c1) := by
  induction path generalizing agg with
  | nil =>
    simp only [explain_entries, Option.some.injEq] at h
    subst h
    simp
  | cons entry rest ih =>
    cases hn : g.get_node entry.1 with
    | none => simp [explain_entries, hn] at h
    | some rn =>
      cases hl : entry.2 with
      | nil => simp [explain_entries, hn, hl] at h
      | cons ri leaves =>
        cases hin : explain_leaves ops g rn ri.2 agg leaves with
        | none => simp [explain_entries, hn, hl, hin] at h
        | some agg2 =>
          simp only [explain_entries, hn, hl, hin] at h
          rw [ih _ h, explain_leaves_bluf ops g rn ri.2 leaves agg agg2 hin]
          constructor
          · rintro ((h1 | h2) | ⟨e1, he1, h2⟩)
            · exact Or.inl h1
            · exact Or.inr ⟨entry, by simp, rn, ri, leaves, hn, hl, h2⟩
            · exact Or.inr ⟨e1, by simp [he1], h2⟩
          · rintro (h1 | ⟨e1, he1, rn1, ri1, leaves1, h2, h3, h5⟩)
            · exact Or.inl (Or.inl h1)
            · rcases List.mem_cons.mp he1 with h6 | h6
              · subst h6
                rw [hn] at h2
                rw [hl] at h3
                cases h2
                cases h3
                exact Or.inl (Or.inr h5)
              · exact Or.inr ⟨e1, h6, rn1, ri1, leaves1, h2, h3, h5⟩

/-- C15 fails on `two_roots`: the graph is acyclic and both roots have an edge
to node 2; the list that `get_parents_to_leaves()` stores under key 2 is
`[(2, 5), (3, 7), (2, 6), (3, 7)]`, whose element at position 2, after the
first, is the second root edge `(2, 6)`; its node 2 has the outgoing edge
`(3, 7)`, so it is no leaf-level entry.  The first loop of `explain()` then
records node 2 (value 12), paired with the root edge info 5, as a conflict
node under its own name, whatever the node operations are. -/
theorem parents_to_leaves_inner_divergence :
    Acyclic two_roots ∧
    (∀ k, two_roots.get_parents_to_leaves (k + 4) =
      some [(2, [(2, 5), (3, 7), (2, 6), (3, 7)])]) ∧
    (node_path_at [(2, [((2 : Nat), (5 : Nat)), (3, 7), (2, 6), (3, 7)])] 2)[2]? =
      some (2, 6) ∧
    two_roots.get_edge_list 2 = some [(3, 7)] ∧
    (∀ ops : GroupOps Nat Nat, ∃ agg : Aggregation Nat Nat,
      explain_entries ops two_roots ([], [])
        [(2, [(2, 5), (3, 7), (2, 6), (3, 7)])] = some agg ∧
      (12, 5) ∈ map_at agg.1 (ops.get_name 12)) := by
  refine ⟨two_roots_wf.2.2, ?_, by decide, rfl, ?_⟩
  · intro k
    exact get_parents_to_leaves_mono two_roots 4 (k + 4) (by omega) _ (by decide)
  · intro ops
    have hsome : ∃ agg : Aggregation Nat Nat, explain_entries ops two_roots ([], [])
        [(2, [(2, 5), (3, 7), (2, 6), (3, 7)])] = some agg := by
      simp [explain_entries, explain_leaves, get_node, two_roots]
    obtain ⟨agg, h⟩ := hsome
    refine ⟨agg, h, ?_⟩
    rw [explain_entries_bluf ops two_roots _ ([], []) agg h]
    exact Or.inr ⟨(2, [(2, 5), (3, 7), (2, 6), (3, 7)]), by simp, 12, (2, 5),
      [(3, 7), (2, 6), (3, 7)], rfl, rfl, (2, 6), by simp, 12, rfl, rfl, rfl⟩

/-- Counterexample to C16: in `dep_chain` the root edge carries the dependency
`a` and the edge into the leaf `L` carries `b`; the record has the one entry
`[(1, a), (2, b)]`, and after the first loop of `explain()` the pair of the
root-adjacent node `A` and the root edge info is stored for the name `L` under
the key `b`, the joined dependencies of the leaf element, while nothing is
stored under `a`, the joined dependencies of the root edge. -/
theorem explain_key_counterexample :
    dep_chain.get_parents_to_leaves 3 = some dep_chain_record ∧
    (∃ agg, explain_entries dep_chain_ops dep_chain ([], []) dep_chain_record = some agg ∧
      map_at (map_at agg.2 "L") (join_sep ["a"] ", ") = [] ∧
      map_at (map_at agg.2 "L") (join_sep ["b"] ", ") =
        [(⟨"A", ["1"], false, none⟩, ⟨["a"]⟩)]) := by
  refine ⟨by decide, _, rfl, ?_, ?_⟩
  · decide
  · decide

/-- C16, amended: when the first loop of `explain()` runs over a record, the
pairs stored in `conflict_to_root_info` under a name `c1` and a string `c2`
are exactly the pairs of the node of an entry's key (the root-adjacent node)
and the edge info of the entry's first element (the root edge info), taken
over the entries with a later element `it` whose node has the name `c1` and
whose own edge info has the joined dependencies `c2`: the second key component
is the join of the dependencies of the later element, not of the root edge. -/
theorem explain_entries_key {N E : Type} (ops : GroupOps N E) (g : MPropertyGraph N E)
    (path : node_path E) (agg : Aggregation N E)
    (h : explain_entries ops g ([], []) path = some agg) (x : N × E) (c1 c2 : String) :
    x ∈ map_at (map_at agg.2 c1) c2 ↔
      ∃ entry ∈ path, ∃ root_node root_info leaves,
        g.get_node entry.1 = some root_node ∧ entry.2 = root_info :: leaves ∧
        x = (root_node, root_info.2) ∧
        ∃ it ∈ leaves, ∃ cn, g.get_node it.1 = some cn ∧
          ops.get_name cn = c1 ∧ ops.join (ops.m_deps it.2) ", " = c2 := by
  rw [explain_entries_spec ops g path ([], []) agg h]
  simp [map_at]

/-- Witness for C16, amended: the record of `dep_chain`, whose pair is found
under the name `L` and the key `b`. -/
theorem explain_entries_key_witness :
    ∃ agg, explain_entries dep_chain_ops dep_chain ([], []) dep_chain_record = some agg ∧
      ((⟨"A", ["1"], false, none⟩, ⟨["a"]⟩) : MGroupNode × MGroupEdgeInfo) ∈
        map_at (map_at agg.2 "L") "b" :=
  ⟨_, rfl,
    (explain_entries_key dep_chain_ops dep_chain dep_chain_record _ rfl
      (⟨"A", ["1"], false, none⟩, ⟨["a"]⟩) "L" "b").mpr
      ⟨(1, [(1, ⟨["a"]⟩), (2, ⟨["b"]⟩)]), by simp [dep_chain_record],
        ⟨"A", ["1"], false, none⟩, (1, ⟨["a"]⟩), [(2, ⟨["b"]⟩)], rfl, rfl, rfl,
        (2, ⟨["b"]⟩), by simp,
        ⟨"L", ["2"], false, some SolverRuleinfo.SOLVER_RULE_JOB_UNKNOWN_PACKAGE⟩,
        rfl, rfl, rfl⟩⟩

/-! ## explain: every access is inside its container -/

theorem node_path_keys_push_eq {U : Type} (p : node_path U) (k : node_id)
    (es : edge_list U) :
    node_path_keys (node_path_push p k es) =
      if k ∈ node_path_keys p then node_path_keys p else node_path_keys p ++ [k] := by
  induction p with
  | nil => simp [node_path_push, node_path_keys]
  | cons kv rest ih =>
    unfold node_path_push
    by_cases h1 : kv.1 = k
    · simp [h1, node_path_keys]
    · have h2 : ¬ k = kv.1 := fun h => h1 h.symm
      simp only [node_path_keys] at ih
      simp only [h1, if_false, node_path_keys, List.map_cons, List.mem_cons, h2, false_or, ih]
      split_ifs <;> simp

theorem node_path_push_nodup {U : Type} (p : node_path U) (k : node_id) (es : edge_list U)
    (h : (node_path_keys p).Nodup) : (node_path_keys (node_path_push p k es)).Nodup := by
  rw [node_path_keys_push_eq]
  split_ifs with hk
  · exact h
  · rw [List.nodup_append]
    exact ⟨h, by simp, by
      intro x hx1 hx2
      simp only [List.mem_singleton] at hx2
      exact hk (hx2 ▸ hx1)⟩

theorem paths_loop_nodup {U : Type} (f : node_id × U → Option (edge_list U))
    (es : edge_list U) (p r : node_path U) (hp : (node_path_keys p).Nodup)
    (h : paths_loop f p es = some r) : (node_path_keys r).Nodup := by
  induction es generalizing p with
  | nil =>
    simp only [paths_loop, Option.some.injEq] at h
    exact h ▸ hp
  | cons e rest ih =>
    cases hfe : f e with
    | none => simp [paths_loop, hfe] at h
    | some l =>
      simp only [paths_loop, hfe] at h
      exact ih _ (node_path_push_nodup _ _ _ (node_path_push_nodup _ _ _ hp)) h

theorem node_path_at_of_mem {U : Type} (r : node_path U) (h : (node_path_keys r).Nodup)
    (entry : node_id × edge_list U) (hmem : entry ∈ r) :
    node_path_at r entry.1 = entry.2 ∧ entry.1 ∈ node_path_keys r := by
  induction r with
  | nil => simp at hmem
  | cons kv rest ih =>
    simp only [node_path_keys, List.map_cons, List.nodup_cons] at h
    rcases List.mem_cons.mp hmem with h1 | h1
    · subst h1
      simp [node_path_at, node_path_keys]
    · have hne : ¬ kv.1 = entry.1 := by
        intro heq
        exact h.1 (heq ▸ List.mem_map.mpr ⟨entry, h1, rfl⟩)
      obtain ⟨h2, h3⟩ := ih h.2 h1
      exact ⟨by simp [node_path_at, hne, h2], by
        simp only [node_path_keys] at h3
        simp [node_path_keys, h3]⟩

theorem get_parents_to_leaves_nodup {T U : Type} (g : MPropertyGraph T U) (fuel : Nat)
    (r : node_path U) (h : g.get_parents_to_leaves fuel = some r) :
    (node_path_keys r).Nodup := by
  unfold get_parents_to_leaves at h
  cases hes : roots_loop g [] (List.range g.m_levels.length) with
  | none => simp [hes] at h
  | some es =>
    simp only [hes] at h
    exact paths_loop_nodup _ es [] r (by simp [node_path_keys]) h

theorem record_entry_bounds {T U : Type} (g : MPropertyGraph T U) (hs : Sized g)
    (ht : TargetsExist g) (hac : Acyclic g) (fuel : Nat)
    (hfuel : g.m_node_list.length ≤ fuel) :
    ∃ r, g.get_parents_to_leaves fuel = some r ∧
      ∀ entry ∈ r, 2 ≤ entry.2.length ∧ entry.1 < g.m_node_list.length ∧
        ∀ p ∈ entry.2, p.1 < g.m_node_list.length := by
  obtain ⟨r, hr, hat, hkeys⟩ := get_parents_to_leaves_record g hs ht hac fuel hfuel
  refine ⟨r, hr, ?_⟩
  intro entry hmem
  obtain ⟨h1, h2⟩ := node_path_at_of_mem r (get_parents_to_leaves_nodup g fuel r hr) entry hmem
  obtain ⟨e, he, hec⟩ := (hkeys entry.1).mp h2
  have hleaf : ∀ e1 ∈ root_edges g, leaves_of g fuel e1 ≠ [] ∧
      ∀ p ∈ leaves_of g fuel e1, p.1 < g.m_node_list.length := by
    intro e1 he1
    obtain ⟨l, hl⟩ := Option.isSome_iff_exists.mp
      (root_edges_total g hs ht hac fuel hfuel e1 he1)
    have : leaves_of g fuel e1 = l := by simp [leaves_of, hl]
    rw [this]
    obtain ⟨k1, k2⟩ := get_leaves_props g fuel e1 l hl
    exact ⟨k1, fun p hp => childless_lt g hs p.1 (k2 p hp)⟩
  rw [← h1, hat entry.1]
  refine ⟨?_, hec ▸ root_edges_lt g ht e he, ?_⟩
  · have hmem2 : e ∈ (root_edges g).filter (fun e => decide (e.1 = entry.1)) :=
      List.mem_filter.mpr ⟨he, by simp [hec]⟩
    cases hf : (root_edges g).filter (fun e => decide (e.1 = entry.1)) with
    | nil => simp [hf] at hmem2
    | cons e0 rest =>
      have he0 : e0 ∈ root_edges g := by
        have : e0 ∈ (root_edges g).filter (fun e => decide (e.1 = entry.1)) := by simp [hf]
        exact (List.mem_filter.mp this).1
      have hne := (hleaf e0 he0).1
      have hpos : 1 ≤ (leaves_of g fuel e0).length := by
        cases hl0 : leaves_of g fuel e0 with
        | nil => exact absurd hl0 hne
        | cons a b => simp
      simp only [List.flatMap_cons, List.length_append, List.length_cons]
      omega
  · intro p hp
    obtain ⟨e1, he1, hp1⟩ := List.mem_flatMap.mp hp
    have he1' := (List.mem_filter.mp he1).1
    rcases List.mem_cons.mp hp1 with h3 | h3
    · exact h3 ▸ root_edges_lt g ht e1 he1'
    · exact (hleaf e1 he1').2 p h3

theorem map_push_ne_nil {V : Type} (m : List (String × List V)) (k : String) (v : V)
    (h : ∀ kv ∈ m, kv.2 ≠ []) : ∀ kv ∈ map_push m k v, kv.2 ≠ [] := by
  induction m with
  | nil =>
    intro kv hkv
    simp only [map_push, List.mem_singleton] at hkv
    subst hkv
    simp
  | cons kv0 rest ih =>
    intro kv hkv
    unfold map_push at hkv
    split_ifs at hkv with h1
    · rcases List.mem_cons.mp hkv with h2 | h2
      · subst h2
        simp
      · exact h kv (by simp [h2])
    · rcases List.mem_cons.mp hkv with h2 | h2
      · exact h kv (by simp [h2])
      · exact ih (fun kv1 h3 => h kv1 (by simp [h3])) kv h2

theorem explain_leaves_some {N E : Type} (ops : GroupOps N E) (g : MPropertyGraph N E)
    (rn : N) (re : E) (leaves : edge_list E) (agg : Aggregation N E)
    (hl : ∀ it ∈ leaves, it.1 < g.m_node_list.length) (hagg : ∀ kv ∈ agg.1, kv.2 ≠ []) :
    ∃ agg1, explain_leaves ops g rn re agg leaves = some agg1 ∧ ∀ kv ∈ agg1.1, kv.2 ≠ [] := by
  induction leaves generalizing agg with
  | nil => exact ⟨agg, rfl, hagg⟩
  | cons it rest ih =>
    have hit := hl it (by simp)
    have hn : g.get_node it.1 = some g.m_node_list[it.1] := by
      simp [get_node, List.getElem?_eq_getElem hit]
    simp only [explain_leaves, hn]
    exact ih _ (fun it1 h1 => hl it1 (by simp [h1])) (map_push_ne_nil _ _ _ hagg)

theorem explain_entries_some {N E : Type} (ops : GroupOps N E) (g : MPropertyGraph N E)
    (path : node_path E) (agg : Aggregation N E)
    (hp : ∀ entry ∈ path, 2 ≤ entry.2.length ∧ entry.1 < g.m_node_list.length ∧
      ∀ p ∈ entry.2, p.1 < g.m_node_list.length)
    (hagg : ∀ kv ∈ agg.1, kv.2 ≠ []) :
    ∃ agg1, explain_entries ops g agg path = some agg1 ∧ ∀ kv ∈ agg1.1, kv.2 ≠ [] := by
  induction path generalizing agg with
  | nil => exact ⟨agg, rfl, hagg⟩
  | cons entry rest ih =>
    obtain ⟨h1, h2, h3⟩ := hp entry (by simp)
    have hn : g.get_node entry.1 = some g.m_node_list[entry.1] := by
      simp [get_node, List.getElem?_eq_getElem h2]
    cases hl : entry.2 with
    | nil => simp [hl] at h1
    | cons ri leaves =>
      obtain ⟨agg2, k1, k2⟩ := explain_leaves_some ops g g.m_node_list[entry.1] ri.2 leaves agg
        (fun it hit => h3 it (by simp [hl, hit])) hagg
      obtain ⟨agg3, k3, k4⟩ := ih agg2 (fun e he => hp e (by simp [he])) k2
      exact ⟨agg3, by simp [explain_entries, hn, hl, k1, k3], k4⟩

theorem explain_render_some {N E : Type} (ops : GroupOps N E)
    (ctr : List (String × List (String × List (N × E))))
    (bluf : List (String × List (N × E))) (sstr : String)
    (h : ∀ kv ∈ bluf, kv.2 ≠ []) : ∃ text, explain_render ops ctr sstr bluf = some text := by
  induction bluf generalizing sstr with
  | nil => exact ⟨sstr, rfl⟩
  | cons entry rest ih =>
    have hne := h entry (by simp)
    obtain ⟨first, others, hfo⟩ := List.exists_cons_of_ne_nil hne
    have hpar : ∃ text, explain_paragraph ops ctr entry = some text := by
      unfold explain_paragraph
      rw [hfo]
      simp only
      split_ifs
      · exact ⟨_, rfl⟩
      · exact ⟨_, rfl⟩
    obtain ⟨text, htext⟩ := hpar
    obtain ⟨out, hout⟩ := ih (sstr ++ text) (fun kv hkv => h kv (by simp [hkv]))
    exact ⟨out, by simp [explain_render, htext, hout]⟩

/-- C20: in an acyclic graph whose vectors have equal length and whose entries
target existing ids, `get_parents_to_leaves()` returns a record in which every
stored list has at least two elements, every key is an existing id and every
node id in a list is an existing id; so the first loop of `explain()` reads
`entry.second[0]`, iterates from `begin() + 1` and calls `get_node` inside the
containers, every list of `bluf_problems_packages` has an element `[0]`, and
`explain()` returns its text. -/
theorem explain_in_bounds {N E : Type} (ops : GroupOps N E) (g : MPropertyGraph N E)
    (hs : Sized g) (ht : TargetsExist g) (hac : Acyclic g) (fuel : Nat)
    (hfuel : g.m_node_list.length ≤ fuel) :
    ∃ r, g.get_parents_to_leaves fuel = some r ∧
      (∀ entry ∈ r, 2 ≤ entry.2.length ∧ entry.1 < g.m_node_list.length ∧
        ∀ p ∈ entry.2, p.1 < g.m_node_list.length) ∧
      (∃ agg, explain_entries ops g ([], []) r = some agg ∧ ∀ kv ∈ agg.1, kv.2 ≠ []) ∧
      (∃ text, explain ops g fuel = some text) := by
  obtain ⟨r, hr, hb⟩ := record_entry_bounds g hs ht hac fuel hfuel
  obtain ⟨agg, h1, h2⟩ := explain_entries_some ops g r ([], []) hb (by simp)
  obtain ⟨text, h3⟩ := explain_render_some ops agg.2 agg.1 "" h2
  exact ⟨r, hr, hb, ⟨agg, h1, h2⟩, ⟨text, by simp [explain, hr, h1, h3]⟩⟩

theorem dep_chain_wf : Sized dep_chain ∧ TargetsExist dep_chain ∧ Acyclic dep_chain :=
  ⟨⟨rfl, rfl⟩, by unfold TargetsExist; decide,
    acyclic_of_ascending _ (by unfold Ascending; decide)⟩

/-- Witness for C20: `explain()` on `dep_chain` returns a text. -/
theorem explain_in_bounds_witness :
    ∃ text, explain dep_chain_ops dep_chain 3 = some text := by
  obtain ⟨r, -, -, -, h⟩ := explain_in_bounds dep_chain_ops dep_chain dep_chain_wf.1
    dep_chain_wf.2.1 dep_chain_wf.2.2 3 (by decide)
  exact h

/-! ## explain: the scenario of the specification -/

set_option maxRecDepth 100000

theorem explain_in_insertion {N E : Type} (ops : GroupOps N E) (g : MPropertyGraph N E)
    (fuel : Nat) : explain_in ops insertion_order g fuel = explain ops g fuel := by
  have hpar : ∀ ctr entry, explain_paragraph_in ops insertion_order ctr entry =
      explain_paragraph ops ctr entry := fun _ _ => rfl
  have hren : ∀ ctr (bluf : List (String × List (N × E))) sstr,
      explain_render_in ops insertion_order ctr sstr bluf =
        explain_render ops ctr sstr bluf := by
    intro ctr bluf
    induction bluf with
    | nil => intro sstr; rfl
    | cons entry rest ih =>
      intro sstr
      simp only [explain_render_in, explain_render, hpar]
      cases explain_paragraph ops ctr entry with
      | none => rfl
      | some text => exact ih _
  unfold explain_in explain
  cases g.get_parents_to_leaves fuel with
  | none => rfl
  | some path =>
    simp only [insertion_order]
    cases explain_entries ops g ([], []) path with
    | none => rfl
    | some agg => exact hren _ _ _

theorem explain_in_mono {N E : Type} (ops : GroupOps N E) (ord : IterOrder N E)
    (g : MPropertyGraph N E) (k m : Nat) (hkm : k ≤ m) (r : node_path E)
    (h : g.get_parents_to_leaves k = some r) :
    explain_in ops ord g m = explain_in ops ord g k := by
  simp [explain_in, h, get_parents_to_leaves_mono g k m hkm r h]

theorem explain_mono {N E : Type} (ops : GroupOps N E) (g : MPropertyGraph N E) (k m : Nat)
    (hkm : k ≤ m) (r : node_path E) (h : g.get_parents_to_leaves k = some r) :
    explain ops g m = explain ops g k := by
  simp [explain, h, get_parents_to_leaves_mono g k m hkm r h]

theorem mem_set_insert (s : List String) (x y : String) :
    x ∈ set_insert s y ↔ (x ∈ s ∨ x = y) := by
  unfold set_insert
  split_ifs with h
  · constructor
    · exact Or.inl
    · rintro (h1 | h1)
      · exact h1
      · exact h1 ▸ h
  · simp

theorem set_insert_nodup (s : List String) (y : String) (h : s.Nodup) :
    (set_insert s y).Nodup := by
  unfold set_insert
  split_ifs with h1
  · exact h
  · rw [List.nodup_append]
    exact ⟨h, by simp, by
      intro x hx1 hx2
      simp only [List.mem_singleton] at hx2
      exact h1 (hx2 ▸ hx1)⟩

theorem foldl_insert {α : Type} (f : α → String) (l : List α) (s : List String)
    (hs : s.Nodup) :
    (l.foldl (fun s1 a => set_insert s1 (f a)) s).Nodup ∧
    ∀ x, x ∈ l.foldl (fun s1 a => set_insert s1 (f a)) s ↔ (x ∈ s ∨ ∃ a ∈ l, x = f a) := by
  induction l generalizing s with
  | nil => exact ⟨hs, by simp⟩
  | cons a rest ih =>
    obtain ⟨h1, h2⟩ := ih (set_insert s (f a)) (set_insert_nodup s (f a) hs)
    refine ⟨h1, ?_⟩
    intro x
    simp only [List.foldl_cons]
    rw [h2 x, mem_set_insert]
    constructor
    · rintro ((h3 | h3) | ⟨b, hb, h3⟩)
      · exact Or.inl h3
      · exact Or.inr ⟨a, by simp, h3⟩
      · exact Or.inr ⟨b, by simp [hb], h3⟩
    · rintro (h3 | ⟨b, hb, h3⟩)
      · exact Or.inl (Or.inl h3)
      · rcases List.mem_cons.mp hb with h4 | h4
        · exact Or.inl (Or.inr (h4 ▸ h3))
        · exact Or.inr ⟨b, h4, h3⟩

theorem conflict_lines_spec {N E : Type} (ops : GroupOps N E)
    (buckets : List (String × List (N × E))) :
    (conflict_lines ops buckets).Nodup ∧
    ∀ x, x ∈ conflict_lines ops buckets ↔
      ∃ b ∈ buckets, ∃ ri ∈ b.2, x = explain_edge ops ri b.1 := by
  have key : ∀ (bs : List (String × List (N × E))) (s : List String), s.Nodup →
      (bs.foldl (fun cs bucket =>
        bucket.2.foldl (fun cs1 ri => set_insert cs1 (explain_edge ops ri bucket.1)) cs)
        s).Nodup ∧
      ∀ x, x ∈ bs.foldl (fun cs bucket =>
        bucket.2.foldl (fun cs1 ri => set_insert cs1 (explain_edge ops ri bucket.1)) cs) s ↔
        (x ∈ s ∨ ∃ b ∈ bs, ∃ ri ∈ b.2, x = explain_edge ops ri b.1) := by
    intro bs
    induction bs with
    | nil => intro s hs; exact ⟨hs, by simp⟩
    | cons b rest ih =>
      intro s hs
      obtain ⟨k1, k2⟩ := foldl_insert (fun ri => explain_edge ops ri b.1) b.2 s hs
      obtain ⟨h1, h2⟩ := ih _ k1
      refine ⟨h1, ?_⟩
      intro x
      simp only [List.foldl_cons]
      rw [h2 x, k2 x]
      constructor
      · rintro ((h3 | ⟨ri, hri, h3⟩) | ⟨b1, hb1, h3⟩)
        · exact Or.inl h3
        · exact Or.inr ⟨b, by simp, ri, hri, h3⟩
        · exact Or.inr ⟨b1, by simp [hb1], h3⟩
      · rintro (h3 | ⟨b1, hb1, ri, hri, h3⟩)
        · exact Or.inl (Or.inl h3)
        · rcases List.mem_cons.mp hb1 with h4 | h4
          · subst h4
            exact Or.inl (Or.inr ⟨ri, hri, h3⟩)
          · exact Or.inr ⟨b1, h4, ri, hri, h3⟩
  obtain ⟨h1, h2⟩ := key buckets [] List.nodup_nil
  exact ⟨h1, fun x => (h2 x).trans (by simp)⟩

theorem perm_pair {α : Type} (l : List α) (a b : α) (h : l.Perm [a, b]) :
    l = [a, b] ∨ l = [b, a] := by
  have hlen := h.length_eq
  match l, hlen with
  | [x, y], _ =>
    have ha : a ∈ [x, y] := h.symm.subset (by simp)
    simp only [List.mem_cons, List.mem_singleton, List.not_mem_nil, or_false] at ha
    rcases ha with rfl | rfl
    · have := (List.perm_cons a).mp h
      rw [List.perm_singleton] at this
      simp only [List.cons.injEq, and_true] at this
      exact Or.inl (by rw [this])
    · have h2 : [a, x].Perm [a, b] := (List.Perm.swap x a []).trans h
      have := (List.perm_cons a).mp h2
      rw [List.perm_singleton] at this
      simp only [List.cons.injEq, and_true] at this
      exact Or.inr (by rw [this])

theorem scenario_record (vA vB dA dB : List String) :
    (scenario vA vB dA dB).get_parents_to_leaves 5 =
      some [(1, [(1, ⟨["X>=2"]⟩), (3, ⟨dA⟩)]), (2, [(2, ⟨["X<2"]⟩), (4, ⟨dB⟩)])] := by
  simp [get_parents_to_leaves, roots_loop, paths_loop, get_leaves, leaves_loop, node_path_push,
    scenario, get_edge_list]

theorem lines_one_bucket {N E : Type} (ops : GroupOps N E) (k : String) (r1 r2 : N × E)
    (x : String) :
    (∃ b ∈ [(k, [r1, r2])], ∃ ri ∈ b.2, x = explain_edge ops ri b.1) ↔
      (x = explain_edge ops r1 k ∨ x = explain_edge ops r2 k) := by
  constructor
  · rintro ⟨b, hb, ri, hri, rfl⟩
    simp only [List.mem_singleton] at hb
    subst hb
    simp only [List.mem_cons, List.mem_singleton, List.not_mem_nil, or_false] at hri
    rcases hri with rfl | rfl
    · exact Or.inl rfl
    · exact Or.inr rfl
  · rintro (rfl | rfl)
    · exact ⟨(k, [r1, r2]), List.mem_singleton.mpr rfl, r1, by simp, rfl⟩
    · exact ⟨(k, [r1, r2]), List.mem_singleton.mpr rfl, r2, by simp, rfl⟩

theorem lines_two_buckets {N E : Type} (ops : GroupOps N E) (k1 k2 : String) (r1 r2 : N × E)
    (x : String) :
    (∃ b ∈ [(k1, [r1]), (k2, [r2])], ∃ ri ∈ b.2, x = explain_edge ops ri b.1) ↔
      (x = explain_edge ops r1 k1 ∨ x = explain_edge ops r2 k2) := by
  constructor
  · rintro ⟨b, hb, ri, hri, rfl⟩
    simp only [List.mem_cons, List.mem_singleton, List.not_mem_nil, or_false] at hb
    rcases hb with rfl | rfl
    · simp only [List.mem_singleton] at hri
      subst hri
      exact Or.inl rfl
    · simp only [List.mem_singleton] at hri
      subst hri
      exact Or.inr rfl
  · rintro (rfl | rfl)
    · exact ⟨(k1, [r1]), by simp, r1, by simp, rfl⟩
    · exact ⟨(k2, [r2]), by simp, r2, by simp, rfl⟩

theorem explain_edge_group (show_node : MGroupNode → String)
    (show_edge : MGroupEdgeInfo → String) (n : MGroupNode) (e : MGroupEdgeInfo) (k : String) :
    explain_edge (group_ops show_node show_edge) (n, e) k =
      detail_line (show_edge e) n.m_pkg_versions k := rfl

theorem scenario_agg (show_node : MGroupNode → String) (show_edge : MGroupEdgeInfo → String)
    (vA vB dA dB : List String) (path : node_path MGroupEdgeInfo)
    (hpath : path.Perm
      [(1, [(1, ⟨["X>=2"]⟩), (3, ⟨dA⟩)]), (2, [(2, ⟨["X<2"]⟩), (4, ⟨dB⟩)])]) :
    ∃ l bk, explain_entries (group_ops show_node show_edge) (scenario vA vB dA dB) ([], [])
        path = some ([("X", l)], [("X", bk)]) ∧
      l.Perm [(⟨"X", ["2"], true, none⟩, ⟨["X>=2"]⟩), (⟨"X", ["1"], true, none⟩, ⟨["X<2"]⟩)] ∧
      ∀ x, (∃ b ∈ bk, ∃ ri ∈ b.2, x = explain_edge (group_ops show_node show_edge) ri b.1) ↔
        (x = detail_line (show_edge ⟨["X>=2"]⟩) vA (join_sep dA ", ") ∨
          x = detail_line (show_edge ⟨["X<2"]⟩) vB (join_sep dB ", ")) := by
  rcases perm_pair _ _ _ hpath with h | h
  · subst h
    by_cases hkey : join_sep dA ", " = join_sep dB ", "
    · refine ⟨[(⟨"X", ["2"], true, none⟩, ⟨["X>=2"]⟩), (⟨"X", ["1"], true, none⟩, ⟨["X<2"]⟩)],
        [(join_sep dA ", ", [(⟨"A", vA, false, none⟩, ⟨["X>=2"]⟩),
          (⟨"B", vB, false, none⟩, ⟨["X<2"]⟩)])], ?_, List.Perm.refl _, ?_⟩
      · simp [explain_entries, explain_leaves, get_node, scenario, group_ops, map_push,
          map_push2, hkey]
      · intro x
        rw [lines_one_bucket, explain_edge_group, explain_edge_group, ← hkey]
    · refine ⟨[(⟨"X", ["2"], true, none⟩, ⟨["X>=2"]⟩), (⟨"X", ["1"], true, none⟩, ⟨["X<2"]⟩)],
        [(join_sep dA ", ", [(⟨"A", vA, false, none⟩, ⟨["X>=2"]⟩)]),
          (join_sep dB ", ", [(⟨"B", vB, false, none⟩, ⟨["X<2"]⟩)])], ?_, List.Perm.refl _, ?_⟩
      · simp [explain_entries, explain_leaves, get_node, scenario, group_ops, map_push,
          map_push2, hkey]
      · intro x
        rw [lines_two_buckets, explain_edge_group, explain_edge_group]
  · subst h
    by_cases hkey : join_sep dB ", " = join_sep dA ", "
    · refine ⟨[(⟨"X", ["1"], true, none⟩, ⟨["X<2"]⟩), (⟨"X", ["2"], true, none⟩, ⟨["X>=2"]⟩)],
        [(join_sep dB ", ", [(⟨"B", vB, false, none⟩, ⟨["X<2"]⟩),
          (⟨"A", vA, false, none⟩, ⟨["X>=2"]⟩)])], ?_, List.Perm.swap _ _ _, ?_⟩
      · simp [explain_entries, explain_leaves, get_node, scenario, group_ops, map_push,
          map_push2, hkey]
      · intro x
        rw [lines_one_bucket, explain_edge_group, explain_edge_group, or_comm, ← hkey]
    · refine ⟨[(⟨"X", ["1"], true, none⟩, ⟨["X<2"]⟩), (⟨"X", ["2"], true, none⟩, ⟨["X>=2"]⟩)],
        [(join_sep dB ", ", [(⟨"B", vB, false, none⟩, ⟨["X<2"]⟩)]),
          (join_sep dA ", ", [(⟨"A", vA, false, none⟩, ⟨["X>=2"]⟩)])], ?_,
        List.Perm.swap _ _ _, ?_⟩
      · simp [explain_entries, explain_leaves, get_node, scenario, group_ops, map_push,
          map_push2, hkey]
      · intro x
        rw [lines_two_buckets, explain_edge_group, explain_edge_group, or_comm]

theorem scenario_explain_in (show_node : MGroupNode → String)
    (show_edge : MGroupEdgeInfo → String) (ord : IterOrder MGroupNode MGroupEdgeInfo)
    (hord : Admissible ord) (vA vB dA dB : List String) :
    ∃ specs lines, specs.Perm ["X>=2", "X<2"] ∧ lines.Nodup ∧
      (∀ x, x ∈ lines ↔
        (x = detail_line (show_edge ⟨["X>=2"]⟩) vA (join_sep dA ", ") ∨
          x = detail_line (show_edge ⟨["X<2"]⟩) vB (join_sep dB ", "))) ∧
      explain_in (group_ops show_node show_edge) ord (scenario vA vB dA dB) 5 = some
        ("Requested packages " ++ join_sep specs "," ++ "\n" ++
          "\tcannot be installed because they depend on different versions of X\n" ++
          join_sep lines "\t\t\n" ++ "\n") := by
  obtain ⟨hp, hb, hk, hr, hc⟩ := hord
  obtain ⟨l, bk, hagg, hl, hlines⟩ := scenario_agg show_node show_edge vA vB dA dB
    (ord.path [(1, [(1, ⟨["X>=2"]⟩), (3, ⟨dA⟩)]), (2, [(2, ⟨["X<2"]⟩), (4, ⟨dB⟩)])]) (hp _)
  have hbl : ord.bluf [("X", l)] = [("X", l)] := List.perm_singleton.mp (hb _)
  have hreq : (requested_set (group_ops show_node show_edge) l).Perm ["X>=2", "X<2"] := by
    rcases perm_pair l _ _ hl with rfl | rfl
    · exact List.Perm.of_eq (by simp [requested_set, group_ops, set_insert])
    · exact (List.Perm.of_eq (by simp [requested_set, group_ops, set_insert])).trans
        (List.Perm.swap _ _ _)
  have hfirst : ∃ first rest, l = first :: rest ∧ first.1.m_is_conflict = true := by
    rcases perm_pair l _ _ hl with rfl | rfl
    · exact ⟨_, _, rfl, rfl⟩
    · exact ⟨_, _, rfl, rfl⟩
  obtain ⟨first, rest, hfr, hconf⟩ := hfirst
  refine ⟨ord.requested (requested_set (group_ops show_node show_edge) l),
    ord.conflicts (conflict_lines (group_ops show_node show_edge) (ord.buckets bk)),
    (hr _).trans hreq, ?_, ?_, ?_⟩
  · exact (hc _).nodup_iff.mpr (conflict_lines_spec _ _).1
  · intro x
    rw [(hc _).mem_iff, (conflict_lines_spec _ _).2 x, ← hlines x]
    constructor
    · rintro ⟨b, hb1, h⟩
      exact ⟨b, (hk bk).mem_iff.mp hb1, h⟩
    · rintro ⟨b, hb1, h⟩
      exact ⟨b, (hk bk).mem_iff.mpr hb1, h⟩
  · rw [explain_in, scenario_record]
    simp only [hagg, hbl]
    subst hfr
    simp [explain_render_in, explain_paragraph_in, group_ops, map_at, explain_set, hconf,
      String.append_assoc]

theorem insertion_order_admissible {N E : Type} :
    Admissible (insertion_order : IterOrder N E) :=
  ⟨fun _ => List.Perm.refl _, fun _ => List.Perm.refl _, fun _ => List.Perm.refl _,
    fun _ => List.Perm.refl _, fun _ => List.Perm.refl _⟩

theorem scenario_text_cases (ord : IterOrder MGroupNode MGroupEdgeInfo)
    (hord : Admissible ord) (text : String)
    (h : explain_in scenario_ops ord (scenario ["1.0"] ["1.1"] ["X>=2"] ["X<2"]) 5 =
      some text) :
    ∃ specs lines,
      (specs = ["X>=2", "X<2"] ∨ specs = ["X<2", "X>=2"]) ∧
      (lines = ["X>=2 versions: [1.0] depend on X>=2", "X<2 versions: [1.1] depend on X<2"] ∨
        lines = ["X<2 versions: [1.1] depend on X<2", "X>=2 versions: [1.0] depend on X>=2"]) ∧
      text = "Requested packages " ++ join_sep specs "," ++ "\n" ++
        "\tcannot be installed because they depend on different versions of X\n" ++
        join_sep lines "\t\t\n" ++ "\n" := by
  obtain ⟨specs, lines, h1, h2, h3, h4⟩ :=
    scenario_explain_in (fun n => n.m_name) (fun e => join_sep e.m_deps ", ") ord hord
      ["1.0"] ["1.1"] ["X>=2"] ["X<2"]
  have hA : detail_line (join_sep ["X>=2"] ", ") ["1.0"] (join_sep ["X>=2"] ", ") =
      "X>=2 versions: [1.0] depend on X>=2" := by decide
  have hB : detail_line (join_sep ["X<2"] ", ") ["1.1"] (join_sep ["X<2"] ", ") =
      "X<2 versions: [1.1] depend on X<2" := by decide
  simp only [hA, hB] at h3
  have hperm : lines.Perm
      ["X>=2 versions: [1.0] depend on X>=2", "X<2 versions: [1.1] depend on X<2"] := by
    rw [List.perm_ext_iff_of_nodup h2 (by decide)]
    intro x
    rw [h3 x]
    simp
  have heq : explain_in scenario_ops ord (scenario ["1.0"] ["1.1"] ["X>=2"] ["X<2"]) 5 =
      explain_in (group_ops (fun n => n.m_name) (fun e => join_sep e.m_deps ", ")) ord
        (scenario ["1.0"] ["1.1"] ["X>=2"] ["X<2"]) 5 := rfl
  rw [heq, h4] at h
  exact ⟨specs, lines, perm_pair _ _ _ h1, perm_pair _ _ _ hperm, (Option.some.inj h).symm⟩

theorem scenario_not_prefix (show_node : MGroupNode → String)
    (show_edge : MGroupEdgeInfo → String) (ord : IterOrder MGroupNode MGroupEdgeInfo)
    (hord : Admissible ord) (vA vB dA dB : List String) (k : Nat) (text : String)
    (h : explain_in (group_ops show_node show_edge) ord (scenario vA vB dA dB) (k + 5) =
      some text) :
    ¬ scenario_sentence.data <+: text.data := by
  rw [explain_in_mono _ _ _ 5 (k + 5) (by omega) _ (scenario_record _ _ _ _)] at h
  obtain ⟨specs, lines, h1, -, -, h4⟩ :=
    scenario_explain_in show_node show_edge ord hord vA vB dA dB
  rw [h4] at h
  have ht := (Option.some.inj h).symm
  have hP : ("Requested packages " ++ join_sep specs "," ++ "\n").data <+: text.data := by
    rw [ht]
    exact ⟨("\tcannot be installed because they depend on different versions of X\n" ++
      join_sep lines "\t\t\n" ++ "\n").data, by simp [String.data_append, List.append_assoc]⟩
  intro hS
  rcases perm_pair _ _ _ h1 with rfl | rfl
  · have h2 := List.prefix_of_prefix_length_le hP hS (by decide)
    revert h2
    decide
  · have h2 := List.prefix_of_prefix_length_le hP hS (by decide)
    revert h2
    decide

/-- Counterexample to C14: whatever the stream operators, the versions, the
dependencies on the leaf edges and the iteration order of the unordered
containers, the text that `explain` returns for the scenario does not begin
with the quoted sentence: after the requested packages come a line break and
a tab where the sentence has a blank.  For the leaf edges carrying `X>=2` and
`X<2`, the versions `1.0` and `1.1` for `A` and `B`, and stream operators that
write names and joined dependency strings, `explain` returns `scenario_text`,
and the sentence occurs nowhere in the text, for no iteration order. -/
theorem explain_scenario_counterexample :
    (∀ (show_node : MGroupNode → String) (show_edge : MGroupEdgeInfo → String)
        (ord : IterOrder MGroupNode MGroupEdgeInfo), Admissible ord →
      ∀ (vA vB dA dB : List String) (k : Nat) (text : String),
        explain_in (group_ops show_node show_edge) ord (scenario vA vB dA dB) (k + 5) =
          some text →
        ¬ scenario_sentence.data <+: text.data) ∧
    (∀ k, explain scenario_ops (scenario ["1.0"] ["1.1"] ["X>=2"] ["X<2"]) (k + 5) =
      some scenario_text) ∧
    (¬ ∃ pre post : List Char,
      scenario_text.data = pre ++ scenario_sentence.data ++ post) ∧
    (∀ ord : IterOrder MGroupNode MGroupEdgeInfo, Admissible ord → ∀ (k : Nat) (text : String),
      explain_in scenario_ops ord (scenario ["1.0"] ["1.1"] ["X>=2"] ["X<2"]) (k + 5) =
        some text →
      ¬ ∃ pre post : List Char, text.data = pre ++ scenario_sentence.data ++ post) := by
  have hall : ∀ ord : IterOrder MGroupNode MGroupEdgeInfo, Admissible ord →
      ∀ (k : Nat) (text : String),
      explain_in scenario_ops ord (scenario ["1.0"] ["1.1"] ["X>=2"] ["X<2"]) (k + 5) =
        some text →
      ¬ ∃ pre post : List Char, text.data = pre ++ scenario_sentence.data ++ post := by
    intro ord hord k text h
    rw [explain_in_mono _ _ _ 5 (k + 5) (by omega) _ (scenario_record _ _ _ _)] at h
    obtain ⟨specs, lines, hs, hl, rfl⟩ := scenario_text_cases ord hord text h
    rintro ⟨pre, post, hpp⟩
    rcases hs with rfl | rfl <;> rcases hl with rfl | rfl
    all_goals
      have h2 : scenario_sentence.data <:+: _ := ⟨pre, post, hpp.symm⟩
      revert h2
      decide
  refine ⟨?_, ?_, ?_, hall⟩
  · intro show_node show_edge ord hord vA vB dA dB k text h
    exact scenario_not_prefix show_node show_edge ord hord vA vB dA dB k text h
  · intro k
    rw [explain_mono _ _ 5 (k + 5) (by omega) _ (scenario_record _ _ _ _)]
    decide
  · rintro ⟨pre, post, h⟩
    have h2 : scenario_sentence.data <:+: scenario_text.data := ⟨pre, post, h.symm⟩
    revert h2
    decide

/-- C14, amended: for the scenario graph (root to `A` and `B`, `A` to the leaf
`X2`, `B` to the leaf `X1`, the leaves named `X` and in conflict), for every
pair of stream operators, every version lists of `A` and `B`, every dependency
lists `dA`, `dB` on the two leaf edges and every iteration order of the
unordered containers, `explain` returns, with enough fuel, the text made of:
`Requested packages `, the two requested specs `X>=2` and `X<2` in some order
joined by a comma, a line break, a tab and
`cannot be installed because they depend on different versions of X`, a line
break, and then the two detail lines, one per (`A`, `B`) group, in some order,
joined by `\t\t\n`, and a final line break.  The detail line of a group is the
printed root-edge info, ` versions: [`, the versions joined by `, `,
`] depend on ` and the joined dependency strings of the leaf edge; two equal
detail lines are written once.  With first-insertion order `explain_in` is
`explain`. -/
theorem explain_scenario_spec (show_node : MGroupNode → String)
    (show_edge : MGroupEdgeInfo → String) (ord : IterOrder MGroupNode MGroupEdgeInfo)
    (hord : Admissible ord) (vA vB dA dB : List String) (k : Nat) :
    (∃ specs lines, specs.Perm ["X>=2", "X<2"] ∧ lines.Nodup ∧
      (∀ x, x ∈ lines ↔
        (x = detail_line (show_edge ⟨["X>=2"]⟩) vA (join_sep dA ", ") ∨
          x = detail_line (show_edge ⟨["X<2"]⟩) vB (join_sep dB ", "))) ∧
      explain_in (group_ops show_node show_edge) ord (scenario vA vB dA dB) (k + 5) = some
        ("Requested packages " ++ join_sep specs "," ++ "\n" ++
          "\tcannot be installed because they depend on different versions of X\n" ++
          join_sep lines "\t\t\n" ++ "\n")) ∧
    explain_in (group_ops show_node show_edge) insertion_order (scenario vA vB dA dB) (k + 5) =
      explain (group_ops show_node show_edge) (scenario vA vB dA dB) (k + 5) := by
  refine ⟨?_, explain_in_insertion _ _ _⟩
  rw [explain_in_mono _ _ _ 5 (k + 5) (by omega) _ (scenario_record _ _ _ _)]
  exact scenario_explain_in show_node show_edge ord hord vA vB dA dB

/-- Witness for C14, amended: first-insertion order is an admissible
iteration order, and at the versions `1.0`, `1.1` and the leaf dependencies
`X>=2`, `X<2` the theorem gives the text of `explain`. -/
theorem explain_scenario_spec_witness :
    Admissible (insertion_order : IterOrder MGroupNode MGroupEdgeInfo) ∧
    ((∃ specs lines, specs.Perm ["X>=2", "X<2"] ∧ lines.Nodup ∧
      (∀ x, x ∈ lines ↔
        (x = detail_line (join_sep ["X>=2"] ", ") ["1.0"] (join_sep ["X>=2"] ", ") ∨
          x = detail_line (join_sep ["X<2"] ", ") ["1.1"] (join_sep ["X<2"] ", "))) ∧
      explain_in scenario_ops insertion_order
          (scenario ["1.0"] ["1.1"] ["X>=2"] ["X<2"]) (0 + 5) = some
        ("Requested packages " ++ join_sep specs "," ++ "\n" ++
          "\tcannot be installed because they depend on different versions of X\n" ++
          join_sep lines "\t\t\n" ++ "\n")) ∧
    explain_in scenario_ops insertion_order
        (scenario ["1.0"] ["1.1"] ["X>=2"] ["X<2"]) (0 + 5) =
      explain scenario_ops (scenario ["1.0"] ["1.1"] ["X>=2"] ["X<2"]) (0 + 5)) :=
  ⟨insertion_order_admissible,
    explain_scenario_spec (fun n => n.m_name) (fun e => join_sep e.m_deps ", ")
      insertion_order insertion_order_admissible ["1.0"] ["1.1"] ["X>=2"] ["X<2"] 0⟩

end mamba
